import Mathlib

/-!
# A verification development for `matrix.h`

`matrix<T>` is a dense row-major matrix that owns a buffer obtained from
`new[]`.  The embedding keeps the pointer structure of the C++ code:

* the free store is a list of allocated arrays (`Heap`), a pointer is a block
  together with an element offset (`Ptr`), and `nullptr` is the pointer with no
  block;
* every function of the class is a Lean function that takes the current free
  store and returns `none` when the C++ code has undefined behaviour (a read or
  write outside an allocated array, a null dereference, an invalid iterator
  range) or when an `assert` fails, and otherwise the result together with the
  new free store;
* `size_t` is a 64-bit unsigned integer and `difference_type` a 64-bit signed
  one.  Their values are natural numbers and integers; the product
  `rows * cols` of the dimensioned constructor is reduced modulo `2^64`
  (`size_t_mul`), and the conversion `static_cast<difference_type>` and the
  products of the column iterator are reduced to the signed 64-bit range
  (`to_difference_type`).  The other products of `size_t` values are products
  of the dimensions of a matrix or of an index and a dimension; no reduction
  is written for them: they are exact for the well-formed matrices
  (`matrix.valid`), whose size is below `2^63`;
* `new[]` always returns an array (no `std::bad_alloc`), and destructors are
  not modelled: an array stays in the free store after its owner dies, which
  no function of the class can observe.

The standard algorithms used by the class (`std::copy`, `std::equal`,
`std::transform`, `std::inner_product`) are written out as the loops the C++
standard specifies for them.
-/

namespace MatrixH

/-! ## The free store -/

/-- A pointer to an element: the array it points into (`none` for the null
region) and the element offset inside it. -/
structure Ptr where
  blk : Option Nat
  off : Int
deriving DecidableEq

/-- The null pointer. -/
def nullptr : Ptr := ⟨none, 0⟩

/-- Pointer arithmetic `p + n`. -/
def Ptr.add (p : Ptr) (n : Int) : Ptr := ⟨p.blk, p.off + n⟩

/-- The free store: the arrays allocated so far, indexed by block number. -/
structure Heap (T : Type) where
  blocks : List (List T)
deriving DecidableEq

/-- Reading `*p`; `none` when `p` does not point at an element of a live array. -/
def Heap.read {T : Type} (h : Heap T) (p : Ptr) : Option T :=
  match p.blk with
  | none => none
  | some b =>
    if 0 ≤ p.off then
      match h.blocks[b]? with
      | some buf => buf[p.off.toNat]?
      | none => none
    else none

/-- Writing `*p = v`; `none` when `p` does not point at an element of a live array. -/
def Heap.write {T : Type} (h : Heap T) (p : Ptr) (v : T) : Option (Heap T) :=
  match p.blk with
  | none => none
  | some b =>
    if 0 ≤ p.off then
      match h.blocks[b]? with
      | some buf =>
        if p.off.toNat < buf.length then
          some ⟨h.blocks.set b (buf.set p.off.toNat v)⟩
        else none
      | none => none
    else none

/-- The expression `new T[n]` with every element initialised to `v`: a fresh array is
appended to the free store and a pointer to its first element is returned. -/
def Heap.alloc {T : Type} (h : Heap T) (n : Nat) (v : T) : Ptr × Heap T :=
  (⟨some h.blocks.length, 0⟩, ⟨h.blocks ++ [List.replicate n v]⟩)

/-- Number of increments that take `first` to `last`, when `[first, last)` is a valid
range: the trip count of a loop `while (first != last) ++first;`. -/
def Ptr.dist (first last : Ptr) : Option Nat :=
  if first.blk = last.blk ∧ first.off ≤ last.off then some (last.off - first.off).toNat
  else none

/-- The loop `for (size_t i = i0; i < i0 + n; i++) s = body(i, s)`. -/
def forLoop {S : Type} (body : Nat → S → Option S) : Nat → Nat → S → Option S
  | 0, _, s => some s
  | n + 1, i, s => (body i s).bind (fun s1 => forLoop body n (i + 1) s1)

/-! ## Machine integers -/

/-- The product of two `size_t` values, `size_t` being a 64-bit unsigned integer. -/
def size_t_mul (a b : Nat) : Nat := (a * b) % 2 ^ 64

/-- The value of type `difference_type`, a 64-bit signed integer in two's complement, that
the integer `x` is reduced to: the result of `static_cast<difference_type>` on a `size_t`, and
the result of an arithmetic operation on `difference_type` operands whose exact value is `x`.
When `x` is outside of the range the operation overflows, which the C++ standard leaves
undefined; the value taken here is the one the 64-bit multiplication of the hardware gives. -/
def to_difference_type (x : Int) : Int := (x + 2 ^ 63) % 2 ^ 64 - 2 ^ 63

/-! ## The matrix object and its column iterator -/

/-- The three data members of `matrix<T>`. -/
structure matrix where
  _rows : Nat
  _cols : Nat
  _data : Ptr
deriving DecidableEq

/-- The data members of `basic_col_iterator`. -/
structure basic_col_iterator where
  _current : Ptr
  _col : Nat
  _cols : Nat
deriving DecidableEq

/-- Dereference of a column iterator, `operator*`: the element `_current[_col]`. -/
def basic_col_iterator.deref (it : basic_col_iterator) : Ptr :=
  it._current.add it._col

/-- Pre-increment of a column iterator, `operator++`: `_current += _cols`. -/
def basic_col_iterator.incr (it : basic_col_iterator) : basic_col_iterator :=
  { it with _current := it._current.add it._cols }

/-- Pre-decrement of a column iterator, `operator--`: `_current -= _cols`. -/
def basic_col_iterator.decr (it : basic_col_iterator) : basic_col_iterator :=
  { it with _current := it._current.add (-(it._cols : Int)) }

/-- Compound `operator+=(diff)` of a column iterator:
`_current += diff * static_cast<difference_type>(_cols)`, the product being computed in
`difference_type`. -/
def basic_col_iterator.add_assign (it : basic_col_iterator) (diff : Int) :
    basic_col_iterator :=
  { it with _current :=
      it._current.add (to_difference_type (diff * to_difference_type (it._cols : Int))) }

/-- The friend `operator+(lhs, diff)` of a column iterator. -/
def basic_col_iterator.plus (lhs : basic_col_iterator) (diff : Int) : basic_col_iterator :=
  lhs.add_assign diff

/-- Pointer difference `p - q`, defined for two pointers into the same array. -/
def Ptr.diff (p q : Ptr) : Option Int :=
  if p.blk = q.blk then some (p.off - q.off) else none

/-- The friend `operator==(lhs, rhs)` of two column iterators:
`lhs._current == rhs._current && lhs._col == rhs._col`. -/
def basic_col_iterator.operator_eq (lhs rhs : basic_col_iterator) : Bool :=
  decide (lhs._current = rhs._current) && decide (lhs._col = rhs._col)

/-- The friend `operator!=(lhs, rhs)` of two column iterators: `!(lhs == rhs)`. -/
def basic_col_iterator.operator_ne (lhs rhs : basic_col_iterator) : Bool :=
  !(lhs.operator_eq rhs)

/-! ## Construction -/

/-- The default constructor `matrix()`. -/
def matrix.ctor_default : matrix := ⟨0, 0, nullptr⟩

/-- The constructor `matrix(rows, cols)`: each of the three member initialisers tests
`rows * cols == 0`, a product of two `size_t` values, and the array has `rows * cols` elements,
value-initialised (`{}`). -/
def matrix.ctor {T : Type} [Inhabited T] (h : Heap T) (rows cols : Nat) : matrix × Heap T :=
  let r := if size_t_mul rows cols = 0 then 0 else rows
  let c := if size_t_mul rows cols = 0 then 0 else cols
  if size_t_mul rows cols = 0 then (⟨r, c, nullptr⟩, h)
  else
    let a := h.alloc (size_t_mul rows cols) default
    (⟨r, c, a.1⟩, a.2)

/-! ## Size and iterators -/

def matrix.rows (m : matrix) : Nat := m._rows

def matrix.cols (m : matrix) : Nat := m._cols

def matrix.size (m : matrix) : Nat := m._rows * m._cols

def matrix.empty (m : matrix) : Bool := m.size == 0

def matrix.begin (m : matrix) : Ptr := m._data

/-- The member `end()`: `begin() + size()`. -/
def matrix.end_ (m : matrix) : Ptr := m.begin.add m.size

/-- The member `row_begin(row)`; `none` when the assertion `row < _rows` fails. -/
def matrix.row_begin (m : matrix) (row : Nat) : Option Ptr :=
  if row < m._rows then some (m.begin.add (row * m._cols)) else none

/-- The member `row_end(row)`: `row_begin(row) + _cols`. -/
def matrix.row_end (m : matrix) (row : Nat) : Option Ptr :=
  (m.row_begin row).map (fun p => p.add m._cols)

/-- The member `col_begin(col)`; `none` when the assertion `col < _cols` fails. -/
def matrix.col_begin (m : matrix) (col : Nat) : Option basic_col_iterator :=
  if col < m._cols then some ⟨m.begin, col, m._cols⟩ else none

/-- The element access `operator()(row, col)`: a reference to `_data[_cols * row + col]`. -/
def matrix.operator_call (m : matrix) (row col : Nat) : Ptr :=
  m._data.add ((m._cols * row + col : Nat) : Int)

/-! ## The standard algorithms, as the loops the C++ standard gives for them -/

/-- The loop of `std::copy`, `n` iterations: `*d_first++ = *first++`. -/
def copy_loop {T : Type} : Nat → Ptr → Ptr → Heap T → Option (Heap T)
  | 0, _, _, h => some h
  | n + 1, first, d_first, h =>
    (h.read first).bind fun v =>
    (h.write d_first v).bind fun h1 =>
    copy_loop n (first.add 1) (d_first.add 1) h1

/-- The algorithm `std::copy(first, last, d_first)`. -/
def std_copy {T : Type} (h : Heap T) (first last d_first : Ptr) : Option (Heap T) :=
  (Ptr.dist first last).bind fun n => copy_loop n first d_first h

/-- The loop of `std::equal`, `n` iterations: `if (!(*first1 == *first2)) return false`. -/
def equal_loop {T : Type} [BEq T] (h : Heap T) : Nat → Ptr → Ptr → Option Bool
  | 0, _, _ => some true
  | n + 1, first1, first2 =>
    (h.read first1).bind fun a =>
    (h.read first2).bind fun b =>
    if a == b then equal_loop h n (first1.add 1) (first2.add 1) else some false

/-- The algorithm `std::equal(first1, last1, first2)`. -/
def std_equal {T : Type} [BEq T] (h : Heap T) (first1 last1 first2 : Ptr) : Option Bool :=
  (Ptr.dist first1 last1).bind fun n => equal_loop h n first1 first2

/-- The loop of the binary `std::transform`, `n` iterations:
`*d_first++ = binary_op(*first1++, *first2++)`. -/
def transform2_loop {T : Type} (binary_op : T → T → T) :
    Nat → Ptr → Ptr → Ptr → Heap T → Option (Heap T)
  | 0, _, _, _, h => some h
  | n + 1, first1, first2, d_first, h =>
    (h.read first1).bind fun a =>
    (h.read first2).bind fun b =>
    (h.write d_first (binary_op a b)).bind fun h1 =>
    transform2_loop binary_op n (first1.add 1) (first2.add 1) (d_first.add 1) h1

/-- The algorithm `std::transform(first1, last1, first2, d_first, binary_op)`. -/
def std_transform2 {T : Type} (h : Heap T) (first1 last1 first2 d_first : Ptr)
    (binary_op : T → T → T) : Option (Heap T) :=
  (Ptr.dist first1 last1).bind fun n => transform2_loop binary_op n first1 first2 d_first h

/-- The loop of the unary `std::transform`, `n` iterations: `*d_first++ = unary_op(*first1++)`.
The operation is a closure that may read the free store when it is called. -/
def transform1_loop {T : Type} (unary_op : Heap T → T → Option T) :
    Nat → Ptr → Ptr → Heap T → Option (Heap T)
  | 0, _, _, h => some h
  | n + 1, first1, d_first, h =>
    (h.read first1).bind fun a =>
    (unary_op h a).bind fun v =>
    (h.write d_first v).bind fun h1 =>
    transform1_loop unary_op n (first1.add 1) (d_first.add 1) h1

/-- The algorithm `std::transform(first1, last1, d_first, unary_op)`. -/
def std_transform1 {T : Type} (h : Heap T) (first1 last1 d_first : Ptr)
    (unary_op : Heap T → T → Option T) : Option (Heap T) :=
  (Ptr.dist first1 last1).bind fun n => transform1_loop unary_op n first1 d_first h

/-- The loop of `std::inner_product` with a raw pointer as first range and a column
iterator as second: `init = init + *first1 * *first2; ++first1; ++first2`. -/
def inner_product_loop {T : Type} [Add T] [Mul T] (h : Heap T) :
    Nat → Ptr → basic_col_iterator → T → Option T
  | 0, _, _, init => some init
  | n + 1, first1, first2, init =>
    (h.read first1).bind fun a =>
    (h.read first2.deref).bind fun b =>
    inner_product_loop h n (first1.add 1) first2.incr (init + a * b)

/-- The algorithm `std::inner_product(first1, last1, first2, init)`. -/
def std_inner_product {T : Type} [Add T] [Mul T] (h : Heap T) (first1 last1 : Ptr)
    (first2 : basic_col_iterator) (init : T) : Option T :=
  (Ptr.dist first1 last1).bind fun n => inner_product_loop h n first1 first2 init

/-! ## Copying and swapping -/

/-- The constructor from a literal `const T (&init)[Rows][Cols]`. -/
def matrix.ctor_init {T : Type} [Inhabited T] (h : Heap T) (Rows Cols : Nat)
    (init : Nat → Nat → T) : Option (matrix × Heap T) :=
  let a := h.alloc (Rows * Cols) default
  let self : matrix := ⟨Rows, Cols, a.1⟩
  (forLoop (fun row h1 =>
      forLoop (fun col h2 =>
        h2.write (self._data.add ((self._cols * row + col : Nat) : Int)) (init row col))
        self._cols 0 h1)
    self._rows 0 a.2).map fun h3 => (self, h3)

/-- The copy constructor `matrix(const matrix& other)`. -/
def matrix.ctor_copy {T : Type} [Inhabited T] (h : Heap T) (other : matrix) :
    Option (matrix × Heap T) :=
  let r := other._rows
  let c := other._cols
  let a := if r * c = 0 then (nullptr, h) else h.alloc (r * c) default
  let self : matrix := ⟨r, c, a.1⟩
  if self._data = nullptr then some (self, a.2)
  else (std_copy a.2 other.begin other.end_ self.begin).map fun h1 => (self, h1)

/-- The function `std::swap(a, b)`: the new `a` and the new `b`. -/
def std_swap {α : Type} (a b : α) : α × α := (b, a)

/-- The member `swap(other)` called on `self`, three calls of `std::swap` on the data
members: the new `*this` and the new `other`. -/
def matrix.swap (self other : matrix) : matrix × matrix :=
  let r := std_swap self._rows other._rows
  let c := std_swap self._cols other._cols
  let d := std_swap self._data other._data
  (⟨r.1, c.1, d.1⟩, ⟨r.2, c.2, d.2⟩)

/-- The copy assignment `operator=(const matrix& other)`, called on the object that lives at
address `this_addr` with data members `self`; `other` lives at address `other_addr`.  The guard
`&other == this` compares the two addresses; otherwise a temporary copy of `other` is swapped
into `*this`.  The result is the new `*this` and the new free store. -/
def matrix.operator_assign {T : Type} [Inhabited T] (h : Heap T) (this_addr other_addr : Nat)
    (self other : matrix) : Option (matrix × Heap T) :=
  if other_addr = this_addr then some (self, h)
  else (matrix.ctor_copy h other).map fun s => ((s.1.swap self).2, s.2)

/-! ## Comparison -/

/-- The friend `operator==(left, right)`. -/
def operator_eq {T : Type} [BEq T] (h : Heap T) (left right : matrix) : Option Bool :=
  if left.rows = right._rows ∧ left.cols = right.cols then
    std_equal h left.begin left.end_ right.begin
  else some false

/-- The friend `operator!=(left, right)`: `!(right == left)`. -/
def operator_ne {T : Type} [BEq T] (h : Heap T) (left right : matrix) : Option Bool :=
  (operator_eq h right left).map not

/-! ## Arithmetic -/

/-- A parameter of type `const T&`: it is bound either to an object that lives outside
the free store (a local variable, a temporary) or to an element of an array. -/
inductive const_reference (T : Type) where
  | outside (v : T) : const_reference T
  | element (p : Ptr) : const_reference T

/-- Reading through a `const T&`. -/
def const_reference.get {T : Type} (h : Heap T) : const_reference T → Option T
  | .outside v => some v
  | .element p => h.read p

/-- The member `operator+=(const matrix& other)`: the new `*this` and free store. -/
def matrix.operator_plus_assign {T : Type} [Add T] (h : Heap T) (self other : matrix) :
    Option (matrix × Heap T) :=
  (std_transform2 h self.begin self.end_ other.begin self.begin (fun a b => a + b)).map
    fun h1 => (self, h1)

/-- The member `operator-=(const matrix& other)`. -/
def matrix.operator_minus_assign {T : Type} [Sub T] (h : Heap T) (self other : matrix) :
    Option (matrix × Heap T) :=
  (std_transform2 h self.begin self.end_ other.begin self.begin (fun a b => a - b)).map
    fun h1 => (self, h1)

/-- The member `operator*=(const_reference factor)`; the closure reads `factor` through
the reference each time it is called. -/
def matrix.operator_times_assign_scalar {T : Type} [Mul T] (h : Heap T) (self : matrix)
    (factor : const_reference T) : Option (matrix × Heap T) :=
  (std_transform1 h self.begin self.end_ self.begin
    (fun h1 elem => (factor.get h1).map fun f => elem * f)).map fun h2 => (self, h2)

/-- The friend `operator+(left, right)`. -/
def operator_plus {T : Type} [Inhabited T] [Add T] (h : Heap T) (left right : matrix) :
    Option (matrix × Heap T) :=
  (matrix.ctor_copy h left).bind fun s => s.1.operator_plus_assign s.2 right

/-- The friend `operator-(left, right)`. -/
def operator_minus {T : Type} [Inhabited T] [Sub T] (h : Heap T) (left right : matrix) :
    Option (matrix × Heap T) :=
  (matrix.ctor_copy h left).bind fun s => s.1.operator_minus_assign s.2 right

/-- The friend `operator*(const matrix& left, const_reference right)`. -/
def operator_times_scalar {T : Type} [Inhabited T] [Mul T] (h : Heap T) (left : matrix)
    (right : const_reference T) : Option (matrix × Heap T) :=
  (matrix.ctor_copy h left).bind fun s => s.1.operator_times_assign_scalar s.2 right

/-- The friend `operator*(const_reference left, const matrix& right)`: `right * left`. -/
def operator_scalar_times {T : Type} [Inhabited T] [Mul T] (h : Heap T)
    (left : const_reference T) (right : matrix) : Option (matrix × Heap T) :=
  operator_times_scalar h right left

/-- The body of the inner loop of the matrix product, for row `r` and column `c`:
`*it = std::inner_product(left.row_begin(r), left.row_end(r), right.col_begin(c),
value_type(0)); it++;`.  The loop state is the free store together with the output
cursor `it`. -/
def operator_times_body {T : Type} [Zero T] [Add T] [Mul T] (left right : matrix)
    (r c : Nat) (s : Heap T × Ptr) : Option (Heap T × Ptr) :=
  (left.row_begin r).bind fun first1 =>
  (left.row_end r).bind fun last1 =>
  (right.col_begin c).bind fun first2 =>
  (std_inner_product s.1 first1 last1 first2 (0 : T)).bind fun v =>
  (s.1.write s.2 v).bind fun h1 =>
  some (h1, s.2.add 1)

/-- The friend `operator*(const matrix& left, const matrix& right)`. -/
def operator_times {T : Type} [Inhabited T] [Zero T] [Add T] [Mul T] (h : Heap T)
    (left right : matrix) : Option (matrix × Heap T) :=
  let res := matrix.ctor h left.rows right.cols
  let result := res.1
  (forLoop (fun r s0 => forLoop (operator_times_body left right r) right.cols 0 s0)
    left.rows 0 (res.2, result.begin)).map fun s => (result, s.1)

/-- The member `operator*=(const matrix& other)`: `(*this * other).swap(*this)`. -/
def matrix.operator_times_assign {T : Type} [Inhabited T] [Zero T] [Add T] [Mul T]
    (h : Heap T) (self other : matrix) : Option (matrix × Heap T) :=
  (operator_times h self other).map fun s => ((s.1.swap self).2, s.2)

/-! ## Abstraction: the array a matrix owns -/

/-- The array that `m` owns in the free store `h`: `_data` is null (no elements) or points
at the first element of a live array. -/
def matrix.buffer {T : Type} (h : Heap T) (m : matrix) : Option (List T) :=
  if m._data.off = 0 then
    match m._data.blk with
    | none => some []
    | some b => h.blocks[b]?
  else none

/-- A well-formed matrix with elements `buf` in row-major order: `_rows == 0` exactly when
`_cols == 0`, the owned array is `buf`, of length `_rows * _cols`, and this length is below
`2^63`, as the length of every array is (an offset into an array fits `difference_type`), so
that the products of `size_t` values that the class forms from the dimensions are exact. -/
def matrix.valid {T : Type} (h : Heap T) (m : matrix) (buf : List T) : Prop :=
  (m._rows = 0 ↔ m._cols = 0) ∧ m.buffer h = some buf ∧ buf.length = m._rows * m._cols ∧
    m._rows * m._cols < 2 ^ 63

instance matrix.decidableValid {T : Type} [DecidableEq T] (h : Heap T) (m : matrix)
    (buf : List T) : Decidable (m.valid h buf) := by
  unfold matrix.valid; infer_instance

/-- The normalization invariant of a matrix with elements `buf`: it is well formed (`_rows == 0`
exactly when `_cols == 0`, the owned array is `buf` and holds `_rows * _cols` elements, fewer
than `2^63`) and its data pointer is null exactly when `size() == 0`. -/
def matrix.normalized {T : Type} (h : Heap T) (m : matrix) (buf : List T) : Prop :=
  m.valid h buf ∧ (m._data = nullptr ↔ m.size = 0)

instance matrix.decidableNormalized {T : Type} [DecidableEq T] (h : Heap T) (m : matrix)
    (buf : List T) : Decidable (m.normalized h buf) := by
  unfold matrix.normalized; infer_instance

/-- The free store `h` after the array owned by `m` has been overwritten with `buf`. -/
def Heap.store {T : Type} (h : Heap T) (m : matrix) (buf : List T) : Heap T :=
  match m._data.blk with
  | none => h
  | some b => ⟨h.blocks.set b buf⟩

/-- Two matrices own different arrays (or one of them owns none). -/
def matrix.separate (m1 m2 : matrix) : Prop :=
  m1._data.blk = none ∨ m2._data.blk = none ∨ m1._data.blk ≠ m2._data.blk

instance matrix.decidableSeparate (m1 m2 : matrix) : Decidable (m1.separate m2) := by
  unfold matrix.separate; infer_instance

/-- Reference value of one entry of a product: `T(0)` plus the terms
`a(i,t) * b(t,j)` for `t = 0, …, k-1`, added in increasing `t`; `a` is a row-major
array with `k` columns and `b` one with `n` columns. -/
def inner_sum {T : Type} [Zero T] [Add T] [Mul T] (a b : List T) (k n i j : Nat) : T :=
  (List.range k).foldl (fun acc t => acc + a.getD (i * k + t) 0 * b.getD (t * n + j) 0) 0

/-- Reference value of the row-major array of a product of shape `(m, n)`. -/
def product_buffer {T : Type} [Zero T] [Add T] [Mul T] (a b : List T) (m k n : Nat) :
    List T :=
  (List.range (m * n)).map fun p => inner_sum a b k n (p / n) (p % n)

/-- The object a `const T&` is bound to is not an element of the array owned by `m`. -/
def const_reference.outside_of {T : Type} (m : matrix) : const_reference T → Prop
  | .outside _ => True
  | .element p => p.blk ≠ m._data.blk

instance const_reference.decidableOutsideOf {T : Type} (m : matrix) (r : const_reference T) :
    Decidable (r.outside_of m) := by
  cases r <;> unfold const_reference.outside_of <;> infer_instance

/-! ## The matrix product with a record of its accesses -/

/-- One observable step of `operator*(left, right)`: a call of `left.row_begin(row)` (made by
`row_begin` and again by `row_end`), a call of `right.col_begin(col)`, a read through the first
or the second iterator of `std::inner_product`, or a write through the output cursor `it`. -/
inductive Access where
  | row_begin (row : Nat) : Access
  | col_begin (col : Nat) : Access
  | read_first1 (p : Ptr) : Access
  | read_first2 (p : Ptr) : Access
  | write_it (p : Ptr) : Access
deriving DecidableEq

/-- The loop of `std::inner_product` (see `inner_product_loop`), which also returns the reads
it makes, in order. -/
def inner_product_loop_traced {T : Type} [Add T] [Mul T] (h : Heap T) :
    Nat → Ptr → basic_col_iterator → T → Option (T × List Access)
  | 0, _, _, init => some (init, [])
  | n + 1, first1, first2, init =>
    (h.read first1).bind fun a =>
    (h.read first2.deref).bind fun b =>
    (inner_product_loop_traced h n (first1.add 1) first2.incr (init + a * b)).map fun r =>
      (r.1, Access.read_first1 first1 :: Access.read_first2 first2.deref :: r.2)

/-- The algorithm `std::inner_product` with the record of its reads. -/
def std_inner_product_traced {T : Type} [Add T] [Mul T] (h : Heap T) (first1 last1 : Ptr)
    (first2 : basic_col_iterator) (init : T) : Option (T × List Access) :=
  (Ptr.dist first1 last1).bind fun n => inner_product_loop_traced h n first1 first2 init

/-- The body of the inner loop of the matrix product (see `operator_times_body`); the loop
state carries the record of the accesses made so far. -/
def operator_times_body_traced {T : Type} [Zero T] [Add T] [Mul T] (left right : matrix)
    (r c : Nat) (s : (Heap T × Ptr) × List Access) : Option ((Heap T × Ptr) × List Access) :=
  (left.row_begin r).bind fun first1 =>
  (left.row_end r).bind fun last1 =>
  (right.col_begin c).bind fun first2 =>
  (std_inner_product_traced s.1.1 first1 last1 first2 (0 : T)).bind fun v =>
  (s.1.1.write s.1.2 v.1).bind fun h1 =>
  some ((h1, s.1.2.add 1),
    s.2 ++ [Access.row_begin r, Access.row_begin r, Access.col_begin c] ++ v.2
      ++ [Access.write_it s.1.2])

/-- The friend `operator*(const matrix& left, const matrix& right)` (see `operator_times`)
with the record of its accesses. -/
def operator_times_traced {T : Type} [Inhabited T] [Zero T] [Add T] [Mul T] (h : Heap T)
    (left right : matrix) : Option ((matrix × Heap T) × List Access) :=
  let res := matrix.ctor h left.rows right.cols
  let result := res.1
  (forLoop (fun r s0 => forLoop (operator_times_body_traced left right r) right.cols 0 s0)
    left.rows 0 ((res.2, result.begin), [])).map fun s => ((result, s.1.1), s.2)

/-- Reference value of the reads of one inner product of `n` terms: term `t` reads the first
range at `first1 + t` and the second one through the column iterator after `t` increments, at
`first2._current + t * first2._cols + first2._col`. -/
def inner_product_log (n : Nat) (first1 : Ptr) (first2 : basic_col_iterator) : List Access :=
  (List.range n).flatMap fun t =>
    [Access.read_first1 (first1.add (t : Int)),
      Access.read_first2 (first2._current.add ((t * first2._cols + first2._col : Nat) : Int))]

/-- Reference value of the accesses made for the cell `(r, c)` of the product, `it` being the
output cursor. -/
def cell_log (left right : matrix) (r c : Nat) (it : Ptr) : List Access :=
  [Access.row_begin r, Access.row_begin r, Access.col_begin c]
    ++ inner_product_log left._cols (left.begin.add (r * left._cols))
        ⟨right.begin, c, right._cols⟩
    ++ [Access.write_it it]

/-- Reference value of the accesses of the whole product, `it0` being the first position of
the output cursor: the cells in row-major order. -/
def operator_times_log (left right : matrix) (it0 : Ptr) : List Access :=
  (List.range left._rows).flatMap fun r =>
    (List.range right._cols).flatMap fun c =>
      cell_log left right r c (it0.add ((r * right._cols + c : Nat) : Int))

/-- The positions written through the output cursor, in order. -/
def written (log : List Access) : List Ptr :=
  log.filterMap fun e =>
    match e with
    | Access.write_it p => some p
    | _ => none

/-! ## An element type whose comparison is not reflexive -/

/-- An element type `T` for which `x == x` can be false, as it is for `double`: a value is a
number or `NaN`. -/
inductive floating where
  | nan : floating
  | num (v : Int) : floating
deriving DecidableEq

/-- The comparison `a == b` of two `floating` values: `NaN` compares unequal to every value,
itself included. -/
def floating.beq : floating → floating → Bool
  | .num x, .num y => decide (x = y)
  | _, _ => false

/-- An arithmetic operation on two `floating` values: the result is `NaN` as soon as an operand
is. -/
def floating.lift (op : Int → Int → Int) : floating → floating → floating
  | .num x, .num y => .num (op x y)
  | _, _ => .nan

instance floating.instBEq : BEq floating := ⟨floating.beq⟩

instance floating.instAdd : Add floating := ⟨floating.lift fun x y => x + y⟩

instance floating.instSub : Sub floating := ⟨floating.lift fun x y => x - y⟩

instance floating.instMul : Mul floating := ⟨floating.lift fun x y => x * y⟩

instance floating.instInhabited : Inhabited floating := ⟨.num 0⟩

/-! ## The concrete scenario of the specification -/

/-- A free store that holds the arrays of `A = [[1,2],[3,4]]` and `B = [[5,6],[7,8]]`. -/
def scenarioHeap : Heap Int := ⟨[[1, 2, 3, 4], [5, 6, 7, 8]]⟩

/-- The matrix `A = [[1,2],[3,4]]` of the scenario. -/
def scenarioA : matrix := ⟨2, 2, ⟨some 0, 0⟩⟩

/-- The matrix `B = [[5,6],[7,8]]` of the scenario. -/
def scenarioB : matrix := ⟨2, 2, ⟨some 1, 0⟩⟩

/-! ## Two operands whose product has `2^64` elements -/

/-- A free store that holds two arrays of `2^32` elements, all equal to `1`. -/
def wideHeap : Heap Int := ⟨[List.replicate (2 ^ 32) 1, List.replicate (2 ^ 32) 1]⟩

/-- The matrix of `2^32` rows and one column that owns the first array of `wideHeap`. -/
def wideColumn : matrix := ⟨2 ^ 32, 1, ⟨some 0, 0⟩⟩

/-- The matrix of one row and `2^32` columns that owns the second array of `wideHeap`. -/
def wideRow : matrix := ⟨1, 2 ^ 32, ⟨some 1, 0⟩⟩

/-! ## Lemmas about the free store and the loops -/
/-- a product below `2^64` is exact in `size_t` -/
theorem size_t_mul_eq {a b : Nat} (hlt : a * b < 2 ^ 64) : size_t_mul a b = a * b :=
  Nat.mod_eq_of_lt hlt

/-- an integer of the signed 64-bit range is its own value of type `difference_type` -/
theorem to_difference_type_eq {x : Int} (hlo : -(2 ^ 63) ≤ x) (hhi : x < 2 ^ 63) :
    to_difference_type x = x := by
  unfold to_difference_type
  rw [Int.emod_eq_of_lt (by omega) (by omega)]
  omega

/-- a natural number below `2^63` is its own value of type `difference_type` -/
theorem to_difference_type_nat {n : Nat} (hn : n < 2 ^ 63) :
    to_difference_type (n : Int) = (n : Int) :=
  to_difference_type_eq (by omega) (by exact_mod_cast hn)

/-- a loop whose first iteration fails has no result -/
theorem forLoop_none {S : Type} (body : Nat → S → Option S) (n i : Nat) (s : S)
    (hn : 0 < n) (hb : body i s = none) : forLoop body n i s = none := by
  cases n with
  | zero => omega
  | succ n => simp [forLoop, hb]

theorem list_getElem?_mid {T : Type} (pre : List T) (x : T) (post : List T) :
    (pre ++ x :: post)[pre.length]? = some x := by
  induction pre with
  | nil => simp
  | cons y ys ih => simpa using ih

theorem list_set_mid {T : Type} (pre : List T) (x v : T) (post : List T) :
    (pre ++ x :: post).set pre.length v = pre ++ v :: post := by
  induction pre with
  | nil => rfl
  | cons y ys ih => simp [ih]

theorem read_nat {T : Type} (h : Heap T) (b i : Nat) (buf : List T)
    (hb : h.blocks[b]? = some buf) : h.read ⟨some b, (i : Int)⟩ = buf[i]? := by
  simp [Heap.read, hb]

theorem write_nat {T : Type} (h : Heap T) (b i : Nat) (buf : List T) (v : T)
    (hb : h.blocks[b]? = some buf) (hi : i < buf.length) :
    h.write ⟨some b, (i : Int)⟩ v = some ⟨h.blocks.set b (buf.set i v)⟩ := by
  simp [Heap.write, hb, hi]

theorem add_one (b : Nat) (i : Nat) :
    (Ptr.mk (some b) (i : Int)).add 1 = ⟨some b, ((i + 1 : Nat) : Int)⟩ := by
  simp [Ptr.add]

theorem dist_nat (b : Nat) (i n : Nat) :
    Ptr.dist ⟨some b, (i : Int)⟩ ((Ptr.mk (some b) (i : Int)).add (n : Int)) = some n := by
  simp [Ptr.dist, Ptr.add]

theorem blocks_set_same {T : Type} (l : List (List T)) (b : Nat) (x buf : List T)
    (hb : l[b]? = some buf) : (l.set b x)[b]? = some x := by
  have := (List.getElem?_eq_some.1 hb).1
  simp [List.getElem?_set, this]

theorem blocks_set_other {T : Type} (l : List (List T)) (b c : Nat) (x : List T)
    (hbc : b ≠ c) : (l.set b x)[c]? = l[c]? := by
  simp [List.getElem?_set, hbc]


theorem blocks_set_id {T : Type} (l : List (List T)) (b : Nat) (buf : List T)
    (hb : l[b]? = some buf) : l.set b buf = l := by
  apply List.ext_getElem?
  intro c
  by_cases hc : b = c
  · subst hc; rw [blocks_set_same l b buf buf hb, hb]
  · rw [blocks_set_other l b c buf hc]

theorem drop_cons_of_lt {T : Type} (y : List T) (n : Nat) (hn : n < y.length) :
    ∃ v, y[n]? = some v ∧ y.drop n = v :: y.drop (n + 1) :=
  ⟨y[n], List.getElem?_eq_getElem hn, List.drop_eq_getElem_cons hn⟩

/-- in-place binary transform over distinct blocks -/
theorem transform2_loop_inplace {T : Type} (op : T → T → T) (b1 b2 : Nat) (hne : b1 ≠ b2)
    (y : List T) (a : List T) :
    ∀ (pre : List T) (h : Heap T),
      h.blocks[b1]? = some (pre ++ a) → h.blocks[b2]? = some y →
      pre.length + a.length ≤ y.length →
      transform2_loop op a.length ⟨some b1, (pre.length : Int)⟩ ⟨some b2, (pre.length : Int)⟩
          ⟨some b1, (pre.length : Int)⟩ h
        = some ⟨h.blocks.set b1 (pre ++ List.zipWith op a (y.drop pre.length))⟩ := by
  induction a with
  | nil =>
    intro pre h h1 _ _
    rw [List.append_nil] at h1
    simp only [List.length_nil, transform2_loop, List.zipWith_nil_left, List.append_nil]
    rw [blocks_set_id _ _ _ h1]
  | cons x a ih =>
    intro pre h h1 h2 hlen
    simp only [List.length_cons] at hlen ⊢
    obtain ⟨v, hv, hdrop⟩ := drop_cons_of_lt y pre.length (by omega)
    have hw : h.write ⟨some b1, (pre.length : Int)⟩ (op x v)
        = some ⟨h.blocks.set b1 ((pre ++ [op x v]) ++ a)⟩ := by
      rw [write_nat h b1 pre.length (pre ++ x :: a) (op x v) h1 (by simp), list_set_mid]
      simp
    have h1' : (h.blocks.set b1 ((pre ++ [op x v]) ++ a))[b1]? = some ((pre ++ [op x v]) ++ a) :=
      blocks_set_same _ _ _ _ h1
    have h2' : (h.blocks.set b1 ((pre ++ [op x v]) ++ a))[b2]? = some y := by
      rw [blocks_set_other _ _ _ _ hne, h2]
    have hl' : (pre ++ [op x v]).length + a.length ≤ y.length := by
      simp only [List.length_append, List.length_singleton]; omega
    have := ih (pre ++ [op x v]) ⟨h.blocks.set b1 ((pre ++ [op x v]) ++ a)⟩ h1' h2' hl'
    simp only [List.length_append, List.length_singleton, List.set_set] at this
    simp only [transform2_loop, read_nat h b1 pre.length _ h1, list_getElem?_mid,
      read_nat h b2 pre.length _ h2, hv, Option.some_bind, hw, add_one]
    rw [this, hdrop]
    simp


/-- in-place unary transform whose operation does not depend on the array written -/
theorem transform1_loop_inplace {T : Type} (uop : Heap T → T → Option T) (f : T → T)
    (b1 : Nat) (a : List T) :
    ∀ (pre : List T) (h : Heap T),
      (∀ buf x, uop ⟨h.blocks.set b1 buf⟩ x = some (f x)) →
      h.blocks[b1]? = some (pre ++ a) →
      transform1_loop uop a.length ⟨some b1, (pre.length : Int)⟩
          ⟨some b1, (pre.length : Int)⟩ h
        = some ⟨h.blocks.set b1 (pre ++ a.map f)⟩ := by
  induction a with
  | nil =>
    intro pre h _ h1
    rw [List.append_nil] at h1
    simp only [List.length_nil, transform1_loop, List.map_nil, List.append_nil]
    rw [blocks_set_id _ _ _ h1]
  | cons x a ih =>
    intro pre h huop h1
    have hw : h.write ⟨some b1, (pre.length : Int)⟩ (f x)
        = some ⟨h.blocks.set b1 ((pre ++ [f x]) ++ a)⟩ := by
      rw [write_nat h b1 pre.length (pre ++ x :: a) (f x) h1 (by simp), list_set_mid]
      simp
    have h1' : (h.blocks.set b1 ((pre ++ [f x]) ++ a))[b1]? = some ((pre ++ [f x]) ++ a) :=
      blocks_set_same _ _ _ _ h1
    have hnow : uop h x = some (f x) := by
      have := huop (pre ++ x :: a) x
      rwa [blocks_set_id _ _ _ h1] at this
    have := ih (pre ++ [f x]) ⟨h.blocks.set b1 ((pre ++ [f x]) ++ a)⟩
      (by intro buf y; simp only [List.set_set]; exact huop buf y) h1'
    simp only [List.length_append, List.length_singleton, List.set_set] at this
    simp only [List.length_cons, transform1_loop, read_nat h b1 pre.length _ h1,
      list_getElem?_mid, hnow, Option.some_bind, hw, add_one]
    rw [this]
    simp

/-- copy between distinct blocks -/
theorem copy_loop_blocks {T : Type} (bs bd : Nat) (hne : bd ≠ bs)
    (y : List T) (a : List T) :
    ∀ (pre : List T) (h : Heap T),
      h.blocks[bd]? = some (pre ++ a) → h.blocks[bs]? = some y →
      pre.length + a.length ≤ y.length →
      copy_loop a.length ⟨some bs, (pre.length : Int)⟩ ⟨some bd, (pre.length : Int)⟩ h
        = some ⟨h.blocks.set bd (pre ++ (y.drop pre.length).take a.length)⟩ := by
  induction a with
  | nil =>
    intro pre h h1 _ _
    rw [List.append_nil] at h1
    simp only [List.length_nil, copy_loop, List.take_zero, List.append_nil]
    rw [blocks_set_id _ _ _ h1]
  | cons x a ih =>
    intro pre h h1 h2 hlen
    simp only [List.length_cons] at hlen ⊢
    obtain ⟨v, hv, hdrop⟩ := drop_cons_of_lt y pre.length (by omega)
    have hw : h.write ⟨some bd, (pre.length : Int)⟩ v
        = some ⟨h.blocks.set bd ((pre ++ [v]) ++ a)⟩ := by
      rw [write_nat h bd pre.length (pre ++ x :: a) v h1 (by simp), list_set_mid]
      simp
    have h1' : (h.blocks.set bd ((pre ++ [v]) ++ a))[bd]? = some ((pre ++ [v]) ++ a) :=
      blocks_set_same _ _ _ _ h1
    have h2' : (h.blocks.set bd ((pre ++ [v]) ++ a))[bs]? = some y := by
      rw [blocks_set_other _ _ _ _ hne, h2]
    have hl' : (pre ++ [v]).length + a.length ≤ y.length := by
      simp only [List.length_append, List.length_singleton]; omega
    have := ih (pre ++ [v]) ⟨h.blocks.set bd ((pre ++ [v]) ++ a)⟩ h1' h2' hl'
    simp only [List.length_append, List.length_singleton, List.set_set] at this
    simp only [copy_loop, read_nat h bs pre.length _ h2, hv, Option.some_bind, hw, add_one]
    rw [this, hdrop]
    simp

/-- the comparison loop reads two arrays -/
theorem equal_loop_blocks {T : Type} [BEq T] (h : Heap T) (b1 b2 : Nat) (x y : List T)
    (h1 : h.blocks[b1]? = some x) (h2 : h.blocks[b2]? = some y) :
    ∀ (n i : Nat), i + n ≤ x.length → i + n ≤ y.length →
      equal_loop h n ⟨some b1, (i : Int)⟩ ⟨some b2, (i : Int)⟩
        = some (((x.drop i).take n) == ((y.drop i).take n)) := by
  intro n
  induction n with
  | zero => intro i _ _; simp [equal_loop]
  | succ n ih =>
    intro i hx hy
    obtain ⟨u, hu, hdu⟩ := drop_cons_of_lt x i (by omega)
    obtain ⟨v, hv, hdv⟩ := drop_cons_of_lt y i (by omega)
    simp only [equal_loop, read_nat h b1 i _ h1, read_nat h b2 i _ h2, hu, hv,
      Option.some_bind, add_one]
    rw [ih (i + 1) (by omega) (by omega), hdu, hdv]
    simp only [List.take_succ_cons]
    by_cases huv : (u == v) = true
    · simp [huv]
    · simp [huv]


theorem idx_lt {r m k t : Nat} (hr : r < m) (ht : t < k) : r * k + t < m * k := by
  calc r * k + t < r * k + k := by omega
    _ = (r + 1) * k := by ring
    _ ≤ m * k := Nat.mul_le_mul_right k hr

theorem getElem?_getD_of_lt {T : Type} (l : List T) (i : Nat) (d : T) (hi : i < l.length) :
    l[i]? = some (l.getD i d) := by
  simp [List.getD, List.getElem?_eq_getElem hi]

theorem div_mod_idx {r n c : Nat} (hc : c < n) : (r * n + c) / n = r ∧ (r * n + c) % n = c := by
  have hn : 0 < n := by omega
  constructor
  · rw [Nat.add_comm, Nat.add_mul_div_right _ _ hn, Nat.div_eq_of_lt hc, Nat.zero_add]
  · rw [Nat.add_comm, Nat.add_mul_mod_self_right, Nat.mod_eq_of_lt hc]

theorem inner_product_loop_blocks {T : Type} [Zero T] [Add T] [Mul T] (h : Heap T)
    (bl br : Nat) (a b : List T) (m k n r c : Nat)
    (hl : h.blocks[bl]? = some a) (hr : h.blocks[br]? = some b)
    (ha : a.length = m * k) (hb : b.length = k * n) (hrm : r < m) (hcn : c < n) :
    ∀ (cnt t : Nat) (acc : T), t + cnt ≤ k →
      inner_product_loop h cnt ⟨some bl, ((r * k + t : Nat) : Int)⟩
          ⟨⟨some br, ((t * n : Nat) : Int)⟩, c, n⟩ acc
        = some ((List.range' t cnt).foldl
            (fun acc t => acc + a.getD (r * k + t) 0 * b.getD (t * n + c) 0) acc) := by
  intro cnt
  induction cnt with
  | zero => intro t acc _; simp [inner_product_loop]
  | succ cnt ih =>
    intro t acc ht
    have h1 : r * k + t < a.length := by rw [ha]; exact idx_lt hrm (by omega)
    have h2 : t * n + c < b.length := by rw [hb]; exact idx_lt (by omega) hcn
    have e1 : (Ptr.mk (some bl) ((r * k + t : Nat) : Int)).add 1
        = ⟨some bl, ((r * k + (t + 1) : Nat) : Int)⟩ := by
      rw [add_one]; rfl
    have e2 : (basic_col_iterator.mk ⟨some br, ((t * n : Nat) : Int)⟩ c n).deref
        = ⟨some br, ((t * n + c : Nat) : Int)⟩ := by
      simp [basic_col_iterator.deref, Ptr.add]
    have e3 : (basic_col_iterator.mk ⟨some br, ((t * n : Nat) : Int)⟩ c n).incr
        = ⟨⟨some br, (((t + 1) * n : Nat) : Int)⟩, c, n⟩ := by
      simp [basic_col_iterator.incr, Ptr.add]; ring
    simp only [inner_product_loop, e1, e2, e3, read_nat h bl _ _ hl, read_nat h br _ _ hr,
      getElem?_getD_of_lt a _ 0 h1, getElem?_getD_of_lt b _ 0 h2, Option.some_bind]
    rw [ih (t + 1) _ (by omega)]
    simp [List.range'_succ]


/-- one cell of the product -/
theorem operator_times_body_blocks {T : Type} [Zero T] [Add T] [Mul T]
    (bl br bo : Nat) (a b : List T) (m k n : Nat)
    (ha : a.length = m * k) (hb : b.length = k * n)
    (r c : Nat) (hrm : r < m) (hcn : c < n)
    (h : Heap T) (pre : List T) (x : T) (rest : List T)
    (hl : h.blocks[bl]? = some a) (hr : h.blocks[br]? = some b)
    (ho : h.blocks[bo]? = some (pre ++ x :: rest)) :
    operator_times_body ⟨m, k, ⟨some bl, 0⟩⟩ ⟨k, n, ⟨some br, 0⟩⟩ r c
        (h, ⟨some bo, (pre.length : Int)⟩)
      = some (⟨h.blocks.set bo (pre ++ inner_sum a b k n r c :: rest)⟩,
          ⟨some bo, ((pre.length + 1 : Nat) : Int)⟩) := by
  have e1 : (matrix.mk m k ⟨some bl, 0⟩).row_begin r
      = some ⟨some bl, ((r * k + 0 : Nat) : Int)⟩ := by
    simp [matrix.row_begin, matrix.begin, hrm, Ptr.add]
  have e2 : (matrix.mk m k ⟨some bl, 0⟩).row_end r
      = some ((Ptr.mk (some bl) ((r * k + 0 : Nat) : Int)).add (k : Nat)) := by
    simp [matrix.row_end, e1]
  have e3 : (matrix.mk k n ⟨some br, 0⟩).col_begin c
      = some ⟨⟨some br, ((0 * n : Nat) : Int)⟩, c, n⟩ := by
    simp [matrix.col_begin, matrix.begin, hcn]
  have e4 := inner_product_loop_blocks h bl br a b m k n r c hl hr ha hb hrm hcn k 0 0
    (by omega)
  simp only [operator_times_body, e1, e2, e3, Option.some_bind, std_inner_product, dist_nat,
    e4, write_nat h bo pre.length _ _ ho (by simp), list_set_mid, add_one]
  simp [inner_sum, List.range_eq_range']

/-- the inner loop of the product fills one row of the result -/
theorem operator_times_inner_blocks {T : Type} [Zero T] [Add T] [Mul T]
    (bl br bo : Nat) (a b : List T) (m k n : Nat)
    (ha : a.length = m * k) (hb : b.length = k * n) (hol : bo ≠ bl) (hor : bo ≠ br)
    (r : Nat) (hrm : r < m) :
    ∀ (cnt c : Nat) (h : Heap T) (pre rest : List T),
      c + cnt ≤ n → pre.length = r * n + c → cnt ≤ rest.length →
      h.blocks[bl]? = some a → h.blocks[br]? = some b →
      h.blocks[bo]? = some (pre ++ rest) →
      forLoop (operator_times_body ⟨m, k, ⟨some bl, 0⟩⟩ ⟨k, n, ⟨some br, 0⟩⟩ r) cnt c
          (h, ⟨some bo, (pre.length : Int)⟩)
        = some (⟨h.blocks.set bo (pre ++ (List.range' pre.length cnt).map
                (fun p => inner_sum a b k n (p / n) (p % n)) ++ rest.drop cnt)⟩,
            ⟨some bo, ((pre.length + cnt : Nat) : Int)⟩) := by
  intro cnt
  induction cnt with
  | zero =>
    intro c h pre rest _ _ _ _ _ ho
    simp [forLoop, blocks_set_id _ _ _ ho]
  | succ cnt ih =>
    intro c h pre rest hc hpre hrest hl hr ho
    cases rest with
    | nil => simp at hrest
    | cons x rest =>
      have hcn : c < n := by omega
      have hdm := div_mod_idx (r := r) hcn
      rw [← hpre] at hdm
      simp only [forLoop,
        operator_times_body_blocks bl br bo a b m k n ha hb r c hrm hcn h pre x rest
          hl hr ho, Option.some_bind]
      have ho' : (h.blocks.set bo (pre ++ inner_sum a b k n r c :: rest))[bo]?
          = some ((pre ++ [inner_sum a b k n r c]) ++ rest) := by
        rw [blocks_set_same _ _ _ _ ho]; simp
      have := ih (c + 1) ⟨h.blocks.set bo (pre ++ inner_sum a b k n r c :: rest)⟩
        (pre ++ [inner_sum a b k n r c]) rest (by omega)
        (by simp only [List.length_append, List.length_singleton]; omega)
        (by simpa using hrest)
        (by rw [blocks_set_other _ _ _ _ hol, hl]) (by rw [blocks_set_other _ _ _ _ hor, hr]) ho'
      simp only [List.length_append, List.length_singleton, List.set_set] at this
      rw [this]
      simp [List.range'_succ, hdm.1, hdm.2, Nat.add_assoc, Nat.add_comm 1 cnt]

/-- the outer loop of the product fills the rows one after the other -/
theorem operator_times_outer_blocks {T : Type} [Zero T] [Add T] [Mul T]
    (bl br bo : Nat) (a b : List T) (m k n : Nat)
    (ha : a.length = m * k) (hb : b.length = k * n) (hol : bo ≠ bl) (hor : bo ≠ br) :
    ∀ (cnt r : Nat) (h : Heap T) (pre rest : List T),
      r + cnt ≤ m → pre.length = r * n → cnt * n ≤ rest.length →
      h.blocks[bl]? = some a → h.blocks[br]? = some b →
      h.blocks[bo]? = some (pre ++ rest) →
      forLoop (fun r s0 =>
          forLoop (operator_times_body ⟨m, k, ⟨some bl, 0⟩⟩ ⟨k, n, ⟨some br, 0⟩⟩ r) n 0 s0)
          cnt r (h, ⟨some bo, (pre.length : Int)⟩)
        = some (⟨h.blocks.set bo (pre ++ (List.range' pre.length (cnt * n)).map
                (fun p => inner_sum a b k n (p / n) (p % n)) ++ rest.drop (cnt * n))⟩,
            ⟨some bo, ((pre.length + cnt * n : Nat) : Int)⟩) := by
  intro cnt
  induction cnt with
  | zero =>
    intro r h pre rest _ _ _ _ _ ho
    simp [forLoop, blocks_set_id _ _ _ ho]
  | succ cnt ih =>
    intro r h pre rest hr hpre hrest hl hrb ho
    have hlen : n ≤ rest.length := by
      have : (cnt + 1) * n = cnt * n + n := by ring
      omega
    have hin := operator_times_inner_blocks bl br bo a b m k n ha hb hol hor r (by omega)
      n 0 h pre rest (by omega) (by omega) hlen hl hrb ho
    simp only [forLoop, hin, Option.some_bind]
    set row := (List.range' pre.length n).map (fun p => inner_sum a b k n (p / n) (p % n))
      with hrow
    have hrowlen : row.length = n := by simp [hrow]
    have ho' : (h.blocks.set bo (pre ++ row ++ rest.drop n))[bo]?
        = some ((pre ++ row) ++ rest.drop n) := blocks_set_same _ _ _ _ ho
    have hlen' : (pre ++ row).length = pre.length + n := by simp [hrowlen]
    have := ih (r + 1) ⟨h.blocks.set bo (pre ++ row ++ rest.drop n)⟩ (pre ++ row)
      (rest.drop n) (by omega)
      (by rw [hlen', hpre]; ring)
      (by
        have : (cnt + 1) * n = cnt * n + n := by ring
        simp only [List.length_drop]; omega)
      (by rw [blocks_set_other _ _ _ _ hol, hl]) (by rw [blocks_set_other _ _ _ _ hor, hrb]) ho'
    rw [hlen'] at this
    simp only [List.set_set] at this
    rw [this]
    have e1 : (cnt + 1) * n = cnt * n + n := by ring
    have e2 : List.range' pre.length (cnt * n + n)
        = List.range' pre.length n ++ List.range' (pre.length + n) (cnt * n) := by
      rw [List.range'_append_1]
    simp only [e1, e2, List.map_append, List.drop_drop, hrow, List.append_assoc, Nat.add_assoc]
    simp [Nat.add_comm]


theorem blocks_append_old {T : Type} (l : List (List T)) (x buf : List T) (b : Nat)
    (hb : l[b]? = some buf) : (l ++ [x])[b]? = some buf := by
  have := (List.getElem?_eq_some.1 hb).1
  rw [List.getElem?_append_left this, hb]

theorem blocks_lt {T : Type} (l : List (List T)) (buf : List T) (b : Nat)
    (hb : l[b]? = some buf) : b < l.length := (List.getElem?_eq_some.1 hb).1

theorem blocks_append_new {T : Type} (l : List (List T)) (x : List T) :
    (l ++ [x])[l.length]? = some x := list_getElem?_mid l x []

theorem blocks_set_new {T : Type} (l : List (List T)) (x y : List T) :
    (l ++ [x]).set l.length y = l ++ [y] := list_set_mid l x y []

/-- a well-formed matrix with at least one element owns a live array -/
theorem valid_block {T : Type} {h : Heap T} {m : matrix} {buf : List T}
    (hv : m.valid h buf) (hpos : m._rows * m._cols ≠ 0) :
    ∃ b, m = ⟨m._rows, m._cols, ⟨some b, 0⟩⟩ ∧ h.blocks[b]? = some buf := by
  obtain ⟨_, hbuf, hlen, _⟩ := hv
  cases m with
  | mk r c d =>
    cases d with
    | mk blk off =>
      simp only [matrix.buffer] at hbuf
      by_cases hoff : off = 0
      · subst hoff
        cases blk with
        | none =>
          simp at hbuf
          subst hbuf
          simp at hlen
          rcases hlen.symm with h0 | h0 <;> simp_all
        | some b => exact ⟨b, rfl, by simpa using hbuf⟩
      · simp [hoff] at hbuf

/-- an empty well-formed matrix has no rows and no columns -/
theorem valid_zero {T : Type} {h : Heap T} {m : matrix} {buf : List T}
    (hv : m.valid h buf) (hz : m._rows = 0 ∨ m._cols = 0) :
    m._rows = 0 ∧ m._cols = 0 ∧ buf = [] := by
  obtain ⟨hiff, _, hlen, _⟩ := hv
  have h1 : m._rows = 0 := by rcases hz with h0 | h0; exact h0; exact hiff.2 h0
  have h2 : m._cols = 0 := hiff.1 h1
  refine ⟨h1, h2, ?_⟩
  rw [h1, Nat.zero_mul] at hlen
  exact List.length_eq_zero.1 hlen

/-- allocation keeps every matrix well formed -/
theorem valid_append {T : Type} {h : Heap T} {m : matrix} {buf : List T}
    (hv : m.valid h buf) (x : List T) : m.valid ⟨h.blocks ++ [x]⟩ buf := by
  obtain ⟨hiff, hbuf, hlen⟩ := hv
  refine ⟨hiff, ?_, hlen⟩
  unfold matrix.buffer at hbuf ⊢
  by_cases hoff : m._data.off = 0
  · simp only [hoff, if_true] at hbuf ⊢
    cases hb : m._data.blk with
    | none => simpa [hb] using hbuf
    | some b =>
      simp only [hb] at hbuf ⊢
      exact blocks_append_old _ _ _ _ hbuf
  · simp [hoff] at hbuf

/-- closed form of the matrix product -/
theorem operator_times_eq {T : Type} [Inhabited T] [Zero T] [Add T] [Mul T] (h : Heap T)
    (left right : matrix) (a b : List T) (hl : left.valid h a) (hr : right.valid h b)
    (hk : left._cols = right._rows) (hfit : left._rows * right._cols < 2 ^ 64) :
    operator_times h left right =
      some (if left._rows * right._cols = 0 then (⟨0, 0, nullptr⟩, h)
        else (⟨left._rows, right._cols, ⟨some h.blocks.length, 0⟩⟩,
          ⟨h.blocks ++ [product_buffer a b left._rows left._cols right._cols]⟩)) := by
  by_cases hz : left._rows * right._cols = 0
  · have hm : left._rows = 0 := by
      rcases Nat.mul_eq_zero.1 hz with h0 | h0
      · exact h0
      · have := (valid_zero hr (Or.inr h0)).1
        exact (valid_zero hl (Or.inr (hk.trans this))).1
    simp [operator_times, matrix.ctor, size_t_mul, matrix.rows, matrix.cols, hm, forLoop]
  · have hm : left._rows ≠ 0 := fun h0 => hz (by simp [h0])
    have hn : right._cols ≠ 0 := fun h0 => hz (by simp [h0])
    have hk1 : left._cols ≠ 0 := fun h0 => hm (valid_zero hl (Or.inr h0)).1
    obtain ⟨bl, hleft, hbl⟩ := valid_block hl (Nat.mul_ne_zero hm hk1)
    obtain ⟨br, hright, hbr⟩ := valid_block hr (Nat.mul_ne_zero (hk ▸ hk1) hn)
    have hla := hl.2.2.1
    have hrb := hr.2.2.1
    have hsz := size_t_mul_eq hfit
    rw [← hk] at hright hrb
    clear hl hr
    generalize left._rows = m at *
    generalize left._cols = k at *
    generalize right._cols = n at *
    subst hleft hright
    have hol : h.blocks.length ≠ bl := Nat.ne_of_gt (blocks_lt _ _ _ hbl)
    have hor : h.blocks.length ≠ br := Nat.ne_of_gt (blocks_lt _ _ _ hbr)
    have := operator_times_outer_blocks bl br h.blocks.length a b m k n hla hrb hol hor m 0
      ⟨h.blocks ++ [List.replicate (m * n) default]⟩ [] (List.replicate (m * n) default)
      (by omega) (by simp) (by simp)
      (blocks_append_old _ _ _ _ hbl) (blocks_append_old _ _ _ _ hbr)
      (by simp)
    simp only [List.length_nil, Nat.cast_zero, List.nil_append, Nat.zero_add] at this
    simp only [operator_times, matrix.ctor, matrix.rows, matrix.cols, hsz, hz, if_false,
      Heap.alloc, matrix.begin]
    rw [this]
    simp [product_buffer, blocks_set_new, List.range_eq_range']


/-- what `operator()` reads in a well-formed matrix -/
theorem read_operator_call {T : Type} {h : Heap T} {m : matrix} {buf : List T}
    (hv : m.valid h buf) (i j : Nat) :
    h.read (m.operator_call i j) = buf[m._cols * i + j]? := by
  obtain ⟨_, hbuf, _⟩ := hv
  cases m with
  | mk r c d =>
    cases d with
    | mk blk off =>
      simp only [matrix.buffer] at hbuf
      by_cases hoff : off = 0
      · subst hoff
        cases blk with
        | none =>
          simp at hbuf
          subst hbuf
          simp [matrix.operator_call, Ptr.add, Heap.read]
        | some b =>
          simp only [if_true] at hbuf
          have : (matrix.mk r c ⟨some b, 0⟩).operator_call i j
              = ⟨some b, ((c * i + j : Nat) : Int)⟩ := by
            simp [matrix.operator_call, Ptr.add]
          rw [this, read_nat h b _ buf hbuf]
      · simp [hoff] at hbuf

theorem product_buffer_getElem? {T : Type} [Zero T] [Add T] [Mul T] (a b : List T)
    (m k n i j : Nat) (hi : i < m) (hj : j < n) :
    (product_buffer a b m k n)[n * i + j]? = some (inner_sum a b k n i j) := by
  have hlt : n * i + j < m * n := by rw [Nat.mul_comm n i]; exact idx_lt hi hj
  have hdm := div_mod_idx (r := i) hj
  rw [Nat.mul_comm i n] at hdm
  simp [product_buffer, List.getElem?_range hlt, hlt, hdm.1, hdm.2]

theorem product_buffer_length {T : Type} [Zero T] [Add T] [Mul T] (a b : List T)
    (m k n : Nat) : (product_buffer a b m k n).length = m * n := by
  simp [product_buffer]

theorem dist_add (p : Ptr) (n : Nat) : Ptr.dist p (p.add (n : Int)) = some n := by
  simp [Ptr.dist, Ptr.add]

/-- the members of a well-formed matrix: a null or a block-base data pointer -/
theorem valid_cases {T : Type} {h : Heap T} {m : matrix} {buf : List T}
    (hv : m.valid h buf) :
    (m._data = nullptr ∧ buf = []) ∨ ∃ b, m._data = ⟨some b, 0⟩ ∧ h.blocks[b]? = some buf := by
  obtain ⟨_, hbuf, _⟩ := hv
  cases m with
  | mk r c d =>
    cases d with
    | mk blk off =>
      simp only [matrix.buffer] at hbuf
      by_cases hoff : off = 0
      · subst hoff
        cases blk with
        | none => left; simp at hbuf; exact ⟨rfl, hbuf⟩
        | some b => right; exact ⟨b, rfl, by simpa using hbuf⟩
      · simp [hoff] at hbuf

/-- closed form of the in-place binary transform used by `+=` and `-=` -/
theorem transform2_inplace_eq {T : Type} (op : T → T → T) (h : Heap T) (self other : matrix)
    (a b : List T) (hs : self.valid h a) (ho : other.valid h b) (hsep : self.separate other)
    (hlen : a.length ≤ b.length) :
    std_transform2 h self.begin self.end_ other.begin self.begin op
      = some (h.store self (List.zipWith op a b)) := by
  have hsz : self.size = a.length := hs.2.2.1.symm
  simp only [std_transform2, matrix.end_, hsz, dist_add, Option.some_bind]
  rcases valid_cases hs with ⟨hd, ha⟩ | ⟨b1, hd, hb1⟩
  · subst ha
    simp [transform2_loop, Heap.store, hd, nullptr]
  · rcases valid_cases ho with ⟨hd2, hb⟩ | ⟨b2, hd2, hb2⟩
    · subst hb
      have ha : a = [] := List.length_eq_zero.1 (Nat.le_zero.1 hlen)
      subst ha
      simp [transform2_loop, Heap.store, hd, blocks_set_id _ _ _ hb1]
    · have hne : b1 ≠ b2 := by
        rcases hsep with h0 | h0 | h0
        · simp [hd] at h0
        · simp [hd2] at h0
        · simpa [hd, hd2] using h0
      have := transform2_loop_inplace op b1 b2 hne b a [] h (by simpa using hb1) hb2
        (by simpa using hlen)
      simp only [List.length_nil, Nat.cast_zero, List.nil_append, List.drop_zero] at this
      simp only [matrix.begin, hd, hd2, this, Heap.store]

/-- closed form of the in-place unary transform used by the scalar `*=` -/
theorem transform1_inplace_eq {T : Type} (uop : Heap T → T → Option T) (f : T → T)
    (h : Heap T) (self : matrix) (a : List T) (hs : self.valid h a)
    (huop : ∀ buf x, uop (h.store self buf) x = some (f x)) :
    std_transform1 h self.begin self.end_ self.begin uop = some (h.store self (a.map f)) := by
  have hsz : self.size = a.length := hs.2.2.1.symm
  simp only [std_transform1, matrix.end_, hsz, dist_add, Option.some_bind]
  rcases valid_cases hs with ⟨hd, ha⟩ | ⟨b1, hd, hb1⟩
  · subst ha
    simp [transform1_loop, Heap.store, hd, nullptr]
  · have hu : ∀ buf x, uop ⟨h.blocks.set b1 buf⟩ x = some (f x) := by
      intro buf x
      have := huop buf x
      simpa [Heap.store, hd] using this
    have := transform1_loop_inplace uop f b1 a [] h hu (by simpa using hb1)
    simp only [List.length_nil, Nat.cast_zero, List.nil_append] at this
    simp only [matrix.begin, hd, this, Heap.store]

/-- closed form of the copy constructor -/
theorem ctor_copy_eq {T : Type} [Inhabited T] (h : Heap T) (other : matrix) (buf : List T)
    (hv : other.valid h buf) :
    matrix.ctor_copy h other =
      some (if other._rows * other._cols = 0 then (⟨other._rows, other._cols, nullptr⟩, h)
        else (⟨other._rows, other._cols, ⟨some h.blocks.length, 0⟩⟩, ⟨h.blocks ++ [buf]⟩)) := by
  by_cases hz : other._rows * other._cols = 0
  · simp [matrix.ctor_copy, hz]
  · obtain ⟨bs, hother, hbs⟩ := valid_block hv hz
    have hlen := hv.2.2.1
    have hne : h.blocks.length ≠ bs := Nat.ne_of_gt (blocks_lt _ _ _ hbs)
    have := copy_loop_blocks bs h.blocks.length hne buf
      (List.replicate (other._rows * other._cols) default) []
      ⟨h.blocks ++ [List.replicate (other._rows * other._cols) default]⟩
      (by simp) (blocks_append_old _ _ _ _ hbs) (by simp [hlen])
    simp only [List.length_nil, Nat.cast_zero, List.nil_append, List.drop_zero,
      List.length_replicate, blocks_set_new] at this
    rw [← hlen, List.take_length] at this
    have hd : other._data = ⟨some bs, 0⟩ := by rw [hother]
    have hsz : other.size = buf.length := hlen.symm
    have hnn : (Ptr.mk (some h.blocks.length) 0 = nullptr) = False := by
      simp [nullptr]
    simp only [matrix.ctor_copy, hz, if_false, Heap.alloc, hnn, std_copy, matrix.end_, hsz,
      dist_add, Option.some_bind, matrix.begin, hd]
    rw [← hlen] 
    rw [this]
    simp


/-- closed form of `operator==` on well-formed matrices -/
theorem operator_eq_eq {T : Type} [BEq T] (h : Heap T) (left right : matrix) (a b : List T)
    (hl : left.valid h a) (hr : right.valid h b) :
    operator_eq h left right
      = some (if left._rows = right._rows ∧ left._cols = right._cols then a == b else false) := by
  by_cases hshape : left._rows = right._rows ∧ left._cols = right._cols
  · have hab : a.length = b.length := by rw [hl.2.2.1, hr.2.2.1, hshape.1, hshape.2]
    have hsz : left.size = a.length := hl.2.2.1.symm
    simp only [operator_eq, matrix.rows, matrix.cols, hshape, and_self, if_true, std_equal,
      matrix.end_, hsz, dist_add, Option.some_bind]
    rcases valid_cases hl with ⟨_, ha⟩ | ⟨b1, hd1, hb1⟩
    · subst ha
      have hb : b = [] := List.length_eq_zero.1 hab.symm
      subst hb
      simp [equal_loop]
    · rcases valid_cases hr with ⟨_, hb⟩ | ⟨b2, hd2, hb2⟩
      · subst hb
        have ha : a = [] := List.length_eq_zero.1 hab
        subst ha
        simp [equal_loop]
      · have := equal_loop_blocks h b1 b2 a b hb1 hb2 a.length 0 (by omega) (by omega)
        simp only [Nat.cast_zero, List.drop_zero, List.take_length] at this
        rw [hab, List.take_length, ← hab] at this
        simp only [matrix.begin, hd1, hd2, this]
  · simp [operator_eq, matrix.rows, matrix.cols, hshape]

/-- a freshly allocated array makes a well-formed matrix -/
theorem valid_new {T : Type} (h : Heap T) (r c : Nat) (buf : List T) (hrc : r = 0 ↔ c = 0)
    (hlen : buf.length = r * c ∧ r * c < 2 ^ 63) :
    (matrix.mk r c ⟨some h.blocks.length, 0⟩).valid ⟨h.blocks ++ [buf]⟩ buf :=
  ⟨hrc, by simp [matrix.buffer], hlen⟩

/-- the empty matrix is well formed in every free store -/
theorem valid_null {T : Type} (h : Heap T) (r c : Nat) (hr : r = 0) (hc : c = 0) :
    (matrix.mk r c nullptr).valid h ([] : List T) :=
  ⟨by simp [hr, hc], by simp [matrix.buffer, nullptr], by simp [hr], by simp [hr]⟩

/-- overwriting the array of a matrix keeps it well formed -/
theorem valid_store_self {T : Type} {h : Heap T} {m : matrix} {a : List T}
    (hv : m.valid h a) (buf : List T) (hlen : buf.length = a.length) :
    m.valid (h.store m buf) buf := by
  rcases valid_cases hv with ⟨hd, ha⟩ | ⟨b, hd, hb⟩
  · subst ha
    have : buf = [] := List.length_eq_zero.1 hlen
    subst this
    simpa [Heap.store, hd, nullptr] using hv
  · refine ⟨hv.1, ?_, hlen.trans hv.2.2.1, hv.2.2.2⟩
    simp [matrix.buffer, Heap.store, hd, blocks_set_same _ _ _ _ hb]

/-- overwriting the array of a matrix keeps the matrices that own another array -/
theorem valid_store_other {T : Type} {h : Heap T} {m x : matrix} {a : List T}
    (hv : x.valid h a) (hsep : x.separate m) (buf : List T) :
    x.valid (h.store m buf) a := by
  cases hm : m._data.blk with
  | none => simpa [Heap.store, hm] using hv
  | some b =>
    rcases valid_cases hv with ⟨hd, ha⟩ | ⟨bx, hd, hbx⟩
    · subst ha
      exact ⟨hv.1, by simp [matrix.buffer, hd, nullptr], hv.2.2⟩
    · have hne : b ≠ bx := by
        rcases hsep with h0 | h0 | h0
        · simp [hd] at h0
        · simp [hm] at h0
        · intro hbb; apply h0; simp [hd, hm, hbb]
      refine ⟨hv.1, ?_, hv.2.2⟩
      simp [matrix.buffer, Heap.store, hm, hd, blocks_set_other _ _ _ _ hne, hbx]

/-- a well-formed matrix never owns the array that the next allocation returns -/
theorem separate_new {T : Type} {h : Heap T} {m : matrix} {a : List T} (hv : m.valid h a)
    (r c : Nat) : (matrix.mk r c ⟨some h.blocks.length, 0⟩).separate m := by
  rcases valid_cases hv with ⟨hd, _⟩ | ⟨b, hd, hb⟩
  · right; left; simp [hd, nullptr]
  · right; right
    have := blocks_lt _ _ _ hb
    simp only [hd, ne_eq, Option.some.injEq]
    omega

/-- closed form of `matrix result = left; result op= right;` for `+` and `-` -/
theorem copy_transform2_eq {T : Type} [Inhabited T] (op : T → T → T) (h : Heap T)
    (left right : matrix) (a b : List T) (hl : left.valid h a) (hr : right.valid h b)
    (hlen : a.length ≤ b.length) :
    ((matrix.ctor_copy h left).bind fun s =>
        (std_transform2 s.2 s.1.begin s.1.end_ right.begin s.1.begin op).map
          fun h1 => (s.1, h1))
      = some (if left._rows * left._cols = 0 then (⟨left._rows, left._cols, nullptr⟩, h)
        else (⟨left._rows, left._cols, ⟨some h.blocks.length, 0⟩⟩,
          ⟨h.blocks ++ [List.zipWith op a b]⟩)) := by
  rw [ctor_copy_eq h left a hl]
  by_cases hz : left._rows * left._cols = 0
  · have hzz := valid_zero hl (Nat.mul_eq_zero.1 hz)
    have ha : a = [] := hzz.2.2
    subst ha
    have hv := valid_null h left._rows left._cols hzz.1 hzz.2.1
    have := transform2_inplace_eq op h ⟨left._rows, left._cols, nullptr⟩ right [] b hv hr
      (Or.inl rfl) (by simp)
    simp only [hz, if_true, Option.some_bind, this]
    simp [Heap.store, nullptr]
  · have hv := valid_new h left._rows left._cols a hl.1 hl.2.2
    have := transform2_inplace_eq op ⟨h.blocks ++ [a]⟩
      ⟨left._rows, left._cols, ⟨some h.blocks.length, 0⟩⟩ right a b hv (valid_append hr a)
      (separate_new hr _ _) hlen
    simp only [hz, if_false, Option.some_bind, this]
    simp [Heap.store, blocks_set_new]

theorem operator_plus_eq {T : Type} [Inhabited T] [Add T] (h : Heap T)
    (left right : matrix) (a b : List T) (hl : left.valid h a) (hr : right.valid h b)
    (hlen : a.length ≤ b.length) :
    operator_plus h left right
      = some (if left._rows * left._cols = 0 then (⟨left._rows, left._cols, nullptr⟩, h)
        else (⟨left._rows, left._cols, ⟨some h.blocks.length, 0⟩⟩,
          ⟨h.blocks ++ [List.zipWith (fun x y => x + y) a b]⟩)) :=
  copy_transform2_eq (fun x y => x + y) h left right a b hl hr hlen

theorem operator_minus_eq {T : Type} [Inhabited T] [Sub T] (h : Heap T)
    (left right : matrix) (a b : List T) (hl : left.valid h a) (hr : right.valid h b)
    (hlen : a.length ≤ b.length) :
    operator_minus h left right
      = some (if left._rows * left._cols = 0 then (⟨left._rows, left._cols, nullptr⟩, h)
        else (⟨left._rows, left._cols, ⟨some h.blocks.length, 0⟩⟩,
          ⟨h.blocks ++ [List.zipWith (fun x y => x - y) a b]⟩)) :=
  copy_transform2_eq (fun x y => x - y) h left right a b hl hr hlen

/-- overwriting the array of `m` does not change what a reference bound outside of it reads -/
theorem get_store {T : Type} (h : Heap T) (m : matrix) (factor : const_reference T)
    (hout : factor.outside_of m) (buf : List T) :
    factor.get (h.store m buf) = factor.get h := by
  cases factor with
  | outside v => rfl
  | element p =>
    cases hm : m._data.blk with
    | none => simp [Heap.store, hm]
    | some b =>
      simp only [const_reference.outside_of, hm] at hout
      simp only [const_reference.get, Heap.store, hm, Heap.read]
      cases hp : p.blk with
      | none => rfl
      | some bp =>
        have hne : b ≠ bp := by
          intro hbb; apply hout; rw [hp, hbb]
        simp only [blocks_set_other _ _ _ _ hne]

/-- allocation does not change what a reference reads -/
theorem get_append {T : Type} (h : Heap T) (factor : const_reference T) (k : T)
    (hk : factor.get h = some k) (x : List T) : factor.get ⟨h.blocks ++ [x]⟩ = some k := by
  cases factor with
  | outside v => exact hk
  | element p =>
    simp only [const_reference.get, Heap.read] at hk ⊢
    cases hp : p.blk with
    | none => simp [hp] at hk
    | some bp =>
      simp only [hp] at hk ⊢
      by_cases hoff : 0 ≤ p.off
      · simp only [hoff, if_true] at hk ⊢
        cases hb : h.blocks[bp]? with
        | none => simp [hb] at hk
        | some buf =>
          rw [blocks_append_old _ _ _ _ hb]
          simpa [hb] using hk
      · simp [hoff] at hk

/-- a reference that can be read is bound outside of the next array allocated -/
theorem outside_of_new {T : Type} (h : Heap T) (factor : const_reference T) (k : T)
    (hk : factor.get h = some k) (r c : Nat) :
    factor.outside_of (matrix.mk r c ⟨some h.blocks.length, 0⟩) := by
  cases factor with
  | outside v => trivial
  | element p =>
    simp only [const_reference.get, Heap.read] at hk
    simp only [const_reference.outside_of]
    cases hp : p.blk with
    | none => simp
    | some bp =>
      simp only [hp] at hk
      by_cases hoff : 0 ≤ p.off
      · simp only [hoff, if_true] at hk
        cases hb : h.blocks[bp]? with
        | none => simp [hb] at hk
        | some buf =>
          have := blocks_lt _ _ _ hb
          simp only [ne_eq, Option.some.injEq]
          omega
      · simp [hoff] at hk

/-- closed form of `*=` with a factor bound outside of the array of the matrix -/
theorem operator_times_assign_scalar_eq {T : Type} [Mul T] (h : Heap T) (self : matrix)
    (a : List T) (factor : const_reference T) (k : T) (hs : self.valid h a)
    (hk : factor.get h = some k) (hout : factor.outside_of self) :
    self.operator_times_assign_scalar h factor
      = some (self, h.store self (a.map fun x => x * k)) := by
  have := transform1_inplace_eq
    (fun h1 elem => (factor.get h1).map fun f => elem * f)
    (fun x => x * k) h self a hs
    (by intro buf x; simp [get_store h self factor hout buf, hk])
  simp only [matrix.operator_times_assign_scalar, this, Option.map_some']

/-- closed form of `matrix * scalar` -/
theorem operator_times_scalar_eq {T : Type} [Inhabited T] [Mul T] (h : Heap T)
    (left : matrix) (a : List T) (factor : const_reference T) (k : T) (hl : left.valid h a)
    (hk : factor.get h = some k) :
    operator_times_scalar h left factor
      = some (if left._rows * left._cols = 0 then (⟨left._rows, left._cols, nullptr⟩, h)
        else (⟨left._rows, left._cols, ⟨some h.blocks.length, 0⟩⟩,
          ⟨h.blocks ++ [a.map fun x => x * k]⟩)) := by
  unfold operator_times_scalar
  rw [ctor_copy_eq h left a hl]
  by_cases hz : left._rows * left._cols = 0
  · have hzz := valid_zero hl (Nat.mul_eq_zero.1 hz)
    have ha : a = [] := hzz.2.2
    subst ha
    have hv := valid_null h left._rows left._cols hzz.1 hzz.2.1
    have hout : factor.outside_of (matrix.mk left._rows left._cols nullptr) := by
      cases factor with
      | outside v => trivial
      | element p =>
        simp only [const_reference.outside_of, nullptr]
        intro hp
        simp [const_reference.get, Heap.read, hp] at hk
    simp only [hz, if_true, Option.some_bind,
      operator_times_assign_scalar_eq h _ [] factor k hv hk hout]
    simp [Heap.store, nullptr]
  · have hv := valid_new h left._rows left._cols a hl.1 hl.2.2
    simp only [hz, if_false, Option.some_bind,
      operator_times_assign_scalar_eq ⟨h.blocks ++ [a]⟩ _ a factor k hv
        (get_append h factor k hk a) (outside_of_new h factor k hk _ _)]
    simp [Heap.store, blocks_set_new]

/-- what `begin()[i]` reads in a well-formed matrix -/
theorem read_begin_add {T : Type} {h : Heap T} {m : matrix} {buf : List T}
    (hv : m.valid h buf) (i : Nat) : h.read (m.begin.add (i : Int)) = buf[i]? := by
  rcases valid_cases hv with ⟨hd, hb⟩ | ⟨b, hd, hb⟩
  · subst hb
    simp [matrix.begin, hd, nullptr, Ptr.add, Heap.read]
  · have : m.begin.add (i : Int) = ⟨some b, (i : Int)⟩ := by
      simp [matrix.begin, hd, Ptr.add]
    rw [this, read_nat h b i buf hb]

/-- list equality under the element comparison, index by index -/
theorem list_beq_iff_forall {T : Type} [BEq T] :
    ∀ (a b : List T), a.length = b.length →
      ((a == b) = true ↔
        ∀ i, i < a.length → ∃ x y, a[i]? = some x ∧ b[i]? = some y ∧ (x == y) = true) := by
  intro a
  induction a with
  | nil =>
    intro b hb
    have : b = [] := List.length_eq_zero.1 hb.symm
    subst this
    simp
  | cons x a ih =>
    intro b hb
    cases b with
    | nil => simp at hb
    | cons y b =>
      have hlen : a.length = b.length := by simpa using hb
      have hcons : ((x :: a) == (y :: b)) = ((x == y) && (a == b)) := rfl
      rw [hcons, Bool.and_eq_true, ih b hlen]
      constructor
      · rintro ⟨hxy, hrest⟩ i hi
        cases i with
        | zero => exact ⟨x, y, by simp, by simp, hxy⟩
        | succ i =>
          obtain ⟨u, v, hu, hv, huv⟩ := hrest i (by simpa using hi)
          exact ⟨u, v, by simpa using hu, by simpa using hv, huv⟩
      · intro hall
        constructor
        · obtain ⟨u, v, hu, hv, huv⟩ := hall 0 (by simp)
          simp at hu hv
          subst hu hv
          exact huv
        · intro i hi
          obtain ⟨u, v, hu, hv, huv⟩ := hall (i + 1) (by simpa using hi)
          exact ⟨u, v, by simpa using hu, by simpa using hv, huv⟩


/-- compatible well-formed operands with an empty product are all empty -/
theorem dims_zero {T : Type} {h : Heap T} {left right : matrix} {a b : List T}
    (hl : left.valid h a) (hr : right.valid h b) (hk : left._cols = right._rows)
    (hz : left._rows * right._cols = 0) :
    left._rows = 0 ∧ left._cols = 0 ∧ right._cols = 0 := by
  have hm : left._rows = 0 := by
    rcases Nat.mul_eq_zero.1 hz with h0 | h0
    · exact h0
    · have := (valid_zero hr (Or.inr h0)).1
      exact (valid_zero hl (Or.inr (hk.trans this))).1
  have hk0 : left._cols = 0 := (valid_zero hl (Or.inl hm)).2.1
  exact ⟨hm, hk0, (valid_zero hr (Or.inl (hk.symm.trans hk0))).2.1⟩

/-- the product of well-formed operands is well formed and leaves the operands alone -/
theorem operator_times_valid {T : Type} [Inhabited T] [Zero T] [Add T] [Mul T] (h : Heap T)
    (left right : matrix) (a b : List T) (hl : left.valid h a) (hr : right.valid h b)
    (hk : left._cols = right._rows) (hfit : left._rows * right._cols < 2 ^ 63) :
    ∃ res h1, operator_times h left right = some (res, h1) ∧
      res._rows = left._rows ∧ res._cols = right._cols ∧
      res.valid h1 (product_buffer a b left._rows left._cols right._cols) ∧
      ∀ (x : matrix) (c : List T), x.valid h c → x.valid h1 c := by
  rw [operator_times_eq h left right a b hl hr hk (by omega)]
  by_cases hz : left._rows * right._cols = 0
  · obtain ⟨hm, _, hn⟩ := dims_zero hl hr hk hz
    refine ⟨⟨0, 0, nullptr⟩, h, by rw [if_pos hz], hm.symm, hn.symm, ?_, fun _ _ hx => hx⟩
    have : product_buffer a b left._rows left._cols right._cols = [] := by
      simp [product_buffer, hm]
    rw [this]
    exact valid_null h 0 0 rfl rfl
  · have hm : left._rows ≠ 0 := fun h0 => hz (by simp [h0])
    have hn : right._cols ≠ 0 := fun h0 => hz (by simp [h0])
    refine ⟨⟨left._rows, right._cols, ⟨some h.blocks.length, 0⟩⟩,
      ⟨h.blocks ++ [product_buffer a b left._rows left._cols right._cols]⟩,
      by rw [if_neg hz], rfl, rfl, ?_, fun _ _ hx => valid_append hx _⟩
    exact valid_new h _ _ _ ⟨fun h0 => absurd h0 hm, fun h0 => absurd h0 hn⟩
      ⟨product_buffer_length a b _ _ _, hfit⟩

/-- the accumulation of `std::inner_product` over the integers is a finite sum -/
theorem foldl_add_eq_sum (f : Nat → Int) (k : Nat) :
    (List.range k).foldl (fun acc t => acc + f t) 0 = Finset.sum (Finset.range k) f := by
  induction k with
  | zero => simp
  | succ k ih => rw [List.range_succ, List.foldl_append, ih, Finset.sum_range_succ]; rfl

theorem inner_sum_eq_sum (a b : List Int) (k n i j : Nat) :
    inner_sum a b k n i j
      = Finset.sum (Finset.range k) (fun t => a.getD (i * k + t) 0 * b.getD (t * n + j) 0) := by
  unfold inner_sum
  exact foldl_add_eq_sum (fun t => a.getD (i * k + t) 0 * b.getD (t * n + j) 0) k

theorem product_buffer_getD {T : Type} [Zero T] [Add T] [Mul T] (a b : List T)
    (m k n i j : Nat) (hi : i < m) (hj : j < n) :
    (product_buffer a b m k n).getD (i * n + j) 0 = inner_sum a b k n i j := by
  have := product_buffer_getElem? a b m k n i j hi hj
  rw [Nat.mul_comm] at this
  simp [List.getD, this]

/-- associativity of the reference product over the integers -/
theorem product_buffer_assoc (a b c : List Int) (m k n p : Nat) :
    product_buffer (product_buffer a b m k n) c m n p
      = product_buffer a (product_buffer b c k n p) m k p := by
  unfold product_buffer
  apply List.map_congr_left
  intro q hq
  have hq : q < m * p := List.mem_range.1 hq
  have hp : 0 < p := by
    rcases Nat.eq_zero_or_pos p with h0 | h0
    · subst h0; simp at hq
    · exact h0
  have hi : q / p < m := by
    rw [Nat.div_lt_iff_lt_mul hp]; exact hq
  have hj : q % p < p := Nat.mod_lt _ hp
  generalize q / p = i at hi ⊢
  generalize q % p = j at hj ⊢
  change inner_sum (product_buffer a b m k n) c n p i j
    = inner_sum a (product_buffer b c k n p) k p i j
  rw [inner_sum_eq_sum, inner_sum_eq_sum]
  have e1 : ∀ t ∈ Finset.range n,
      (product_buffer a b m k n).getD (i * n + t) 0 * c.getD (t * p + j) 0
        = Finset.sum (Finset.range k)
            (fun s => a.getD (i * k + s) 0 * b.getD (s * n + t) 0 * c.getD (t * p + j) 0) := by
    intro t ht
    rw [product_buffer_getD a b m k n i t hi (Finset.mem_range.1 ht), inner_sum_eq_sum,
      Finset.sum_mul]
  have e2 : ∀ s ∈ Finset.range k,
      a.getD (i * k + s) 0 * (product_buffer b c k n p).getD (s * p + j) 0
        = Finset.sum (Finset.range n)
            (fun t => a.getD (i * k + s) 0 * b.getD (s * n + t) 0 * c.getD (t * p + j) 0) := by
    intro s hs
    rw [product_buffer_getD b c k n p s j (Finset.mem_range.1 hs) hj, inner_sum_eq_sum,
      Finset.mul_sum]
    apply Finset.sum_congr rfl
    intro t _
    rw [mul_assoc]
  rw [Finset.sum_congr rfl e1, Finset.sum_congr rfl e2, Finset.sum_comm]

/-- multiplying by the identity on the right gives back the reference array -/
theorem product_buffer_identity (a e : List Int) (m n : Nat) (ha : a.length = m * n)
    (he : ∀ t, t < n → ∀ j, j < n → e.getD (t * n + j) 0 = if t = j then 1 else 0) :
    product_buffer a e m n n = a := by
  apply List.ext_getElem?
  intro q
  by_cases hq : q < m * n
  · have hn : 0 < n := by
      rcases Nat.eq_zero_or_pos n with h0 | h0
      · subst h0; simp at hq
      · exact h0
    have hi : q / n < m := by rw [Nat.div_lt_iff_lt_mul hn]; exact hq
    have hj : q % n < n := Nat.mod_lt _ hn
    have hqq : n * (q / n) + q % n = q := Nat.div_add_mod q n
    have := product_buffer_getElem? a e m n n (q / n) (q % n) hi hj
    rw [hqq] at this
    rw [this, inner_sum_eq_sum]
    have e1 : ∀ t ∈ Finset.range n,
        a.getD (q / n * n + t) 0 * e.getD (t * n + q % n) 0
          = if t = q % n then a.getD (q / n * n + t) 0 else 0 := by
      intro t ht
      rw [he t (Finset.mem_range.1 ht) _ hj]
      split <;> simp
    rw [Finset.sum_congr rfl e1, Finset.sum_ite_eq' (Finset.range n) (q % n)]
    simp only [Finset.mem_range, hj, if_true]
    rw [Nat.mul_comm, hqq, getElem?_getD_of_lt a q 0 (by omega)]
  · have h1 : (product_buffer a e m n n).length ≤ q := by
      rw [product_buffer_length]; omega
    have h2 : a.length ≤ q := by omega
    rw [List.getElem?_eq_none h1, List.getElem?_eq_none h2]


/-- the dimensioned constructor returns a well-formed matrix of default values -/
theorem ctor_valid {T : Type} [Inhabited T] (h : Heap T) (r c : Nat)
    (hfit : r * c < 2 ^ 63) :
    (matrix.ctor h r c).1.valid (matrix.ctor h r c).2 (List.replicate (r * c) default) := by
  have hsz : size_t_mul r c = r * c := size_t_mul_eq (by omega)
  by_cases hz : r * c = 0
  · simp only [matrix.ctor, hsz, hz, if_true, List.replicate_zero]
    exact valid_null h 0 0 rfl rfl
  · have hr : r ≠ 0 := fun h0 => hz (by simp [h0])
    have hc : c ≠ 0 := fun h0 => hz (by simp [h0])
    simp only [matrix.ctor, hsz, hz, if_false, Heap.alloc]
    exact valid_new h r c _ ⟨fun h0 => absurd h0 hr, fun h0 => absurd h0 hc⟩
      ⟨by simp, hfit⟩

/-- the dimensioned constructor leaves the existing matrices alone -/
theorem ctor_frame {T : Type} [Inhabited T] (h : Heap T) (r c : Nat) (x : matrix)
    (buf : List T) (hx : x.valid h buf) : x.valid (matrix.ctor h r c).2 buf := by
  by_cases hz : size_t_mul r c = 0
  · simpa [matrix.ctor, hz] using hx
  · simp only [matrix.ctor, hz, if_false, Heap.alloc]
    exact valid_append hx _

/-- shape of the matrix built by the dimensioned constructor from a well-formed shape -/
theorem ctor_shape {T : Type} [Inhabited T] (h : Heap T) (r c : Nat) (hrc : r = 0 ↔ c = 0)
    (hfit : r * c < 2 ^ 64) :
    (matrix.ctor h r c).1._rows = r ∧ (matrix.ctor h r c).1._cols = c := by
  have hsz : size_t_mul r c = r * c := size_t_mul_eq hfit
  by_cases hz : r * c = 0
  · have hr : r = 0 := by
      rcases Nat.mul_eq_zero.1 hz with h0 | h0
      · exact h0
      · exact hrc.2 h0
    have hc : c = 0 := hrc.1 hr
    simp [matrix.ctor, size_t_mul, hr, hc]
  · simp [matrix.ctor, hsz, hz]

/-- `left + right` and `left - right`: a fresh well-formed matrix, operands left alone -/
theorem copy_transform2_valid {T : Type} [Inhabited T] (op : T → T → T) (h : Heap T)
    (left right : matrix) (a b : List T) (hl : left.valid h a) (hr : right.valid h b)
    (hlen : a.length ≤ b.length) :
    ∃ res h1,
      ((matrix.ctor_copy h left).bind fun s =>
        (std_transform2 s.2 s.1.begin s.1.end_ right.begin s.1.begin op).map
          fun h2 => (s.1, h2)) = some (res, h1) ∧
      res._rows = left._rows ∧ res._cols = left._cols ∧
      res.valid h1 (List.zipWith op a b) ∧
      (∀ (x : matrix) (c : List T), x.valid h c → x.valid h1 c) ∧
      ∀ (x : matrix) (c : List T), x.valid h c → res.separate x := by
  rw [copy_transform2_eq op h left right a b hl hr hlen]
  by_cases hz : left._rows * left._cols = 0
  · have hzz := valid_zero hl (Nat.mul_eq_zero.1 hz)
    refine ⟨⟨left._rows, left._cols, nullptr⟩, h, by rw [if_pos hz], rfl, rfl, ?_,
      fun _ _ hx => hx, fun _ _ _ => Or.inl rfl⟩
    rw [hzz.2.2]
    exact valid_null h _ _ hzz.1 hzz.2.1
  · refine ⟨⟨left._rows, left._cols, ⟨some h.blocks.length, 0⟩⟩,
      ⟨h.blocks ++ [List.zipWith op a b]⟩, by rw [if_neg hz], rfl, rfl, ?_,
      fun _ _ hx => valid_append hx _, fun _ _ hx => separate_new hx _ _⟩
    exact valid_new h _ _ _ hl.1
      ⟨by rw [List.length_zipWith, Nat.min_eq_left hlen, hl.2.2.1], hl.2.2.2⟩

/-- `left * k`: a fresh well-formed matrix, the operand left alone -/
theorem operator_times_scalar_valid {T : Type} [Inhabited T] [Mul T] (h : Heap T)
    (left : matrix) (a : List T) (factor : const_reference T) (k : T) (hl : left.valid h a)
    (hk : factor.get h = some k) :
    ∃ res h1, operator_times_scalar h left factor = some (res, h1) ∧
      res._rows = left._rows ∧ res._cols = left._cols ∧
      res.valid h1 (a.map fun x => x * k) ∧
      (∀ (x : matrix) (c : List T), x.valid h c → x.valid h1 c) ∧
      (∀ (x : matrix) (c : List T), x.valid h c → res.separate x) ∧
      factor.get h1 = some k := by
  rw [operator_times_scalar_eq h left a factor k hl hk]
  by_cases hz : left._rows * left._cols = 0
  · have hzz := valid_zero hl (Nat.mul_eq_zero.1 hz)
    refine ⟨⟨left._rows, left._cols, nullptr⟩, h, by rw [if_pos hz], rfl, rfl, ?_,
      fun _ _ hx => hx, fun _ _ _ => Or.inl rfl, hk⟩
    rw [hzz.2.2]
    exact valid_null h _ _ hzz.1 hzz.2.1
  · refine ⟨⟨left._rows, left._cols, ⟨some h.blocks.length, 0⟩⟩,
      ⟨h.blocks ++ [a.map fun x => x * k]⟩, by rw [if_neg hz], rfl, rfl, ?_,
      fun _ _ hx => valid_append hx _, fun _ _ hx => separate_new hx _ _,
      get_append h factor k hk _⟩
    exact valid_new h _ _ _ hl.1 ⟨by simp [hl.2.2.1], hl.2.2.2⟩

theorem zipWith_add_zero (a : List Int) (n : Nat) (hn : a.length ≤ n) :
    List.zipWith (fun x y => x + y) a (List.replicate n (0 : Int)) = a := by
  induction a generalizing n with
  | nil => simp
  | cons x a ih =>
    cases n with
    | zero => simp at hn
    | succ n =>
      simp only [List.replicate_succ, List.zipWith_cons_cons, add_zero]
      rw [ih n (by simpa using hn)]

/-- the copy constructor: a fresh well-formed matrix, everything else left alone -/
theorem ctor_copy_valid {T : Type} [Inhabited T] (h : Heap T) (other : matrix) (buf : List T)
    (hv : other.valid h buf) :
    ∃ res h1, matrix.ctor_copy h other = some (res, h1) ∧
      res._rows = other._rows ∧ res._cols = other._cols ∧
      res.valid h1 buf ∧ (res._data = nullptr ↔ res.size = 0) ∧
      (∀ (x : matrix) (c : List T), x.valid h c → x.valid h1 c) ∧
      ∀ (x : matrix) (c : List T), x.valid h c → res.separate x := by
  rw [ctor_copy_eq h other buf hv]
  by_cases hz : other._rows * other._cols = 0
  · have hzz := valid_zero hv (Nat.mul_eq_zero.1 hz)
    refine ⟨⟨other._rows, other._cols, nullptr⟩, h, by rw [if_pos hz], rfl, rfl, ?_, ?_,
      fun _ _ hx => hx, fun _ _ _ => Or.inl rfl⟩
    · rw [hzz.2.2]
      exact valid_null h _ _ hzz.1 hzz.2.1
    · simp [matrix.size, hz]
  · refine ⟨⟨other._rows, other._cols, ⟨some h.blocks.length, 0⟩⟩, ⟨h.blocks ++ [buf]⟩,
      by rw [if_neg hz], rfl, rfl, valid_new h _ _ _ hv.1 hv.2.2, ?_,
      fun _ _ hx => valid_append hx _, fun _ _ hx => separate_new hx _ _⟩
    simp [matrix.size, hz, nullptr]

/-- the two results of `swap` are the operands exchanged -/
theorem swap_eq (A B : matrix) : A.swap B = (B, A) := by
  cases A; cases B; rfl

/-- `*=` by a matrix returns what `operator*` returns -/
theorem operator_times_assign_eq {T : Type} [Inhabited T] [Zero T] [Add T] [Mul T]
    (h : Heap T) (A B : matrix) : A.operator_times_assign h B = operator_times h A B := by
  simp only [matrix.operator_times_assign, swap_eq]
  cases operator_times h A B <;> rfl

/-- separation of two matrices is symmetric -/
theorem separate_symm {m1 m2 : matrix} (hs : m1.separate m2) : m2.separate m1 := by
  rcases hs with h0 | h0 | h0
  · exact Or.inr (Or.inl h0)
  · exact Or.inl h0
  · exact Or.inr (Or.inr (fun h1 => h0 h1.symm))

/-- the elements of a pairwise combination of two arrays -/
theorem zipWith_getElem?_of_lt {T : Type} (op : T → T → T) (a b : List T) (i : Nat)
    (hi : i < a.length) (hlen : a.length ≤ b.length) :
    ∃ x y, a[i]? = some x ∧ b[i]? = some y ∧ (List.zipWith op a b)[i]? = some (op x y) := by
  have hb : i < b.length := by omega
  refine ⟨a[i], b[i], List.getElem?_eq_getElem hi, List.getElem?_eq_getElem hb, ?_⟩
  rw [List.getElem?_zipWith, List.getElem?_eq_getElem hi, List.getElem?_eq_getElem hb]

/-- closed form of `+=` and `-=` on two matrices that own different arrays -/
theorem transform2_assign_valid {T : Type} (op : T → T → T) (h : Heap T) (A B : matrix)
    (a b : List T) (hA : A.valid h a) (hB : B.valid h b) (hsep : A.separate B)
    (hlen : a.length ≤ b.length) :
    ∃ h1, std_transform2 h A.begin A.end_ B.begin A.begin op = some h1 ∧
      A.valid h1 (List.zipWith op a b) ∧ B.valid h1 b ∧
      ∀ (x : matrix) (c : List T), x.valid h c → x.separate A → x.valid h1 c := by
  refine ⟨h.store A (List.zipWith op a b), transform2_inplace_eq op h A B a b hA hB hsep hlen,
    valid_store_self hA _ (by rw [List.length_zipWith, Nat.min_eq_left hlen]),
    valid_store_other hB (separate_symm hsep) _, fun x c hx hs => valid_store_other hx hs _⟩

/-- the inner loop of the literal constructor fills one row -/
theorem ctor_init_inner_blocks {T : Type} (bo Cols row : Nat) (init : Nat → Nat → T) :
    ∀ (cnt col : Nat) (h : Heap T) (pre rest : List T),
      col + cnt ≤ Cols → pre.length = row * Cols + col → cnt ≤ rest.length →
      h.blocks[bo]? = some (pre ++ rest) →
      forLoop (fun col h2 =>
          h2.write ((Ptr.mk (some bo) 0).add ((Cols * row + col : Nat) : Int)) (init row col))
          cnt col h
        = some ⟨h.blocks.set bo (pre ++ (List.range' pre.length cnt).map
            (fun p => init (p / Cols) (p % Cols)) ++ rest.drop cnt)⟩ := by
  intro cnt
  induction cnt with
  | zero =>
    intro col h pre rest _ _ _ ho
    simp [forLoop, blocks_set_id _ _ _ ho]
  | succ cnt ih =>
    intro col h pre rest hc hpre hrest ho
    cases rest with
    | nil => simp at hrest
    | cons x rest =>
      have hcn : col < Cols := by omega
      have hdm := div_mod_idx (r := row) hcn
      rw [← hpre] at hdm
      have hp : (Ptr.mk (some bo) 0).add ((Cols * row + col : Nat) : Int)
          = ⟨some bo, (pre.length : Int)⟩ := by
        rw [hpre, Nat.mul_comm]; simp [Ptr.add]
      have ho' : (h.blocks.set bo (pre ++ init row col :: rest))[bo]?
          = some ((pre ++ [init row col]) ++ rest) := by
        rw [blocks_set_same _ _ _ _ ho]; simp
      have := ih (col + 1) ⟨h.blocks.set bo (pre ++ init row col :: rest)⟩
        (pre ++ [init row col]) rest (by omega)
        (by simp only [List.length_append, List.length_singleton]; omega)
        (by simpa using hrest) ho'
      simp only [List.length_append, List.length_singleton, List.set_set] at this
      simp only [forLoop, hp, write_nat h bo pre.length _ _ ho (by simp), list_set_mid,
        Option.some_bind]
      rw [this]
      simp [List.range'_succ, hdm.1, hdm.2]

/-- the outer loop of the literal constructor fills the rows one after the other -/
theorem ctor_init_outer_blocks {T : Type} (bo Cols : Nat) (init : Nat → Nat → T) :
    ∀ (cnt row : Nat) (h : Heap T) (pre rest : List T),
      pre.length = row * Cols → cnt * Cols ≤ rest.length →
      h.blocks[bo]? = some (pre ++ rest) →
      forLoop (fun row h1 =>
          forLoop (fun col h2 =>
            h2.write ((Ptr.mk (some bo) 0).add ((Cols * row + col : Nat) : Int))
              (init row col)) Cols 0 h1)
          cnt row h
        = some ⟨h.blocks.set bo (pre ++ (List.range' pre.length (cnt * Cols)).map
            (fun p => init (p / Cols) (p % Cols)) ++ rest.drop (cnt * Cols))⟩ := by
  intro cnt
  induction cnt with
  | zero =>
    intro row h pre rest _ _ ho
    simp [forLoop, blocks_set_id _ _ _ ho]
  | succ cnt ih =>
    intro row h pre rest hpre hrest ho
    have e1 : (cnt + 1) * Cols = cnt * Cols + Cols := by ring
    have hlen : Cols ≤ rest.length := by omega
    have hin := ctor_init_inner_blocks bo Cols row init Cols 0 h pre rest (by omega)
      (by omega) hlen ho
    simp only [forLoop, hin, Option.some_bind]
    set line := (List.range' pre.length Cols).map (fun p => init (p / Cols) (p % Cols))
      with hline
    have hlinelen : line.length = Cols := by simp [hline]
    have ho' : (h.blocks.set bo (pre ++ line ++ rest.drop Cols))[bo]?
        = some ((pre ++ line) ++ rest.drop Cols) := blocks_set_same _ _ _ _ ho
    have hlen' : (pre ++ line).length = pre.length + Cols := by simp [hlinelen]
    have := ih (row + 1) ⟨h.blocks.set bo (pre ++ line ++ rest.drop Cols)⟩ (pre ++ line)
      (rest.drop Cols)
      (by rw [hlen', hpre]; ring)
      (by simp only [List.length_drop]; omega) ho'
    rw [hlen'] at this
    simp only [List.set_set] at this
    rw [this]
    have e2 : List.range' pre.length (cnt * Cols + Cols)
        = List.range' pre.length Cols ++ List.range' (pre.length + Cols) (cnt * Cols) := by
      rw [List.range'_append_1]
    simp only [e1, e2, List.map_append, List.drop_drop, hline, List.append_assoc]
    simp [Nat.add_comm]

/-- closed form of the constructor from a literal -/
theorem ctor_init_eq {T : Type} [Inhabited T] (h : Heap T) (Rows Cols : Nat)
    (init : Nat → Nat → T) :
    matrix.ctor_init h Rows Cols init
      = some (⟨Rows, Cols, ⟨some h.blocks.length, 0⟩⟩,
          ⟨h.blocks ++ [(List.range (Rows * Cols)).map
            fun p => init (p / Cols) (p % Cols)]⟩) := by
  have := ctor_init_outer_blocks h.blocks.length Cols init Rows 0
    ⟨h.blocks ++ [List.replicate (Rows * Cols) default]⟩ []
    (List.replicate (Rows * Cols) default) (by simp) (by simp) (by simp)
  simp only [List.length_nil, List.nil_append] at this
  simp only [matrix.ctor_init, Heap.alloc, this, Option.map_some']
  simp [blocks_set_new, List.range_eq_range']

/-- a write keeps the length of every array -/
theorem write_lengths {T : Type} {h h1 : Heap T} {p : Ptr} {v : T}
    (hw : h.write p v = some h1) :
    h1.blocks.map List.length = h.blocks.map List.length := by
  unfold Heap.write at hw
  cases hb : p.blk with
  | none => simp [hb] at hw
  | some b =>
    simp only [hb] at hw
    by_cases hoff : 0 ≤ p.off
    · simp only [hoff, if_true] at hw
      cases hblk : h.blocks[b]? with
      | none => simp [hblk] at hw
      | some buf =>
        simp only [hblk] at hw
        by_cases hlt : p.off.toNat < buf.length
        · simp only [hlt, if_true, Option.some.injEq] at hw
          subst hw
          apply List.ext_getElem?
          intro c
          rw [List.getElem?_map, List.getElem?_map]
          by_cases hc : b = c
          · subst hc
            rw [blocks_set_same _ _ _ _ hblk, hblk]
            simp
          · rw [blocks_set_other _ _ _ _ hc]
        · simp [hlt] at hw
    · simp [hoff] at hw

/-- the binary transform keeps the length of every array -/
theorem transform2_loop_lengths {T : Type} (op : T → T → T) :
    ∀ (n : Nat) (p q d : Ptr) (h h1 : Heap T),
      transform2_loop op n p q d h = some h1 →
      h1.blocks.map List.length = h.blocks.map List.length := by
  intro n
  induction n with
  | zero =>
    intro p q d h h1 hl
    simp only [transform2_loop, Option.some.injEq] at hl
    rw [hl]
  | succ n ih =>
    intro p q d h h1 hl
    simp only [transform2_loop] at hl
    cases hx : h.read p with
    | none => simp [hx] at hl
    | some x =>
      cases hy : h.read q with
      | none => simp [hx, hy] at hl
      | some y =>
        cases hw : h.write d (op x y) with
        | none => simp [hx, hy, hw] at hl
        | some h2 =>
          simp only [hx, hy, hw, Option.some_bind] at hl
          rw [ih _ _ _ h2 h1 hl, write_lengths hw]

/-- the unary transform keeps the length of every array -/
theorem transform1_loop_lengths {T : Type} (uop : Heap T → T → Option T) :
    ∀ (n : Nat) (p d : Ptr) (h h1 : Heap T),
      transform1_loop uop n p d h = some h1 →
      h1.blocks.map List.length = h.blocks.map List.length := by
  intro n
  induction n with
  | zero =>
    intro p d h h1 hl
    simp only [transform1_loop, Option.some.injEq] at hl
    rw [hl]
  | succ n ih =>
    intro p d h h1 hl
    simp only [transform1_loop] at hl
    cases hx : h.read p with
    | none => simp [hx] at hl
    | some x =>
      cases hy : uop h x with
      | none => simp [hx, hy] at hl
      | some y =>
        cases hw : h.write d y with
        | none => simp [hx, hy, hw] at hl
        | some h2 =>
          simp only [hx, hy, hw, Option.some_bind] at hl
          rw [ih _ _ h2 h1 hl, write_lengths hw]

/-- a matrix stays normalized when the arrays of the free store keep their lengths -/
theorem normalized_of_lengths {T : Type} {h h1 : Heap T} {m : matrix} {a : List T}
    (hl : h1.blocks.map List.length = h.blocks.map List.length) (hm : m.normalized h a) :
    ∃ c, m.normalized h1 c := by
  obtain ⟨hv, hnull⟩ := hm
  rcases valid_cases hv with ⟨hd, ha⟩ | ⟨b, hd, hb⟩
  · subst ha
    exact ⟨[], ⟨hv.1, by simp [matrix.buffer, hd, nullptr], hv.2.2⟩, hnull⟩
  · have h1b : (h1.blocks.map List.length)[b]? = some a.length := by
      rw [hl]; simp [hb]
    rw [List.getElem?_map] at h1b
    cases hc : h1.blocks[b]? with
    | none => simp [hc] at h1b
    | some c =>
      simp only [hc, Option.map_some', Option.some.injEq] at h1b
      exact ⟨c, ⟨hv.1, by simp [matrix.buffer, hd, hc], h1b.trans hv.2.2.1, hv.2.2.2⟩, hnull⟩

/-- a result built like the copy constructor builds it is normalized -/
theorem fresh_normalized {T : Type} (h : Heap T) (r c : Nat) (buf : List T)
    (hrc : r = 0 ↔ c = 0) (hlen : buf.length = r * c) (hfit : r * c < 2 ^ 63) :
    (if r * c = 0 then ((⟨r, c, nullptr⟩ : matrix), h)
      else (⟨r, c, ⟨some h.blocks.length, 0⟩⟩, ⟨h.blocks ++ [buf]⟩)).1.normalized
      (if r * c = 0 then ((⟨r, c, nullptr⟩ : matrix), h)
        else (⟨r, c, ⟨some h.blocks.length, 0⟩⟩, ⟨h.blocks ++ [buf]⟩)).2 buf := by
  by_cases hz : r * c = 0
  · have hb : buf = [] := List.length_eq_zero.1 (hlen.trans hz)
    subst hb
    have hr : r = 0 := by
      rcases Nat.mul_eq_zero.1 hz with h0 | h0
      · exact h0
      · exact hrc.2 h0
    simp only [hz, if_true]
    exact ⟨valid_null h r c hr (hrc.1 hr), by simp [matrix.size, hz]⟩
  · simp only [hz, if_false]
    exact ⟨valid_new h r c buf hrc ⟨hlen, hfit⟩, by simp [matrix.size, hz, nullptr]⟩

/-- the shape and the data pointer of a product are normalized, whatever the operands -/
theorem operator_times_shape {T : Type} [Inhabited T] [Zero T] [Add T] [Mul T] (h : Heap T)
    (left right P : matrix) (h1 : Heap T) (hP : operator_times h left right = some (P, h1)) :
    (P._rows = 0 ↔ P._cols = 0) ∧ (P._data = nullptr ↔ P.size = 0) := by
  simp only [operator_times, Option.map_eq_some', Prod.mk.injEq] at hP
  obtain ⟨_, _, hres, _⟩ := hP
  rw [← hres]
  by_cases hz : size_t_mul left.rows right.cols = 0
  · simp [matrix.ctor, hz, matrix.size]
  · have hr : left.rows ≠ 0 := fun h0 => hz (by simp [size_t_mul, h0])
    have hc : right.cols ≠ 0 := fun h0 => hz (by simp [size_t_mul, h0])
    simp [matrix.ctor, hz, matrix.size, Heap.alloc, nullptr, hr, hc]

/-- the product of well-formed compatible operands is normalized -/
theorem operator_times_normalized {T : Type} [Inhabited T] [Zero T] [Add T] [Mul T]
    (h : Heap T) (left right : matrix) (a b : List T) (hl : left.valid h a)
    (hr : right.valid h b) (hk : left._cols = right._rows)
    (hfit : left._rows * right._cols < 2 ^ 63) :
    ∃ P h1, operator_times h left right = some (P, h1) ∧
      P.normalized h1 (product_buffer a b left._rows left._cols right._cols) ∧
      ∀ (x : matrix) (c : List T), x.normalized h c → x.normalized h1 c := by
  obtain ⟨P, h1, e1, _, _, v1, f1⟩ := operator_times_valid h left right a b hl hr hk hfit
  exact ⟨P, h1, e1, ⟨v1, (operator_times_shape h left right P h1 e1).2⟩,
    fun x c hx => ⟨f1 x c hx.1, hx.2⟩⟩

/-- `std::transform` with two inputs keeps the length of every array -/
theorem std_transform2_lengths {T : Type} {op : T → T → T} {h h1 : Heap T} {p l q d : Ptr}
    (ht : std_transform2 h p l q d op = some h1) :
    h1.blocks.map List.length = h.blocks.map List.length := by
  unfold std_transform2 at ht
  cases hn : Ptr.dist p l with
  | none => simp [hn] at ht
  | some n =>
    simp only [hn, Option.some_bind] at ht
    exact transform2_loop_lengths op n p q d h h1 ht

/-- `std::transform` with one input keeps the length of every array -/
theorem std_transform1_lengths {T : Type} {uop : Heap T → T → Option T} {h h1 : Heap T}
    {p l d : Ptr} (ht : std_transform1 h p l d uop = some h1) :
    h1.blocks.map List.length = h.blocks.map List.length := by
  unfold std_transform1 at ht
  cases hn : Ptr.dist p l with
  | none => simp [hn] at ht
  | some n =>
    simp only [hn, Option.some_bind] at ht
    exact transform1_loop_lengths uop n p d h h1 ht

/-- the dimensioned constructor returns a normalized matrix -/
theorem ctor_normalized {T : Type} [Inhabited T] (h : Heap T) (r c : Nat)
    (hfit : r * c < 2 ^ 63) :
    (matrix.ctor h r c).1.normalized (matrix.ctor h r c).2
      (List.replicate (r * c) (default : T)) := by
  refine ⟨ctor_valid h r c hfit, ?_⟩
  have hsz : size_t_mul r c = r * c := size_t_mul_eq (by omega)
  by_cases hz : r * c = 0
  · simp [matrix.ctor, hsz, hz, matrix.size]
  · have hr : r ≠ 0 := fun h0 => hz (by simp [h0])
    have hc : c ≠ 0 := fun h0 => hz (by simp [h0])
    simp [matrix.ctor, hsz, hz, matrix.size, Heap.alloc, nullptr, hr, hc]

theorem ptr_add_add (p : Ptr) (x y : Int) : (p.add x).add y = p.add (x + y) := by
  simp [Ptr.add, Int.add_assoc]

theorem ptr_add_zero (p : Ptr) : p.add 0 = p := by
  cases p; simp [Ptr.add]

/-- the traced inner product loop returns the value of the loop and the reference reads -/
theorem inner_product_loop_traced_eq {T : Type} [Add T] [Mul T] (h : Heap T) (f1 cur : Ptr)
    (col cols : Nat) :
    ∀ (cnt t0 : Nat) (init : T),
      inner_product_loop_traced h cnt (f1.add (t0 : Int))
          ⟨cur.add ((t0 * cols : Nat) : Int), col, cols⟩ init
        = (inner_product_loop h cnt (f1.add (t0 : Int))
            ⟨cur.add ((t0 * cols : Nat) : Int), col, cols⟩ init).map
            fun v => (v, (List.range' t0 cnt).flatMap fun t =>
              [Access.read_first1 (f1.add (t : Int)),
                Access.read_first2 (cur.add ((t * cols + col : Nat) : Int))]) := by
  intro cnt
  induction cnt with
  | zero => intro t0 init; simp [inner_product_loop_traced, inner_product_loop]
  | succ cnt ih =>
    intro t0 init
    have e1 : (f1.add (t0 : Int)).add 1 = f1.add ((t0 + 1 : Nat) : Int) := by
      rw [ptr_add_add]; push_cast; rfl
    have e2 : (basic_col_iterator.mk (cur.add ((t0 * cols : Nat) : Int)) col cols).incr
        = ⟨cur.add (((t0 + 1) * cols : Nat) : Int), col, cols⟩ := by
      simp only [basic_col_iterator.incr, ptr_add_add, basic_col_iterator.mk.injEq, and_true]
      congr 1; push_cast; ring
    have e3 : (basic_col_iterator.mk (cur.add ((t0 * cols : Nat) : Int)) col cols).deref
        = cur.add ((t0 * cols + col : Nat) : Int) := by
      simp only [basic_col_iterator.deref, ptr_add_add]
      congr 1
    simp only [inner_product_loop_traced, inner_product_loop, e1, e2, e3]
    cases h.read (f1.add (t0 : Int)) with
    | none => rfl
    | some x =>
      cases h.read (cur.add ((t0 * cols + col : Nat) : Int)) with
      | none => rfl
      | some y =>
        simp only [Option.some_bind, ih (t0 + 1)]
        cases inner_product_loop h cnt (f1.add ((t0 + 1 : Nat) : Int))
            ⟨cur.add (((t0 + 1) * cols : Nat) : Int), col, cols⟩ (init + x * y) with
        | none => rfl
        | some v => simp [List.range'_succ]

/-- the traced inner product over a row of `n` elements -/
theorem std_inner_product_traced_eq {T : Type} [Add T] [Mul T] (h : Heap T) (f1 : Ptr)
    (f2 : basic_col_iterator) (n : Nat) (init : T) :
    std_inner_product_traced h f1 (f1.add (n : Int)) f2 init
      = (std_inner_product h f1 (f1.add (n : Int)) f2 init).map
          fun v => (v, inner_product_log n f1 f2) := by
  have := inner_product_loop_traced_eq h f1 f2._current f2._col f2._cols n 0 init
  simp only [Nat.zero_mul, Nat.cast_zero, ptr_add_zero] at this
  simp only [std_inner_product_traced, std_inner_product, dist_add, Option.some_bind, this,
    inner_product_log, List.range_eq_range']

/-- one traced cell of the product -/
theorem operator_times_body_traced_eq {T : Type} [Zero T] [Add T] [Mul T]
    (left right : matrix) (r c : Nat) (s : Heap T × Ptr) (log : List Access) :
    operator_times_body_traced left right r c (s, log)
      = (operator_times_body left right r c s).map
          fun s1 => (s1, log ++ cell_log left right r c s.2) := by
  unfold operator_times_body_traced operator_times_body
  by_cases hr : r < left._rows
  · by_cases hc : c < right._cols
    · simp only [matrix.row_begin, matrix.row_end, matrix.col_begin, hr, hc, if_true,
        Option.some_bind, Option.map_some', std_inner_product_traced_eq]
      cases std_inner_product s.1 (left.begin.add (r * left._cols))
          ((left.begin.add (r * left._cols)).add left._cols) ⟨right.begin, c, right._cols⟩
          (0 : T) with
      | none => rfl
      | some v =>
        simp only [Option.map_some', Option.some_bind]
        cases s.1.write s.2 v with
        | none => rfl
        | some h1 => simp [cell_log]
    · simp [matrix.row_begin, matrix.row_end, matrix.col_begin, hr, hc]
  · simp [matrix.row_begin, matrix.row_end, hr]

/-- a cell of the product advances the output cursor by one -/
theorem operator_times_body_cursor {T : Type} [Zero T] [Add T] [Mul T]
    (left right : matrix) (r c : Nat) (s s1 : Heap T × Ptr)
    (hb : operator_times_body left right r c s = some s1) : s1.2 = s.2.add 1 := by
  unfold operator_times_body at hb
  simp only [Option.bind_eq_some] at hb
  obtain ⟨_, _, _, _, _, _, _, _, _, _, he⟩ := hb
  simp only [Option.some.injEq] at he
  rw [← he]

/-- the traced inner loop of the product -/
theorem operator_times_inner_traced {T : Type} [Zero T] [Add T] [Mul T]
    (left right : matrix) (base : Ptr) (n r : Nat) :
    ∀ (cnt c : Nat) (s : Heap T × Ptr) (log : List Access),
      s.2 = base.add ((r * n + c : Nat) : Int) →
      forLoop (operator_times_body_traced left right r) cnt c (s, log)
        = (forLoop (operator_times_body left right r) cnt c s).map fun s1 =>
            (s1, log ++ (List.range' c cnt).flatMap fun c1 =>
              cell_log left right r c1 (base.add ((r * n + c1 : Nat) : Int))) := by
  intro cnt
  induction cnt with
  | zero => intro c s log _; simp [forLoop]
  | succ cnt ih =>
    intro c s log hs
    simp only [forLoop, operator_times_body_traced_eq]
    cases hb : operator_times_body left right r c s with
    | none => rfl
    | some s1 =>
      have hcur : s1.2 = base.add ((r * n + (c + 1) : Nat) : Int) := by
        rw [operator_times_body_cursor left right r c s s1 hb, hs, ptr_add_add]
        push_cast; ring_nf
      simp only [Option.map_some', Option.some_bind, ih (c + 1) s1 _ hcur]
      cases forLoop (operator_times_body left right r) cnt (c + 1) s1 with
      | none => rfl
      | some s2 => simp [List.range'_succ, hs]

/-- the inner loop of the product advances the output cursor by its number of cells -/
theorem operator_times_inner_cursor {T : Type} [Zero T] [Add T] [Mul T]
    (left right : matrix) (r : Nat) :
    ∀ (cnt c : Nat) (s s1 : Heap T × Ptr),
      forLoop (operator_times_body left right r) cnt c s = some s1 →
      s1.2 = s.2.add (cnt : Int) := by
  intro cnt
  induction cnt with
  | zero =>
    intro c s s1 hl
    simp only [forLoop, Option.some.injEq] at hl
    rw [← hl]; simp [ptr_add_zero]
  | succ cnt ih =>
    intro c s s1 hl
    simp only [forLoop] at hl
    cases hb : operator_times_body left right r c s with
    | none => simp [hb] at hl
    | some s2 =>
      simp only [hb, Option.some_bind] at hl
      rw [ih (c + 1) s2 s1 hl, operator_times_body_cursor left right r c s s2 hb, ptr_add_add]
      push_cast; ring_nf

/-- the traced outer loop of the product -/
theorem operator_times_outer_traced {T : Type} [Zero T] [Add T] [Mul T]
    (left right : matrix) (base : Ptr) (n : Nat) :
    ∀ (cnt r : Nat) (s : Heap T × Ptr) (log : List Access),
      s.2 = base.add ((r * n : Nat) : Int) →
      forLoop (fun r s0 => forLoop (operator_times_body_traced left right r) n 0 s0) cnt r
          (s, log)
        = (forLoop (fun r s0 => forLoop (operator_times_body left right r) n 0 s0) cnt r
            s).map fun s1 =>
            (s1, log ++ (List.range' r cnt).flatMap fun r1 =>
              (List.range' 0 n).flatMap fun c1 =>
                cell_log left right r1 c1 (base.add ((r1 * n + c1 : Nat) : Int))) := by
  intro cnt
  induction cnt with
  | zero => intro r s log _; simp [forLoop]
  | succ cnt ih =>
    intro r s log hs
    simp only [forLoop]
    rw [operator_times_inner_traced left right base n r n 0 s log (by simpa using hs)]
    cases hb : forLoop (operator_times_body left right r) n 0 s with
    | none => rfl
    | some s1 =>
      have hcur : s1.2 = base.add (((r + 1) * n : Nat) : Int) := by
        rw [operator_times_inner_cursor left right r n 0 s s1 hb, hs, ptr_add_add]
        push_cast; ring_nf
      simp only [Option.map_some', Option.some_bind, ih (r + 1) s1 _ hcur]
      cases forLoop (fun r s0 => forLoop (operator_times_body left right r) n 0 s0) cnt
          (r + 1) s1 with
      | none => rfl
      | some s2 => simp [List.range'_succ]

/-- the traced product returns the product and the reference accesses -/
theorem operator_times_traced_eq {T : Type} [Inhabited T] [Zero T] [Add T] [Mul T]
    (h : Heap T) (left right : matrix) :
    operator_times_traced h left right
      = (operator_times h left right).map fun x =>
          (x, operator_times_log left right (matrix.ctor h left.rows right.cols).1.begin) := by
  have := operator_times_outer_traced left right
    (matrix.ctor h left.rows right.cols).1.begin right.cols left.rows 0
    ((matrix.ctor h left.rows right.cols).2, (matrix.ctor h left.rows right.cols).1.begin) []
    (by simp [ptr_add_zero])
  simp only [operator_times_traced, operator_times, this, Option.map_map]
  congr 1
  funext s1
  simp [operator_times_log, List.range_eq_range', matrix.rows, matrix.cols]

/-- the result of a product is the matrix built by the dimensioned constructor -/
theorem operator_times_result {T : Type} [Inhabited T] [Zero T] [Add T] [Mul T] (h : Heap T)
    (left right P : matrix) (h1 : Heap T) (hP : operator_times h left right = some (P, h1)) :
    P = (matrix.ctor h left.rows right.cols).1 := by
  simp only [operator_times, Option.map_eq_some', Prod.mk.injEq] at hP
  obtain ⟨_, _, hres, _⟩ := hP
  exact hres.symm

/-- every access of the product belongs to a cell `(r, c)` of the result -/
theorem mem_operator_times_log (left right : matrix) (it0 : Ptr) (e : Access) :
    e ∈ operator_times_log left right it0 ↔
      ∃ r, r < left._rows ∧ ∃ c, c < right._cols ∧
        e ∈ cell_log left right r c (it0.add ((r * right._cols + c : Nat) : Int)) := by
  simp only [operator_times_log, List.mem_flatMap, List.mem_range]

/-- the reads of an inner product, one pair for each `t` -/
theorem mem_inner_product_log (n : Nat) (f1 : Ptr) (f2 : basic_col_iterator) (e : Access) :
    e ∈ inner_product_log n f1 f2 ↔
      ∃ t, t < n ∧ (e = Access.read_first1 (f1.add (t : Int)) ∨
        e = Access.read_first2 (f2._current.add ((t * f2._cols + f2._col : Nat) : Int))) := by
  simp only [inner_product_log, List.mem_flatMap, List.mem_range, List.mem_cons,
    List.mem_singleton, List.not_mem_nil, or_false]

theorem written_append (l1 l2 : List Access) : written (l1 ++ l2) = written l1 ++ written l2 := by
  simp [written, List.filterMap_append]

theorem written_inner_product_log (n : Nat) (f1 : Ptr) (f2 : basic_col_iterator) :
    written (inner_product_log n f1 f2) = [] := by
  unfold inner_product_log
  induction n with
  | zero => simp [written]
  | succ n ih =>
    rw [List.range_succ, List.flatMap_append, written_append, ih]
    simp [written]

theorem written_cell_log (left right : matrix) (r c : Nat) (it : Ptr) :
    written (cell_log left right r c it) = [it] := by
  simp only [cell_log, written_append, written_inner_product_log]
  simp [written]

/-- the cells of one row write the consecutive positions of that row -/
theorem written_row (left right : matrix) (it0 : Ptr) (n r : Nat) :
    ∀ cnt : Nat,
      written ((List.range cnt).flatMap fun c =>
          cell_log left right r c (it0.add ((r * n + c : Nat) : Int)))
        = (List.range' (r * n) cnt).map fun (i : Nat) => it0.add (i : Int) := by
  intro cnt
  induction cnt with
  | zero => simp [written]
  | succ cnt ih =>
    rw [List.range_succ, List.flatMap_append, written_append, ih, List.range'_concat]
    simp [written_cell_log]

/-- the product writes the positions `0, …, m*n - 1` after the cursor, once each, in order -/
theorem written_operator_times_log (left right : matrix) (it0 : Ptr) :
    written (operator_times_log left right it0)
      = (List.range (left._rows * right._cols)).map fun (i : Nat) => it0.add (i : Int) := by
  unfold operator_times_log
  generalize left._rows = m
  induction m with
  | zero => simp [written]
  | succ m ih =>
    rw [List.range_succ, List.flatMap_append, written_append, ih]
    simp only [List.flatMap_cons, List.flatMap_nil, List.append_nil]
    rw [written_row left right it0 right._cols m right._cols]
    have e : (m + 1) * right._cols = right._cols + m * right._cols := by ring
    rw [e, List.range_eq_range', List.range_eq_range', ← List.range'_append_1]
    simp

/-- in-place binary transform whose second input is the array written -/
theorem transform2_loop_alias {T : Type} (op : T → T → T) (b1 : Nat) (a : List T) :
    ∀ (pre : List T) (h : Heap T),
      h.blocks[b1]? = some (pre ++ a) →
      transform2_loop op a.length ⟨some b1, (pre.length : Int)⟩ ⟨some b1, (pre.length : Int)⟩
          ⟨some b1, (pre.length : Int)⟩ h
        = some ⟨h.blocks.set b1 (pre ++ a.map fun x => op x x)⟩ := by
  induction a with
  | nil =>
    intro pre h h1
    rw [List.append_nil] at h1
    simp only [List.length_nil, transform2_loop, List.map_nil, List.append_nil]
    rw [blocks_set_id _ _ _ h1]
  | cons x a ih =>
    intro pre h h1
    have hw : h.write ⟨some b1, (pre.length : Int)⟩ (op x x)
        = some ⟨h.blocks.set b1 ((pre ++ [op x x]) ++ a)⟩ := by
      rw [write_nat h b1 pre.length (pre ++ x :: a) (op x x) h1 (by simp), list_set_mid]
      simp
    have h1' : (h.blocks.set b1 ((pre ++ [op x x]) ++ a))[b1]? = some ((pre ++ [op x x]) ++ a) :=
      blocks_set_same _ _ _ _ h1
    have := ih (pre ++ [op x x]) ⟨h.blocks.set b1 ((pre ++ [op x x]) ++ a)⟩ h1'
    simp only [List.length_append, List.length_singleton, List.set_set] at this
    simp only [List.length_cons, transform2_loop, read_nat h b1 pre.length _ h1,
      list_getElem?_mid, Option.some_bind, hw, add_one]
    rw [this]
    simp

theorem zipWith_same {T : Type} (op : T → T → T) (a : List T) :
    List.zipWith op a a = a.map fun x => op x x := by
  induction a with
  | nil => rfl
  | cons x a ih => simp [ih]

/-- closed form of `A += A` and `A -= A`: each element is combined with itself -/
theorem transform2_self_valid {T : Type} (op : T → T → T) (h : Heap T) (A : matrix)
    (a : List T) (hA : A.valid h a) :
    ∃ h1, std_transform2 h A.begin A.end_ A.begin A.begin op = some h1 ∧
      A.valid h1 (List.zipWith op a a) ∧
      ∀ (x : matrix) (c : List T), x.valid h c → x.separate A → x.valid h1 c := by
  have hsz : A.size = a.length := hA.2.2.1.symm
  have hst : std_transform2 h A.begin A.end_ A.begin A.begin op
      = some (h.store A (List.zipWith op a a)) := by
    simp only [std_transform2, matrix.end_, hsz, dist_add, Option.some_bind]
    rcases valid_cases hA with ⟨hd, ha⟩ | ⟨b1, hd, hb1⟩
    · subst ha
      simp [transform2_loop, Heap.store, hd, nullptr]
    · have := transform2_loop_alias op b1 a [] h (by simpa using hb1)
      simp only [List.length_nil, Nat.cast_zero, List.nil_append] at this
      simp only [matrix.begin, hd, this, Heap.store, zipWith_same]
  exact ⟨_, hst, valid_store_self hA _ (by simp),
    fun x c hx hs => valid_store_other hx hs _⟩

/-- nothing can be written through the null pointer -/
theorem write_nullptr {T : Type} (h : Heap T) (v : T) : h.write nullptr v = none := rfl

/-- a cell of the product whose output cursor is null has no result -/
theorem operator_times_body_null {T : Type} [Zero T] [Add T] [Mul T] (left right : matrix)
    (r c : Nat) (h : Heap T) : operator_times_body left right r c (h, nullptr) = none := by
  unfold operator_times_body
  cases left.row_begin r with
  | none => rfl
  | some first1 =>
    cases left.row_end r with
    | none => rfl
    | some last1 =>
      cases right.col_begin c with
      | none => rfl
      | some first2 =>
        simp only [Option.some_bind]
        cases std_inner_product h first1 last1 first2 (0 : T) with
        | none => rfl
        | some v => simp only [Option.some_bind, write_nullptr, Option.none_bind]

/-- when the size of the result is a non-zero multiple of `2^64`, the dimensioned constructor
makes the result the empty matrix and the product writes its first cell through the null
pointer -/
theorem operator_times_wrap_none {T : Type} [Inhabited T] [Zero T] [Add T] [Mul T]
    (h : Heap T) (left right : matrix) (hm : 0 < left._rows) (hn : 0 < right._cols)
    (hz : size_t_mul left._rows right._cols = 0) :
    (matrix.ctor h left.rows right.cols) = (⟨0, 0, nullptr⟩, h) ∧
    operator_times h left right = none := by
  have hc : (matrix.ctor h left.rows right.cols) = (⟨0, 0, nullptr⟩, h) := by
    simp [matrix.ctor, matrix.rows, matrix.cols, hz]
  refine ⟨hc, ?_⟩
  have hin : forLoop (operator_times_body left right 0) right.cols 0 (h, nullptr) = none :=
    forLoop_none _ _ _ _ hn (operator_times_body_null left right 0 0 h)
  have hout : forLoop (fun r s0 => forLoop (operator_times_body left right r) right.cols 0 s0)
      left.rows 0 (h, nullptr) = none := forLoop_none _ _ _ _ hm hin
  simp only [operator_times, hc, matrix.begin, hout, Option.map_none']

/-- a list compares equal to itself exactly when each of its elements does -/
theorem list_beq_self_iff {T : Type} [BEq T] (a : List T) :
    (a == a) = true ↔ ∀ x, x ∈ a → (x == x) = true := by
  induction a with
  | nil => simp
  | cons x a ih =>
    have hcons : ((x :: a) == (x :: a)) = ((x == x) && (a == a)) := rfl
    rw [hcons, Bool.and_eq_true, ih]
    simp

/-- two well-formed matrices of one shape that hold the same elements compare equal exactly
when each element compares equal to itself -/
theorem operator_eq_same {T : Type} [BEq T] (h : Heap T) (X Y : matrix) (l : List T)
    (hX : X.valid h l) (hY : Y.valid h l) (hr : X._rows = Y._rows) (hc : X._cols = Y._cols) :
    ∃ res, operator_eq h X Y = some res ∧
      (res = true ↔ ∀ x, x ∈ l → (x == x) = true) :=
  ⟨_, by rw [operator_eq_eq h X Y l l hX hY, if_pos ⟨hr, hc⟩], list_beq_self_iff l⟩

/-- the two wide operands are well formed -/
theorem wide_valid :
    wideColumn.valid wideHeap (List.replicate (2 ^ 32) 1) ∧
    wideRow.valid wideHeap (List.replicate (2 ^ 32) 1) := by
  refine ⟨⟨by decide, rfl, ?_, by decide⟩, ⟨by decide, rfl, ?_, by decide⟩⟩
  · rw [List.length_replicate]; decide
  · rw [List.length_replicate]; decide

/-- the product of the two wide operands has no result -/
theorem wide_times_none :
    matrix.ctor wideHeap wideColumn.rows wideRow.cols = (⟨0, 0, nullptr⟩, wideHeap) ∧
    operator_times wideHeap wideColumn wideRow = none :=
  operator_times_wrap_none wideHeap wideColumn wideRow (by decide) (by decide) (by decide)

/-- an inner product of one term -/
theorem std_inner_product_one {T : Type} [Add T] [Mul T] (h : Heap T) (p : Ptr)
    (it : basic_col_iterator) (x y init : T) (hx : h.read p = some x)
    (hy : h.read it.deref = some y) :
    std_inner_product h p (p.add 1) it init = some (init + x * y) := by
  have hd : Ptr.dist p (p.add 1) = some 1 := dist_add p 1
  simp only [std_inner_product, hd, Option.some_bind, inner_product_loop, hx, hy]

/-- the first elements of the two wide operands -/
theorem wide_read :
    wideHeap.read ⟨some 0, 0⟩ = some 1 ∧ wideHeap.read ⟨some 1, 0⟩ = some 1 := by
  have h0 : wideHeap.blocks[0]? = some (List.replicate (2 ^ 32) 1) := rfl
  have h1 : wideHeap.blocks[1]? = some (List.replicate (2 ^ 32) 1) := rfl
  have e0 := read_nat wideHeap 0 0 _ h0
  have e1 := read_nat wideHeap 1 0 _ h1
  rw [List.getElem?_replicate_of_lt (by decide)] at e0 e1
  exact ⟨e0, e1⟩

/-- addition of `floating` values is commutative -/
theorem floating_add_comm (x y : floating) : x + y = y + x := by
  cases x with
  | nan => cases y <;> rfl
  | num u =>
    cases y with
    | nan => rfl
    | num v =>
      show floating.num (u + v) = floating.num (v + u)
      rw [Int.add_comm]

/-- The entries of a product whose size fits. For well-formed `left` of shape `(m, k)` and
`right` of shape `(k, n)` with `m * n < 2^63`, `operator*` returns a matrix with `rows() == m` and `cols() == n` whose element `(i, j)` is
`T(0)` plus the terms `left(i,t) * right(t,j)` added for `t = 0, …, k-1` in this order. -/
theorem operator_times_entries_of_fit {T : Type} [Inhabited T] [Zero T] [Add T] [Mul T]
    (h : Heap T) (left right : matrix) (a b : List T) (A B : Nat → Nat → T)
    (hl : left.valid h a) (hr : right.valid h b) (hk : left.cols = right.rows)
    (hfit : left.rows * right.cols < 2 ^ 63)
    (hA : ∀ i, i < left.rows → ∀ t, t < left.cols →
      h.read (left.operator_call i t) = some (A i t))
    (hB : ∀ t, t < right.rows → ∀ j, j < right.cols →
      h.read (right.operator_call t j) = some (B t j)) :
    ∃ res h1, operator_times h left right = some (res, h1) ∧
      res.rows = left.rows ∧ res.cols = right.cols ∧
      ∀ i, i < left.rows → ∀ j, j < right.cols →
        h1.read (res.operator_call i j)
          = some ((List.range left.cols).foldl (fun acc t => acc + A i t * B t j) 0) := by
  simp only [matrix.rows, matrix.cols] at hk hA hB hfit ⊢
  rw [operator_times_eq h left right a b hl hr hk (by omega)]
  by_cases hz : left._rows * right._cols = 0
  · have hm : left._rows = 0 := by
      rcases Nat.mul_eq_zero.1 hz with h0 | h0
      · exact h0
      · have := (valid_zero hr (Or.inr h0)).1
        exact (valid_zero hl (Or.inr (hk.trans this))).1
    have hn : right._cols = 0 :=
      (valid_zero hr (Or.inl (hk.symm.trans (valid_zero hl (Or.inl hm)).2.1))).2.1
    refine ⟨⟨0, 0, nullptr⟩, h, by rw [if_pos hz], hm.symm, hn.symm, ?_⟩
    intro i hi; omega
  · refine ⟨⟨left._rows, right._cols, ⟨some h.blocks.length, 0⟩⟩,
      ⟨h.blocks ++ [product_buffer a b left._rows left._cols right._cols]⟩,
      by rw [if_neg hz], rfl, rfl, ?_⟩
    intro i hi j hj
    have hres : (matrix.mk left._rows right._cols ⟨some h.blocks.length, 0⟩).operator_call i j
        = ⟨some h.blocks.length, ((right._cols * i + j : Nat) : Int)⟩ := by
      simp [matrix.operator_call, Ptr.add]
    rw [hres, read_nat _ _ _ _ (blocks_append_new h.blocks _),
      product_buffer_getElem? a b _ _ _ i j hi hj]
    congr 1
    unfold inner_sum
    apply List.foldl_ext
    intro acc t ht
    have htk : t < left._cols := List.mem_range.1 ht
    have h1 := hA i hi t htk
    have h2 := hB t (hk ▸ htk) j hj
    rw [read_operator_call hl] at h1
    rw [read_operator_call hr] at h2
    have e1 : a.getD (i * left._cols + t) 0 = A i t := by
      rw [Nat.mul_comm]; simp [List.getD, h1]
    have e2 : b.getD (t * right._cols + j) 0 = B t j := by
      rw [Nat.mul_comm]; simp [List.getD, h2]
    rw [e1, e2]

/-- Associativity of the product when the sizes fit. Over the integers, for well-formed `A` of
shape `(m, k)`, `B` of shape `(k, n)` and `C` of shape `(n, p)` with `m * n`, `m * p` and `k * p`
below `2^63`, the four products are defined and `(A*B)*C == A*(B*C)` holds
under the matrix `operator==`. -/
theorem operator_times_assoc_of_fit (h : Heap Int) (A B C : matrix) (a b c : List Int)
    (hA : A.valid h a) (hB : B.valid h b) (hC : C.valid h c)
    (hAB : A.cols = B.rows) (hBC : B.cols = C.rows)
    (hmn : A.rows * B.cols < 2 ^ 63) (hmp : A.rows * C.cols < 2 ^ 63)
    (hkp : B.rows * C.cols < 2 ^ 63) :
    ∃ ab h1 abc h2 bc h3 a_bc h4,
      operator_times h A B = some (ab, h1) ∧ operator_times h1 ab C = some (abc, h2) ∧
      operator_times h2 B C = some (bc, h3) ∧ operator_times h3 A bc = some (a_bc, h4) ∧
      operator_eq h4 abc a_bc = some true := by
  simp only [matrix.rows, matrix.cols] at hAB hBC hmn hmp hkp
  obtain ⟨ab, h1, e1, r1, c1, v1, f1⟩ := operator_times_valid h A B a b hA hB hAB hmn
  obtain ⟨abc, h2, e2, r2, c2, v2, f2⟩ :=
    operator_times_valid h1 ab C _ c v1 (f1 C c hC) (c1.trans hBC) (by rw [r1]; exact hmp)
  obtain ⟨bc, h3, e3, r3, c3, v3, f3⟩ :=
    operator_times_valid h2 B C b c (f2 B b (f1 B b hB)) (f2 C c (f1 C c hC)) hBC hkp
  obtain ⟨a_bc, h4, e4, r4, c4, v4, f4⟩ :=
    operator_times_valid h3 A bc a _ (f3 A a (f2 A a (f1 A a hA))) v3 (hAB.trans r3.symm)
      (by rw [c3]; exact hmp)
  refine ⟨ab, h1, abc, h2, bc, h3, a_bc, h4, e1, e2, e3, e4, ?_⟩
  rw [operator_eq_eq h4 abc a_bc _ _ (f4 _ _ (f3 _ _ v2)) v4]
  rw [r1, c1] at v2
  have hshape : abc._rows = a_bc._rows ∧ abc._cols = a_bc._cols :=
    ⟨by rw [r2, r1, r4], by rw [c2, c4, c3]⟩
  rw [if_pos hshape, r1, c1, c3, ← hAB, product_buffer_assoc]
  simp

/-- The compound product when the size of the result fits. For well-formed `A` and `B` with
`A.cols() == B.rows()` and `A.rows() * B.cols() < 2^63`, `A *= B` is defined and
leaves `A` equal to the product `operator*` computes from `A` before the call and `B`: a fresh
matrix of shape `(A.rows(), B.cols())` whose element `(i, j)` is the inner sum of row `i` of the
old `A` and column `j` of `B`; `B` and the old array of `A` are unchanged.  The same holds when
the right operand is `A` itself (`A` square): every element is computed from the old `A`. -/
theorem operator_times_assign_product_of_fit {T : Type} [Inhabited T] [Zero T] [Add T] [Mul T]
    (h : Heap T) (A B : matrix) (a b : List T) (hA : A.valid h a) (hB : B.valid h b)
    (hk : A.cols = B.rows) (hfit : A.rows * B.cols < 2 ^ 63) :
    (∃ A1 h1, A.operator_times_assign h B = some (A1, h1) ∧
      operator_times h A B = some (A1, h1) ∧
      A1.rows = A.rows ∧ A1.cols = B.cols ∧
      A1.valid h1 (product_buffer a b A.rows A.cols B.cols) ∧
      (∀ i, i < A.rows → ∀ j, j < B.cols →
        h1.read (A1.operator_call i j) = some (inner_sum a b A.cols B.cols i j)) ∧
      B.valid h1 b ∧ A.valid h1 a) ∧
    (A.rows = A.cols →
      ∃ A2 h2, A.operator_times_assign h A = some (A2, h2) ∧
        operator_times h A A = some (A2, h2) ∧
        A2.rows = A.rows ∧ A2.cols = A.cols ∧
        A2.valid h2 (product_buffer a a A.rows A.cols A.cols) ∧
        (∀ i, i < A.rows → ∀ j, j < A.cols →
          h2.read (A2.operator_call i j) = some (inner_sum a a A.cols A.cols i j)) ∧
        A.valid h2 a) := by
  simp only [matrix.rows, matrix.cols] at hk hfit ⊢
  constructor
  · obtain ⟨A1, h1, e1, r1, c1, v1, f1⟩ := operator_times_valid h A B a b hA hB hk hfit
    refine ⟨A1, h1, by rw [operator_times_assign_eq, e1], e1, r1, c1, v1, ?_, f1 B b hB,
      f1 A a hA⟩
    intro i hi j hj
    rw [read_operator_call v1, c1, product_buffer_getElem? a b _ _ _ i j hi hj]
  · intro hsq
    obtain ⟨A2, h2, e2, r2, c2, v2, f2⟩ := operator_times_valid h A A a a hA hA hsq.symm
      hA.2.2.2
    refine ⟨A2, h2, by rw [operator_times_assign_eq, e2], e2, r2, c2, v2, ?_, f2 A a hA⟩
    intro i hi j hj
    rw [read_operator_call v2, c2, product_buffer_getElem? a a _ _ _ i j hi hj]

/-- The normalization invariant where the sizes fit.  The invariant (`rows() == 0` exactly
when `cols() == 0`, the owned array holds exactly `rows() * cols()` elements, and the data
pointer is null exactly when `size() == 0`) holds for the result of every constructor (empty,
dimensioned, literal with `Rows, Cols >= 1`, copy), is preserved by copy assignment, `swap`,
`+=`, `-=`, the scalar `*=` and the matrix `*=`, and holds for the results of `+`, `-`, the
scalar `*` and the matrix `*`; for the matrix `*` the shape and the data pointer of the result
are normalized whatever the shapes of the operands.  The dimensioned and the literal
constructor are taken with a size `rows * cols` below `2^63`, and so is the matrix product. -/
theorem normalization_invariant_of_fit {T : Type} [Inhabited T] [Zero T] [Add T] [Sub T] [Mul T]
    (h : Heap T) (A B : matrix) (a b : List T)
    (hA : A.normalized h a) (hB : B.normalized h b) :
    matrix.ctor_default.normalized h ([] : List T) ∧
    (∀ rows cols : Nat, rows * cols < 2 ^ 63 →
      (matrix.ctor h rows cols).1.normalized (matrix.ctor h rows cols).2
        (List.replicate (rows * cols) (default : T))) ∧
    (∀ (Rows Cols : Nat) (init : Nat → Nat → T), 1 ≤ Rows → 1 ≤ Cols →
      Rows * Cols < 2 ^ 63 →
      ∃ m h1, matrix.ctor_init h Rows Cols init = some (m, h1) ∧
        m.normalized h1
          ((List.range (Rows * Cols)).map fun p => init (p / Cols) (p % Cols))) ∧
    (∃ C h1, matrix.ctor_copy h A = some (C, h1) ∧ C.normalized h1 a ∧ A.normalized h1 a) ∧
    (∀ pa pb : Nat, ∃ A1 h1 c, A.operator_assign h pa pb B = some (A1, h1) ∧
      A1.normalized h1 c ∧ B.normalized h1 b) ∧
    ((A.swap B).1.normalized h b ∧ (A.swap B).2.normalized h a) ∧
    (∀ (other A1 : matrix) (h1 : Heap T),
      A.operator_plus_assign h other = some (A1, h1) → ∃ c, A1.normalized h1 c) ∧
    (∀ (other A1 : matrix) (h1 : Heap T),
      A.operator_minus_assign h other = some (A1, h1) → ∃ c, A1.normalized h1 c) ∧
    (∀ (factor : const_reference T) (A1 : matrix) (h1 : Heap T),
      A.operator_times_assign_scalar h factor = some (A1, h1) → ∃ c, A1.normalized h1 c) ∧
    (∀ (other A1 : matrix) (h1 : Heap T),
      A.operator_times_assign h other = some (A1, h1) →
        (A1._rows = 0 ↔ A1._cols = 0) ∧ (A1._data = nullptr ↔ A1.size = 0)) ∧
    (A.separate B → A.size ≤ B.size →
      (∃ h1, A.operator_plus_assign h B = some (A, h1) ∧
        A.normalized h1 (List.zipWith (fun x y => x + y) a b) ∧ B.normalized h1 b) ∧
      (∃ h1, A.operator_minus_assign h B = some (A, h1) ∧
        A.normalized h1 (List.zipWith (fun x y => x - y) a b) ∧ B.normalized h1 b)) ∧
    (∀ (factor : const_reference T) (k : T), factor.get h = some k → factor.outside_of A →
      ∃ h1, A.operator_times_assign_scalar h factor = some (A, h1) ∧
        A.normalized h1 (a.map fun x => x * k)) ∧
    (A.cols = B.rows → A.rows * B.cols < 2 ^ 63 →
      ∃ A1 h1, A.operator_times_assign h B = some (A1, h1) ∧
        A1.normalized h1 (product_buffer a b A.rows A.cols B.cols) ∧ B.normalized h1 b) ∧
    (A.size ≤ B.size →
      (∃ S h1, operator_plus h A B = some (S, h1) ∧
        S.normalized h1 (List.zipWith (fun x y => x + y) a b)) ∧
      (∃ D h1, operator_minus h A B = some (D, h1) ∧
        D.normalized h1 (List.zipWith (fun x y => x - y) a b))) ∧
    (∀ (factor : const_reference T) (k : T), factor.get h = some k →
      (∃ P h1, operator_times_scalar h A factor = some (P, h1) ∧
        P.normalized h1 (a.map fun x => x * k)) ∧
      (∃ Q h1, operator_scalar_times h factor A = some (Q, h1) ∧
        Q.normalized h1 (a.map fun x => x * k))) ∧
    (A.cols = B.rows → A.rows * B.cols < 2 ^ 63 →
      ∃ P h1, operator_times h A B = some (P, h1) ∧
        P.normalized h1 (product_buffer a b A.rows A.cols B.cols)) ∧
    (∀ (left right P : matrix) (h1 : Heap T), operator_times h left right = some (P, h1) →
      (P._rows = 0 ↔ P._cols = 0) ∧ (P._data = nullptr ↔ P.size = 0)) := by
  have hlenle : A.size ≤ B.size → a.length ≤ b.length := by
    intro hsz; rw [hA.1.2.2.1, hB.1.2.2.1]; exact hsz
  have hzlen : ∀ (op : T → T → T), a.length ≤ b.length →
      (List.zipWith op a b).length = A._rows * A._cols := by
    intro op hl
    rw [List.length_zipWith, Nat.min_eq_left hl, hA.1.2.2.1]
  have hmlen : ∀ k : T, (a.map fun x => x * k).length = A._rows * A._cols := by
    intro k; rw [List.length_map, hA.1.2.2.1]
  refine ⟨?_, ?_, ?_, ?_, ?_, ?_, ?_, ?_, ?_, ?_, ?_, ?_, ?_, ?_, ?_, ?_, ?_⟩
  · exact ⟨valid_null h 0 0 rfl rfl, by simp [matrix.ctor_default, matrix.size]⟩
  · exact fun rows cols hfit => ctor_normalized h rows cols hfit
  · intro Rows Cols init hR hC hfit
    refine ⟨_, _, ctor_init_eq h Rows Cols init,
      valid_new h Rows Cols _ (by omega) ⟨by simp, hfit⟩, ?_⟩
    have : Rows * Cols ≠ 0 := Nat.mul_ne_zero (by omega) (by omega)
    simp [matrix.size, nullptr, this]
  · obtain ⟨C, h1, e1, _, _, v1, n1, f1, _⟩ := ctor_copy_valid h A a hA.1
    exact ⟨C, h1, e1, ⟨v1, n1⟩, ⟨f1 A a hA.1, hA.2⟩⟩
  · intro pa pb
    by_cases hp : pb = pa
    · exact ⟨A, h, a, by simp [matrix.operator_assign, hp], hA, hB⟩
    · obtain ⟨C, h1, e1, _, _, v1, n1, f1, _⟩ := ctor_copy_valid h B b hB.1
      exact ⟨C, h1, b, by simp [matrix.operator_assign, hp, e1, swap_eq], ⟨v1, n1⟩,
        ⟨f1 B b hB.1, hB.2⟩⟩
  · rw [swap_eq]; exact ⟨hB, hA⟩
  · intro other A1 h1 he
    simp only [matrix.operator_plus_assign, Option.map_eq_some', Prod.mk.injEq] at he
    obtain ⟨h2, ht, hAA, hh⟩ := he
    subst hAA hh
    exact normalized_of_lengths (std_transform2_lengths ht) hA
  · intro other A1 h1 he
    simp only [matrix.operator_minus_assign, Option.map_eq_some', Prod.mk.injEq] at he
    obtain ⟨h2, ht, hAA, hh⟩ := he
    subst hAA hh
    exact normalized_of_lengths (std_transform2_lengths ht) hA
  · intro factor A1 h1 he
    simp only [matrix.operator_times_assign_scalar, Option.map_eq_some', Prod.mk.injEq] at he
    obtain ⟨h2, ht, hAA, hh⟩ := he
    subst hAA hh
    exact normalized_of_lengths (std_transform1_lengths ht) hA
  · intro other A1 h1 he
    rw [operator_times_assign_eq] at he
    exact operator_times_shape h A other A1 h1 he
  · intro hsep hsz
    have hl := hlenle hsz
    constructor
    · obtain ⟨h1, e1, vA, vB, _⟩ :=
        transform2_assign_valid (fun x y => x + y) h A B a b hA.1 hB.1 hsep hl
      exact ⟨h1, by simp [matrix.operator_plus_assign, e1], ⟨vA, hA.2⟩, ⟨vB, hB.2⟩⟩
    · obtain ⟨h1, e1, vA, vB, _⟩ :=
        transform2_assign_valid (fun x y => x - y) h A B a b hA.1 hB.1 hsep hl
      exact ⟨h1, by simp [matrix.operator_minus_assign, e1], ⟨vA, hA.2⟩, ⟨vB, hB.2⟩⟩
  · intro factor k hk hout
    exact ⟨_, operator_times_assign_scalar_eq h A a factor k hA.1 hk hout,
      valid_store_self hA.1 _ (by simp), hA.2⟩
  · intro hk hfit
    simp only [matrix.rows, matrix.cols] at hk hfit ⊢
    obtain ⟨P, h1, e1, n1, f1⟩ := operator_times_normalized h A B a b hA.1 hB.1 hk hfit
    exact ⟨P, h1, by rw [operator_times_assign_eq, e1], n1, f1 B b hB⟩
  · intro hsz
    have hl := hlenle hsz
    exact ⟨⟨_, _, operator_plus_eq h A B a b hA.1 hB.1 hl,
        fresh_normalized h _ _ _ hA.1.1 (hzlen _ hl) hA.1.2.2.2⟩,
      ⟨_, _, operator_minus_eq h A B a b hA.1 hB.1 hl,
        fresh_normalized h _ _ _ hA.1.1 (hzlen _ hl) hA.1.2.2.2⟩⟩
  · intro factor k hk
    exact ⟨⟨_, _, operator_times_scalar_eq h A a factor k hA.1 hk,
        fresh_normalized h _ _ _ hA.1.1 (hmlen k) hA.1.2.2.2⟩,
      ⟨_, _, operator_times_scalar_eq h A a factor k hA.1 hk,
        fresh_normalized h _ _ _ hA.1.1 (hmlen k) hA.1.2.2.2⟩⟩
  · intro hk hfit
    simp only [matrix.rows, matrix.cols] at hk hfit ⊢
    obtain ⟨P, h1, e1, n1, _⟩ := operator_times_normalized h A B a b hA.1 hB.1 hk hfit
    exact ⟨P, h1, e1, n1⟩
  · exact fun left right P h1 hP => operator_times_shape h left right P h1 hP

/-- The accesses of a product whose size fits. For normalized `left` and `right` with
`left.cols() == right.rows()` and `left.rows() * right.cols() < 2^63`, the run of
`operator*(left, right)` is defined and every access it makes is in bounds: each call of
`row_begin(r)` has `r < left.rows()` and each call of `col_begin(c)` has `c < right.cols()`;
every read through the first iterator is at an offset `r*k + t < left.size()` and every read
through the second one at an offset `t*n + c < right.size()`, with `t < k`, and succeeds; and the
output cursor writes exactly the offsets `0, …, m*n - 1` of the array of the result, once each
and in this order. -/
theorem operator_times_in_bounds_of_fit {T : Type} [Inhabited T] [Zero T] [Add T] [Mul T]
    (h : Heap T) (left right : matrix) (a b : List T)
    (hl : left.normalized h a) (hr : right.normalized h b) (hk : left.cols = right.rows)
    (hfit : left.rows * right.cols < 2 ^ 63) :
    ∃ res h1 log, operator_times_traced h left right = some ((res, h1), log) ∧
      operator_times h left right = some (res, h1) ∧
      res.size = left.rows * right.cols ∧
      res.normalized h1 (product_buffer a b left.rows left.cols right.cols) ∧
      (∀ r, Access.row_begin r ∈ log → r < left.rows) ∧
      (∀ c, Access.col_begin c ∈ log → c < right.cols) ∧
      (∀ p, Access.read_first1 p ∈ log →
        ∃ r t, r < left.rows ∧ t < left.cols ∧ r * left.cols + t < left.size ∧
          p = left.begin.add ((r * left.cols + t : Nat) : Int) ∧ ∃ v, h.read p = some v) ∧
      (∀ p, Access.read_first2 p ∈ log →
        ∃ t c, t < left.cols ∧ c < right.cols ∧ t * right.cols + c < right.size ∧
          p = right.begin.add ((t * right.cols + c : Nat) : Int) ∧ ∃ v, h.read p = some v) ∧
      written log
        = (List.range (left.rows * right.cols)).map fun (i : Nat) => res.begin.add (i : Int) := by
  simp only [matrix.rows, matrix.cols, matrix.size] at hk hfit ⊢
  obtain ⟨P, h1, e1, n1, _⟩ := operator_times_normalized h left right a b hl.1 hr.1 hk hfit
  have hP := operator_times_result h left right P h1 e1
  have hrows : P._rows = left._rows ∧ P._cols = right._cols := by
    obtain ⟨P2, h2, e2, r2, c2, _, _⟩ := operator_times_valid h left right a b hl.1 hr.1 hk hfit
    rw [e1] at e2
    simp only [Option.some.injEq, Prod.mk.injEq] at e2
    rw [e2.1]; exact ⟨r2, c2⟩
  refine ⟨P, h1, operator_times_log left right P.begin,
    by rw [operator_times_traced_eq, e1, hP]; rfl, e1, by rw [hrows.1, hrows.2], n1, ?_, ?_, ?_,
    ?_, written_operator_times_log left right P.begin⟩
  · intro r hmem
    obtain ⟨r1, hr1, c1, hc1, hm⟩ := (mem_operator_times_log _ _ _ _).1 hmem
    simp only [cell_log, List.mem_append, List.mem_cons, List.mem_singleton,
      mem_inner_product_log, Access.row_begin.injEq, List.not_mem_nil, or_false, reduceCtorEq,
      false_or, or_self, and_false, exists_false] at hm
    omega
  · intro c hmem
    obtain ⟨r1, hr1, c1, hc1, hm⟩ := (mem_operator_times_log _ _ _ _).1 hmem
    simp only [cell_log, List.mem_append, List.mem_cons, List.mem_singleton,
      mem_inner_product_log, Access.col_begin.injEq, List.not_mem_nil, or_false, reduceCtorEq,
      false_or, or_self, and_false, exists_false] at hm
    omega
  · intro p hmem
    obtain ⟨r1, hr1, c1, hc1, hm⟩ := (mem_operator_times_log _ _ _ _).1 hmem
    simp only [cell_log, List.mem_append, List.mem_cons, List.mem_singleton,
      mem_inner_product_log, Access.read_first1.injEq, List.not_mem_nil, or_false,
      reduceCtorEq, false_or, or_self, and_false, exists_false] at hm
    obtain ⟨t, ht, hp⟩ := hm
    have hlt : r1 * left._cols + t < left._rows * left._cols := idx_lt hr1 ht
    have hpe : p = left.begin.add ((r1 * left._cols + t : Nat) : Int) := by
      rw [hp, ptr_add_add]; push_cast; rfl
    have hla : r1 * left._cols + t < a.length := by rw [hl.1.2.2.1]; exact hlt
    refine ⟨r1, t, hr1, ht, hlt, hpe, a[r1 * left._cols + t], ?_⟩
    rw [hpe, read_begin_add hl.1, List.getElem?_eq_getElem hla]
  · intro p hmem
    obtain ⟨r1, hr1, c1, hc1, hm⟩ := (mem_operator_times_log _ _ _ _).1 hmem
    simp only [cell_log, List.mem_append, List.mem_cons, List.mem_singleton,
      mem_inner_product_log, Access.read_first2.injEq, List.not_mem_nil, or_false,
      reduceCtorEq, false_or, or_self, and_false, exists_false] at hm
    obtain ⟨t, ht, hp⟩ := hm
    have hlt : t * right._cols + c1 < right._rows * right._cols := idx_lt (hk ▸ ht) hc1
    have hpe : p = right.begin.add ((t * right._cols + c1 : Nat) : Int) := by
      rw [hp]
    have hlb : t * right._cols + c1 < b.length := by rw [hr.1.2.2.1]; exact hlt
    refine ⟨t, c1, ht, hc1, hlt, hpe, b[t * right._cols + c1], ?_⟩
    rw [hpe, read_begin_add hr.1, List.getElem?_eq_getElem hlb]


/-! ## The claims -/

/-- Claim C1 fails on the code. The well-formed operands `wideColumn`, of shape `(2^32, 1)`, and
`wideRow`, of shape `(1, 2^32)`, are compatible, and `operator*` builds its result with
`matrix(2^32, 2^32)`, whose `rows * cols` is `0` in `size_t`: the result is the empty matrix with
a null data pointer, the first `*it = …` writes through this null pointer, and the call has no
result, where the claim asks for a matrix with `rows() == 2^32` and `cols() == 2^32`. -/
theorem operator_times_entries_overflow :
    wideColumn.valid wideHeap (List.replicate (2 ^ 32) 1) ∧
    wideRow.valid wideHeap (List.replicate (2 ^ 32) 1) ∧
    wideColumn.cols = wideRow.rows ∧
    size_t_mul wideColumn.rows wideRow.cols = 0 ∧
    matrix.ctor wideHeap wideColumn.rows wideRow.cols = (⟨0, 0, nullptr⟩, wideHeap) ∧
    operator_times wideHeap wideColumn wideRow = none :=
  ⟨wide_valid.1, wide_valid.2, by decide, by decide, wide_times_none.1, wide_times_none.2⟩

/-- Claim C2. For `r < rows()` and `c < cols()`, the column iterator `col_begin(c) + r`, the
row iterator `row_begin(r) + c` and `operator()(r, c)` all designate the element at linear
offset `r * cols + c` of the array, so dereferencing them yields the same element: the row
iterator and `operator()` in every case, the column iterator whenever the size
`rows() * cols()` is below `2^63`, as it is in every well-formed matrix, where all three read
the element `r * cols + c` of the array. -/
theorem col_row_iterator_duality {T : Type} (h : Heap T) (m : matrix) (r c : Nat)
    (hr : r < m.rows) (hc : c < m.cols) :
    ∃ cit rit, m.col_begin c = some cit ∧ m.row_begin r = some rit ∧
      (m.rows * m.cols < 2 ^ 63 → (cit.plus r).deref = m.operator_call r c) ∧
      rit.add c = m.operator_call r c ∧
      m.operator_call r c = m._data.add ((r * m.cols + c : Nat) : Int) ∧
      (m.rows * m.cols < 2 ^ 63 →
        h.read (cit.plus r).deref = h.read (m.operator_call r c)) ∧
      h.read (rit.add c) = h.read (m.operator_call r c) ∧
      ∀ buf, m.valid h buf →
        ∃ v, buf[r * m.cols + c]? = some v ∧ h.read (m.operator_call r c) = some v ∧
          h.read (cit.plus r).deref = some v ∧ h.read (rit.add c) = some v := by
  simp only [matrix.rows, matrix.cols] at hr hc ⊢
  have hrc : r * m._cols + c < m._rows * m._cols := idx_lt hr hc
  have e1 : m._rows * m._cols < 2 ^ 63 →
      (basic_col_iterator.plus ⟨m.begin, c, m._cols⟩ r).deref = m.operator_call r c := by
    intro hfit
    have hcols : m._cols < 2 ^ 63 := by
      have : m._cols ≤ m._rows * m._cols := Nat.le_mul_of_pos_left _ (by omega)
      omega
    have hprod : to_difference_type ((r : Int) * (m._cols : Int))
        = (r : Int) * (m._cols : Int) := by
      have : to_difference_type ((r * m._cols : Nat) : Int) = ((r * m._cols : Nat) : Int) :=
        to_difference_type_nat (by omega)
      simpa using this
    simp only [basic_col_iterator.plus, basic_col_iterator.add_assign,
      basic_col_iterator.deref, matrix.operator_call, matrix.begin, Ptr.add, Ptr.mk.injEq,
      true_and, to_difference_type_nat hcols, hprod]
    push_cast; ring
  have e2 : (m.begin.add (r * m._cols)).add c = m.operator_call r c := by
    simp only [matrix.operator_call, matrix.begin, Ptr.add, Ptr.mk.injEq, true_and]
    push_cast; ring
  have e3 : m.operator_call r c = m._data.add ((r * m._cols + c : Nat) : Int) := by
    simp only [matrix.operator_call, Ptr.add, Ptr.mk.injEq, true_and]
    push_cast; ring
  refine ⟨⟨m.begin, c, m._cols⟩, m.begin.add (r * m._cols), by simp [matrix.col_begin, hc],
    by simp [matrix.row_begin, hr], e1, e2, e3, fun hfit => by rw [e1 hfit], by rw [e2], ?_⟩
  intro buf hv
  have hlt : r * m._cols + c < buf.length := by rw [hv.2.2.1]; exact hrc
  have hread : h.read (m.operator_call r c) = some buf[r * m._cols + c] := by
    rw [read_operator_call hv, Nat.mul_comm, List.getElem?_eq_getElem hlt]
  exact ⟨buf[r * m._cols + c], List.getElem?_eq_getElem hlt, hread,
    by rw [e1 hv.2.2.2, hread], by rw [e2, hread]⟩

/-- Witness for claim C2: row 1 and column 2 of a 2-by-3 matrix. -/
theorem col_row_iterator_duality_witness :
    (1 < (matrix.mk 2 3 ⟨some 0, 0⟩).rows ∧ 2 < (matrix.mk 2 3 ⟨some 0, 0⟩).cols) ∧
    ∃ cit rit, (matrix.mk 2 3 ⟨some 0, 0⟩).col_begin 2 = some cit ∧
      (matrix.mk 2 3 ⟨some 0, 0⟩).row_begin 1 = some rit ∧
      ((matrix.mk 2 3 ⟨some 0, 0⟩).rows * (matrix.mk 2 3 ⟨some 0, 0⟩).cols < 2 ^ 63 →
        (cit.plus (1 : Nat)).deref = (matrix.mk 2 3 ⟨some 0, 0⟩).operator_call 1 2) ∧
      rit.add (2 : Nat) = (matrix.mk 2 3 ⟨some 0, 0⟩).operator_call 1 2 ∧
      (matrix.mk 2 3 ⟨some 0, 0⟩).operator_call 1 2
        = (matrix.mk 2 3 ⟨some 0, 0⟩)._data.add
            ((1 * (matrix.mk 2 3 ⟨some 0, 0⟩).cols + 2 : Nat) : Int) ∧
      ((matrix.mk 2 3 ⟨some 0, 0⟩).rows * (matrix.mk 2 3 ⟨some 0, 0⟩).cols < 2 ^ 63 →
        (Heap.mk [[(10 : Int), 11, 12, 13, 14, 15]]).read (cit.plus (1 : Nat)).deref
          = (Heap.mk [[(10 : Int), 11, 12, 13, 14, 15]]).read
              ((matrix.mk 2 3 ⟨some 0, 0⟩).operator_call 1 2)) ∧
      (Heap.mk [[(10 : Int), 11, 12, 13, 14, 15]]).read (rit.add (2 : Nat))
        = (Heap.mk [[(10 : Int), 11, 12, 13, 14, 15]]).read
            ((matrix.mk 2 3 ⟨some 0, 0⟩).operator_call 1 2) ∧
      ∀ buf, (matrix.mk 2 3 ⟨some 0, 0⟩).valid (Heap.mk [[(10 : Int), 11, 12, 13, 14, 15]]) buf →
        ∃ v, buf[1 * (matrix.mk 2 3 ⟨some 0, 0⟩).cols + 2]? = some v ∧
          (Heap.mk [[(10 : Int), 11, 12, 13, 14, 15]]).read
            ((matrix.mk 2 3 ⟨some 0, 0⟩).operator_call 1 2) = some v ∧
          (Heap.mk [[(10 : Int), 11, 12, 13, 14, 15]]).read (cit.plus (1 : Nat)).deref
            = some v ∧
          (Heap.mk [[(10 : Int), 11, 12, 13, 14, 15]]).read (rit.add (2 : Nat)) = some v :=
  ⟨by decide,
   col_row_iterator_duality (Heap.mk [[(10 : Int), 11, 12, 13, 14, 15]])
    (matrix.mk 2 3 ⟨some 0, 0⟩) 1 2 (by decide) (by decide)⟩

/-- Claim C3. On well-formed matrices `A == B` returns a value, and it returns `true`
exactly when `A.rows() == B.rows()`, `A.cols() == B.cols()` and for every linear index
`i < A.size()` the `i`-th elements of `A` and `B` compare equal. -/
theorem operator_eq_iff {T : Type} [BEq T] (h : Heap T) (A B : matrix) (a b : List T)
    (hA : A.valid h a) (hB : B.valid h b) :
    ∃ res, operator_eq h A B = some res ∧
      (res = true ↔
        A.rows = B.rows ∧ A.cols = B.cols ∧
        ∀ i, i < A.size → ∃ x y, h.read (A.begin.add (i : Int)) = some x ∧
          h.read (B.begin.add (i : Int)) = some y ∧ (x == y) = true) := by
  refine ⟨_, operator_eq_eq h A B a b hA hB, ?_⟩
  simp only [matrix.rows, matrix.cols, matrix.size]
  by_cases hshape : A._rows = B._rows ∧ A._cols = B._cols
  · have hab : a.length = b.length := by rw [hA.2.2.1, hB.2.2.1, hshape.1, hshape.2]
    rw [if_pos hshape, list_beq_iff_forall a b hab, ← hA.2.2.1]
    simp only [read_begin_add hA, read_begin_add hB]
    exact ⟨fun hall => ⟨hshape.1, hshape.2, hall⟩, fun hall => hall.2.2⟩
  · rw [if_neg hshape]
    constructor
    · intro hf; cases hf
    · intro hall; exact absurd ⟨hall.1, hall.2.1⟩ hshape

/-- Witness for claim C3: the comparisons of the scenario, where `A == A` is true and
`A == B` is false. -/
theorem operator_eq_iff_witness :
    (scenarioA.valid scenarioHeap [1, 2, 3, 4] ∧ scenarioB.valid scenarioHeap [5, 6, 7, 8]) ∧
    (∃ res, operator_eq scenarioHeap scenarioA scenarioB = some res ∧
      (res = true ↔
        scenarioA.rows = scenarioB.rows ∧ scenarioA.cols = scenarioB.cols ∧
        ∀ i, i < scenarioA.size → ∃ x y,
          scenarioHeap.read (scenarioA.begin.add (i : Int)) = some x ∧
          scenarioHeap.read (scenarioB.begin.add (i : Int)) = some y ∧ (x == y) = true)) ∧
    operator_eq scenarioHeap scenarioA scenarioA = some true ∧
    operator_eq scenarioHeap scenarioA scenarioB = some false :=
  ⟨by decide,
   operator_eq_iff scenarioHeap scenarioA scenarioB [1, 2, 3, 4] [5, 6, 7, 8]
    (by decide) (by decide),
   by decide, by decide⟩

/-- Claim C4. When `rows * cols == 0`, `matrix(rows, cols)` allocates nothing and has
`rows() == 0`, `cols() == 0`, `size() == 0` and `empty() == true`, whatever the two
arguments were, and it compares equal to the default-constructed `matrix()`. -/
theorem ctor_zero_size {T : Type} [Inhabited T] [BEq T] (h : Heap T) (rows cols : Nat)
    (hz : rows * cols = 0) :
    (matrix.ctor h rows cols).1.rows = 0 ∧ (matrix.ctor h rows cols).1.cols = 0 ∧
    (matrix.ctor h rows cols).1.size = 0 ∧ (matrix.ctor h rows cols).1.empty = true ∧
    (matrix.ctor h rows cols).2 = h ∧
    operator_eq (matrix.ctor h rows cols).2 (matrix.ctor h rows cols).1 matrix.ctor_default
      = some true := by
  have hz0 : size_t_mul rows cols = 0 := by simp [size_t_mul, hz]
  simp [matrix.ctor, hz0, matrix.rows, matrix.cols, matrix.size, matrix.empty, operator_eq,
    matrix.ctor_default, std_equal, matrix.end_, matrix.begin, Ptr.dist, Ptr.add, nullptr,
    equal_loop]

/-- Witness for claim C4: `matrix(0, 7)` and `matrix(5, 0)`. -/
theorem ctor_zero_size_witness :
    (0 * 7 = 0 ∧ 5 * 0 = 0) ∧
    ((matrix.ctor (Heap.mk [[(1 : Int)]]) 0 7).1.rows = 0 ∧
      (matrix.ctor (Heap.mk [[(1 : Int)]]) 0 7).1.cols = 0 ∧
      (matrix.ctor (Heap.mk [[(1 : Int)]]) 0 7).1.size = 0 ∧
      (matrix.ctor (Heap.mk [[(1 : Int)]]) 0 7).1.empty = true ∧
      (matrix.ctor (Heap.mk [[(1 : Int)]]) 0 7).2 = Heap.mk [[(1 : Int)]] ∧
      operator_eq (matrix.ctor (Heap.mk [[(1 : Int)]]) 0 7).2
        (matrix.ctor (Heap.mk [[(1 : Int)]]) 0 7).1 matrix.ctor_default = some true) ∧
    ((matrix.ctor (Heap.mk [[(1 : Int)]]) 5 0).1.rows = 0 ∧
      (matrix.ctor (Heap.mk [[(1 : Int)]]) 5 0).1.cols = 0 ∧
      (matrix.ctor (Heap.mk [[(1 : Int)]]) 5 0).1.size = 0 ∧
      (matrix.ctor (Heap.mk [[(1 : Int)]]) 5 0).1.empty = true ∧
      (matrix.ctor (Heap.mk [[(1 : Int)]]) 5 0).2 = Heap.mk [[(1 : Int)]] ∧
      operator_eq (matrix.ctor (Heap.mk [[(1 : Int)]]) 5 0).2
        (matrix.ctor (Heap.mk [[(1 : Int)]]) 5 0).1 matrix.ctor_default = some true) :=
  ⟨by decide, ctor_zero_size (Heap.mk [[(1 : Int)]]) 0 7 (by decide),
    ctor_zero_size (Heap.mk [[(1 : Int)]]) 5 0 (by decide)⟩

/-- Counterexample for claim C5: over the element type `floating`, whose `NaN` compares unequal
to itself, the copy of the well-formed 1-by-1 matrix `[[NaN]]` has the shape and the element of
the original, and `C == M` is false. -/
theorem ctor_copy_nan_unequal :
    (floating.nan == floating.nan) = false ∧
    (matrix.mk 1 1 ⟨some 0, 0⟩).valid (Heap.mk [[floating.nan]]) [floating.nan] ∧
    matrix.ctor_copy (Heap.mk [[floating.nan]]) ⟨1, 1, ⟨some 0, 0⟩⟩
      = some (⟨1, 1, ⟨some 1, 0⟩⟩, Heap.mk [[floating.nan], [floating.nan]]) ∧
    operator_eq (Heap.mk [[floating.nan], [floating.nan]]) ⟨1, 1, ⟨some 1, 0⟩⟩
      ⟨1, 1, ⟨some 0, 0⟩⟩ = some false := by
  decide

/-- Claim C5, amended. The copy `C = matrix(M)` of a well-formed `M` (the empty one included) has
the rows, the columns and the elements of `M`; `C == M` returns a value, which is `true` exactly
when every element of `M` compares equal to itself; the copy leaves `M` as it was, and writing
any value to `C(r, c)` for a valid `(r, c)` succeeds and leaves every element and the shape of
`M` unchanged. -/
theorem ctor_copy_independent {T : Type} [Inhabited T] [BEq T] (h : Heap T)
    (M : matrix) (buf : List T) (hM : M.valid h buf) :
    ∃ C h1, matrix.ctor_copy h M = some (C, h1) ∧
      C.rows = M.rows ∧ C.cols = M.cols ∧ C.valid h1 buf ∧
      (∃ res, operator_eq h1 C M = some res ∧
        (res = true ↔ ∀ x, x ∈ buf → (x == x) = true)) ∧
      M.valid h1 buf ∧
      ∀ r c v, r < C.rows → c < C.cols →
        ∃ h2, h1.write (C.operator_call r c) v = some h2 ∧ M.valid h2 buf ∧
          ∀ i j, h2.read (M.operator_call i j) = h.read (M.operator_call i j) := by
  rw [ctor_copy_eq h M buf hM]
  by_cases hz : M._rows * M._cols = 0
  · have hzz := valid_zero hM (Nat.mul_eq_zero.1 hz)
    have hb : buf = [] := hzz.2.2
    subst hb
    have hC := valid_null (T := T) h M._rows M._cols hzz.1 hzz.2.1
    refine ⟨⟨M._rows, M._cols, nullptr⟩, h, by rw [if_pos hz], rfl, rfl, hC,
      operator_eq_same h _ M [] hC hM rfl rfl, hM, ?_⟩
    intro r c v hr; simp only [matrix.rows] at hr; omega
  · have hC := valid_new h M._rows M._cols buf hM.1 hM.2.2
    have hM1 := valid_append hM buf
    refine ⟨⟨M._rows, M._cols, ⟨some h.blocks.length, 0⟩⟩, ⟨h.blocks ++ [buf]⟩,
      by rw [if_neg hz], rfl, rfl, hC, operator_eq_same _ _ M buf hC hM1 rfl rfl, hM1, ?_⟩
    intro r c v hr hc
    simp only [matrix.rows, matrix.cols] at hr hc
    have hlt : M._cols * r + c < buf.length := by
      rw [hM.2.2.1, Nat.mul_comm]; exact idx_lt hr hc
    have hp : (matrix.mk M._rows M._cols ⟨some h.blocks.length, 0⟩).operator_call r c
        = ⟨some h.blocks.length, ((M._cols * r + c : Nat) : Int)⟩ := by
      simp [matrix.operator_call, Ptr.add]
    have hM2 := valid_append hM (buf.set (M._cols * r + c) v)
    refine ⟨⟨h.blocks ++ [buf.set (M._cols * r + c) v]⟩, ?_, hM2, ?_⟩
    · rw [hp, write_nat _ _ _ buf v (blocks_append_new h.blocks buf) hlt, blocks_set_new]
    · intro i j
      rw [read_operator_call hM2, read_operator_call hM]

/-- Witness for claim C5, amended: the copy of the matrix `[[1,2],[3,4]]`. -/
theorem ctor_copy_independent_witness :
    (matrix.mk 2 2 ⟨some 0, 0⟩).valid (Heap.mk [[(1 : Int), 2, 3, 4]]) [1, 2, 3, 4] ∧
    ∃ C h1, matrix.ctor_copy (Heap.mk [[(1 : Int), 2, 3, 4]]) (matrix.mk 2 2 ⟨some 0, 0⟩)
        = some (C, h1) ∧
      C.rows = (matrix.mk 2 2 ⟨some 0, 0⟩).rows ∧ C.cols = (matrix.mk 2 2 ⟨some 0, 0⟩).cols ∧
      C.valid h1 [1, 2, 3, 4] ∧
      (∃ res, operator_eq h1 C (matrix.mk 2 2 ⟨some 0, 0⟩) = some res ∧
        (res = true ↔ ∀ x, x ∈ [(1 : Int), 2, 3, 4] → (x == x) = true)) ∧
      (matrix.mk 2 2 ⟨some 0, 0⟩).valid h1 [1, 2, 3, 4] ∧
      ∀ r c v, r < C.rows → c < C.cols →
        ∃ h2, h1.write (C.operator_call r c) v = some h2 ∧
          (matrix.mk 2 2 ⟨some 0, 0⟩).valid h2 [1, 2, 3, 4] ∧
          ∀ i j, h2.read ((matrix.mk 2 2 ⟨some 0, 0⟩).operator_call i j)
            = (Heap.mk [[(1 : Int), 2, 3, 4]]).read
                ((matrix.mk 2 2 ⟨some 0, 0⟩).operator_call i j) :=
  ⟨by decide,
   ctor_copy_independent (Heap.mk [[(1 : Int), 2, 3, 4]]) (matrix.mk 2 2 ⟨some 0, 0⟩)
    [1, 2, 3, 4] (by decide)⟩

/-- Claim C6 fails on the code. With `A = wideColumn` of shape `(2^32, 1)`, `B = wideRow` of
shape `(1, 2^32)` and `C = wideColumn`, all well formed, compatible and over the integers, the
product `A * (B * C)` is defined (`B * C` has one element, the result has `2^32`), but `A * B`,
whose result is built by `matrix(2^32, 2^32)` with `rows * cols == 0` in `size_t`, writes through
a null pointer and has no result, so that `(A * B) * C` is not computed and cannot compare equal
to `A * (B * C)`. -/
theorem operator_times_assoc_overflow :
    wideColumn.valid wideHeap (List.replicate (2 ^ 32) 1) ∧
    wideRow.valid wideHeap (List.replicate (2 ^ 32) 1) ∧
    wideColumn.cols = wideRow.rows ∧ wideRow.cols = wideColumn.rows ∧
    operator_times wideHeap wideColumn wideRow = none ∧
    ∃ bc h1 a_bc h2, operator_times wideHeap wideRow wideColumn = some (bc, h1) ∧
      operator_times h1 wideColumn bc = some (a_bc, h2) ∧
      a_bc.rows = 2 ^ 32 ∧ a_bc.cols = 1 := by
  refine ⟨wide_valid.1, wide_valid.2, by decide, by decide, wide_times_none.2, ?_⟩
  obtain ⟨bc, h1, e1, r1, c1, v1, f1⟩ :=
    operator_times_valid wideHeap wideRow wideColumn _ _ wide_valid.2 wide_valid.1
      (by decide) (by decide)
  obtain ⟨a_bc, h2, e2, r2, c2, _, _⟩ :=
    operator_times_valid h1 wideColumn bc _ _ (f1 _ _ wide_valid.1) v1
      (by rw [r1]; decide) (by rw [c1]; decide)
  exact ⟨bc, h1, a_bc, h2, e1, e2, by rw [matrix.rows, r2]; decide,
    by rw [matrix.cols, c2, c1]; decide⟩

/-- Claim C7. Over the integers, for a well-formed `M` of shape `(m, n)` and a well-formed
`n`-by-`n` matrix `I` with `I(i,i) = 1` and `I(i,j) = 0` for `i ≠ j` (the empty matrix when
`n = 0`), the product `M * I` is defined and `M * I == M`. -/
theorem operator_times_identity (h : Heap Int) (M I : matrix) (a e : List Int)
    (hM : M.valid h a) (hI : I.valid h e) (hr : I.rows = M.cols) (hc : I.cols = M.cols)
    (hent : ∀ i, i < M.cols → ∀ j, j < M.cols →
      h.read (I.operator_call i j) = some (if i = j then 1 else 0)) :
    ∃ P h1, operator_times h M I = some (P, h1) ∧ operator_eq h1 P M = some true := by
  simp only [matrix.rows, matrix.cols] at hr hc hent
  obtain ⟨P, h1, e1, r1, c1, v1, f1⟩ :=
    operator_times_valid h M I a e hM hI hr.symm (by rw [hc]; exact hM.2.2.2)
  refine ⟨P, h1, e1, ?_⟩
  rw [operator_eq_eq h1 P M _ _ v1 (f1 M a hM)]
  have hshape : P._rows = M._rows ∧ P._cols = M._cols := ⟨r1, by rw [c1, hc]⟩
  have he : ∀ t, t < M._cols → ∀ j, j < M._cols →
      e.getD (t * M._cols + j) 0 = if t = j then 1 else 0 := by
    intro t ht j hj
    have := hent t ht j hj
    rw [read_operator_call hI, hc, Nat.mul_comm] at this
    simp [List.getD, this]
  rw [if_pos hshape, hc, product_buffer_identity a e _ _ hM.2.2.1 he]
  simp

/-- Witness for claim C7: the matrix `[[1,2],[3,4]]` times the 2-by-2 identity. -/
theorem operator_times_identity_witness :
    (scenarioA.valid (Heap.mk [[(1 : Int), 2, 3, 4], [1, 0, 0, 1]]) [1, 2, 3, 4] ∧
      scenarioB.valid (Heap.mk [[(1 : Int), 2, 3, 4], [1, 0, 0, 1]]) [1, 0, 0, 1]) ∧
    ∃ P h1, operator_times (Heap.mk [[(1 : Int), 2, 3, 4], [1, 0, 0, 1]]) scenarioA scenarioB
        = some (P, h1) ∧ operator_eq h1 P scenarioA = some true :=
  ⟨by decide,
   operator_times_identity (Heap.mk [[(1 : Int), 2, 3, 4], [1, 0, 0, 1]]) scenarioA scenarioB
    [1, 2, 3, 4] [1, 0, 0, 1] (by decide) (by decide) (by decide) (by decide) (by decide)⟩

/-- Claim C8. Over the integers, for a well-formed `M` the zero matrix
`Z = matrix(M.rows(), M.cols())` has the shape of `M` and every element equal to `0`, the sum
`M + Z` is defined and `M + Z == M`. -/
theorem operator_plus_zero (h : Heap Int) (M : matrix) (a : List Int) (hM : M.valid h a) :
    (matrix.ctor h M.rows M.cols).1.rows = M.rows ∧
    (matrix.ctor h M.rows M.cols).1.cols = M.cols ∧
    (matrix.ctor h M.rows M.cols).1.valid (matrix.ctor h M.rows M.cols).2
      (List.replicate (M.rows * M.cols) 0) ∧
    ∃ S h2, operator_plus (matrix.ctor h M.rows M.cols).2 M (matrix.ctor h M.rows M.cols).1
        = some (S, h2) ∧ operator_eq h2 S M = some true := by
  simp only [matrix.rows, matrix.cols]
  have hZ := ctor_valid h M._rows M._cols hM.2.2.2
  have hshape := ctor_shape h M._rows M._cols hM.1 (Nat.lt_trans hM.2.2.2 (by decide))
  have hM1 := ctor_frame h M._rows M._cols M a hM
  have hd : (default : Int) = 0 := rfl
  rw [hd] at hZ
  refine ⟨hshape.1, hshape.2, hZ, ?_⟩
  obtain ⟨S, h2, e1, r1, c1, v1, f1, _⟩ :=
    copy_transform2_valid (fun x y => x + y) _ M _ a _ hM1 hZ (by simp [hM.2.2.1])
  refine ⟨S, h2, e1, ?_⟩
  rw [operator_eq_eq h2 S M _ _ v1 (f1 M a hM1), if_pos ⟨r1, c1⟩,
    zipWith_add_zero a _ (by simp [hM.2.2.1])]
  simp

/-- Witness for claim C8: the scenario matrix `A` plus `matrix(2, 2)`. -/
theorem operator_plus_zero_witness :
    scenarioA.valid scenarioHeap [1, 2, 3, 4] ∧
    ((matrix.ctor scenarioHeap scenarioA.rows scenarioA.cols).1.rows = scenarioA.rows ∧
    (matrix.ctor scenarioHeap scenarioA.rows scenarioA.cols).1.cols = scenarioA.cols ∧
    (matrix.ctor scenarioHeap scenarioA.rows scenarioA.cols).1.valid
      (matrix.ctor scenarioHeap scenarioA.rows scenarioA.cols).2
      (List.replicate (scenarioA.rows * scenarioA.cols) 0) ∧
    ∃ S h2, operator_plus (matrix.ctor scenarioHeap scenarioA.rows scenarioA.cols).2 scenarioA
        (matrix.ctor scenarioHeap scenarioA.rows scenarioA.cols).1 = some (S, h2) ∧
      operator_eq h2 S scenarioA = some true) :=
  ⟨by decide, operator_plus_zero scenarioHeap scenarioA [1, 2, 3, 4] (by decide)⟩

/-- Counterexample for claim C9: over the element type `floating`, whose addition is commutative
and whose `NaN` compares unequal to itself, the sums `A + B` and `B + A` of the well-formed
1-by-1 matrices `A = [[NaN]]` and `B = [[0]]` are both `[[NaN]]`, and `A + B == B + A` is
false. -/
theorem operator_plus_nan_unequal :
    (∀ x y : floating, x + y = y + x) ∧
    ((matrix.mk 1 1 ⟨some 0, 0⟩).valid (Heap.mk [[floating.nan], [floating.num 0]])
        [floating.nan] ∧
      (matrix.mk 1 1 ⟨some 1, 0⟩).valid (Heap.mk [[floating.nan], [floating.num 0]])
        [floating.num 0]) ∧
    operator_plus (Heap.mk [[floating.nan], [floating.num 0]]) ⟨1, 1, ⟨some 0, 0⟩⟩
        ⟨1, 1, ⟨some 1, 0⟩⟩
      = some (⟨1, 1, ⟨some 2, 0⟩⟩,
          Heap.mk [[floating.nan], [floating.num 0], [floating.nan]]) ∧
    operator_plus (Heap.mk [[floating.nan], [floating.num 0], [floating.nan]])
        ⟨1, 1, ⟨some 1, 0⟩⟩ ⟨1, 1, ⟨some 0, 0⟩⟩
      = some (⟨1, 1, ⟨some 3, 0⟩⟩,
          Heap.mk [[floating.nan], [floating.num 0], [floating.nan], [floating.nan]]) ∧
    operator_eq (Heap.mk [[floating.nan], [floating.num 0], [floating.nan], [floating.nan]])
        ⟨1, 1, ⟨some 2, 0⟩⟩ ⟨1, 1, ⟨some 3, 0⟩⟩ = some false :=
  ⟨floating_add_comm, by decide, by decide, by decide, by decide⟩

/-- Claim C9, amended. For well-formed `A` and `B` of the same shape over an element type whose
addition is commutative, both sums are defined and hold the same elements, `A[i] + B[i]` at
index `i`; `A + B == B + A` returns a value, which is `true` exactly when every element of the
sum compares equal to itself. -/
theorem operator_plus_comm {T : Type} [Inhabited T] [Add T] [BEq T]
    (hcomm : ∀ x y : T, x + y = y + x) (h : Heap T) (A B : matrix) (a b : List T)
    (hA : A.valid h a) (hB : B.valid h b) (hr : A.rows = B.rows) (hc : A.cols = B.cols) :
    ∃ s1 h1 s2 h2, operator_plus h A B = some (s1, h1) ∧
      operator_plus h1 B A = some (s2, h2) ∧
      s1.valid h2 (List.zipWith (fun x y => x + y) a b) ∧
      s2.valid h2 (List.zipWith (fun x y => x + y) a b) ∧
      ∃ res, operator_eq h2 s1 s2 = some res ∧
        (res = true ↔
          ∀ x, x ∈ List.zipWith (fun x y => x + y) a b → (x == x) = true) := by
  simp only [matrix.rows, matrix.cols] at hr hc
  have hab : a.length = b.length := by rw [hA.2.2.1, hB.2.2.1, hr, hc]
  obtain ⟨s1, h1, e1, r1, c1, v1, f1, _⟩ :=
    copy_transform2_valid (fun x y => x + y) h A B a b hA hB (by omega)
  obtain ⟨s2, h2, e2, r2, c2, v2, f2, _⟩ :=
    copy_transform2_valid (fun x y => x + y) h1 B A b a (f1 B b hB) (f1 A a hA) (by omega)
  rw [List.zipWith_comm_of_comm (fun x y => x + y) hcomm b a] at v2
  exact ⟨s1, h1, s2, h2, e1, e2, f2 _ _ v1, v2,
    operator_eq_same h2 s1 s2 _ (f2 _ _ v1) v2 (by rw [r1, r2, hr]) (by rw [c1, c2, hc])⟩

/-- Witness for claim C9, amended: the sums `A + B` and `B + A` of the scenario. -/
theorem operator_plus_comm_witness :
    (scenarioA.valid scenarioHeap [1, 2, 3, 4] ∧ scenarioB.valid scenarioHeap [5, 6, 7, 8]) ∧
    ∃ s1 h1 s2 h2, operator_plus scenarioHeap scenarioA scenarioB = some (s1, h1) ∧
      operator_plus h1 scenarioB scenarioA = some (s2, h2) ∧
      s1.valid h2 (List.zipWith (fun x y => x + y) [1, 2, 3, 4] [5, 6, 7, 8]) ∧
      s2.valid h2 (List.zipWith (fun x y => x + y) [1, 2, 3, 4] [5, 6, 7, 8]) ∧
      ∃ res, operator_eq h2 s1 s2 = some res ∧
        (res = true ↔
          ∀ x, x ∈ List.zipWith (fun x y => x + y) [(1 : Int), 2, 3, 4] [5, 6, 7, 8] →
            (x == x) = true) :=
  ⟨by decide,
   operator_plus_comm Int.add_comm scenarioHeap scenarioA scenarioB [1, 2, 3, 4] [5, 6, 7, 8]
    (by decide) (by decide) (by decide) (by decide)⟩

/-- Counterexample for claim C10: over the element type `floating`, whose `NaN` compares unequal
to itself, for the well-formed 1-by-1 matrix `M = [[NaN]]` and the factor `1` held outside of
`M`, the products `M * 1` and `1 * M` are both `[[NaN]]` and `1 * M == M * 1` is false. -/
theorem operator_times_scalar_nan_unequal :
    (matrix.mk 1 1 ⟨some 0, 0⟩).valid (Heap.mk [[floating.nan]]) [floating.nan] ∧
    operator_times_scalar (Heap.mk [[floating.nan]]) ⟨1, 1, ⟨some 0, 0⟩⟩
        (.outside (floating.num 1))
      = some (⟨1, 1, ⟨some 1, 0⟩⟩, Heap.mk [[floating.nan], [floating.nan]]) ∧
    operator_scalar_times (Heap.mk [[floating.nan], [floating.nan]])
        (.outside (floating.num 1)) ⟨1, 1, ⟨some 0, 0⟩⟩
      = some (⟨1, 1, ⟨some 2, 0⟩⟩,
          Heap.mk [[floating.nan], [floating.nan], [floating.nan]]) ∧
    operator_eq (Heap.mk [[floating.nan], [floating.nan], [floating.nan]])
        ⟨1, 1, ⟨some 2, 0⟩⟩ ⟨1, 1, ⟨some 1, 0⟩⟩ = some false := by
  decide

/-- Claim C10, amended. For a well-formed `M` and a scalar factor of value `k` bound outside the
storage of `M`, both `M * k` and `k * M` are defined, have the rows and columns of `M`, and
their element at every linear index `i` is `M[i] * k` (element on the left, factor on the
right); `M *= k` leaves `M` with these elements too; and each of the comparisons
`k * M == M * k` and, after `M *= k`, `M == M * k` returns a value, which is `true` exactly when
every element `M[i] * k` compares equal to itself. -/
theorem operator_times_scalar_entries {T : Type} [Inhabited T] [Mul T] [BEq T]
    (h : Heap T) (M : matrix) (a : List T) (factor : const_reference T) (k : T)
    (hM : M.valid h a) (hk : factor.get h = some k) (hout : factor.outside_of M) :
    ∃ P h1 Q h2 M1 h3,
      operator_times_scalar h M factor = some (P, h1) ∧
      operator_scalar_times h1 factor M = some (Q, h2) ∧
      M.operator_times_assign_scalar h2 factor = some (M1, h3) ∧
      P.rows = M.rows ∧ P.cols = M.cols ∧ Q.rows = M.rows ∧ Q.cols = M.cols ∧
      (∀ i, i < M.size → ∃ x, h.read (M.begin.add (i : Int)) = some x ∧
        h1.read (P.begin.add (i : Int)) = some (x * k) ∧
        h2.read (Q.begin.add (i : Int)) = some (x * k) ∧
        h3.read (M1.begin.add (i : Int)) = some (x * k)) ∧
      (∃ res, operator_eq h2 Q P = some res ∧
        (res = true ↔ ∀ x, x ∈ a → (x * k == x * k) = true)) ∧
      M1 = M ∧
      (∃ res, operator_eq h3 M1 P = some res ∧
        (res = true ↔ ∀ x, x ∈ a → (x * k == x * k) = true)) := by
  obtain ⟨P, h1, e1, r1, c1, v1, f1, s1, k1⟩ :=
    operator_times_scalar_valid h M a factor k hM hk
  obtain ⟨Q, h2, e2, r2, c2, v2, f2, _, k2⟩ :=
    operator_times_scalar_valid h1 M a factor k (f1 M a hM) k1
  have hM2 := f2 M a (f1 M a hM)
  have hP2 := f2 P _ v1
  have e3 := operator_times_assign_scalar_eq h2 M a factor k hM2 k2 hout
  have hM3 := valid_store_self hM2 (a.map fun x => x * k) (by simp)
  have hP3 := valid_store_other hP2 (s1 M a hM) (m := M) (a.map fun x => x * k)
  have hmem : (∀ x, x ∈ a.map (fun x => x * k) → (x == x) = true)
      ↔ ∀ x, x ∈ a → (x * k == x * k) = true := by
    simp [List.forall_mem_map]
  obtain ⟨res1, q1, i1⟩ := operator_eq_same h2 Q P _ v2 hP2 (by rw [r2, r1]) (by rw [c2, c1])
  obtain ⟨res2, q2, i2⟩ := operator_eq_same _ M P _ hM3 hP3 r1.symm c1.symm
  refine ⟨P, h1, Q, h2, M, _, e1, e2, e3, r1, c1, r2, c2, ?_, ⟨res1, q1, i1.trans hmem⟩, rfl,
    ⟨res2, q2, i2.trans hmem⟩⟩
  intro i hi
  have hlt : i < a.length := by rw [hM.2.2.1]; exact hi
  refine ⟨a[i], ?_, ?_, ?_, ?_⟩
  · rw [read_begin_add hM, List.getElem?_eq_getElem hlt]
  · rw [read_begin_add v1]; simp [List.getElem?_eq_getElem hlt]
  · rw [read_begin_add v2]; simp [List.getElem?_eq_getElem hlt]
  · rw [read_begin_add hM3]; simp [List.getElem?_eq_getElem hlt]

/-- Witness for claim C10, amended: the scenario matrix `A` and the factor `6` bound to the
element `B(0,1)`. -/
theorem operator_times_scalar_entries_witness :
    (scenarioA.valid scenarioHeap [1, 2, 3, 4] ∧
      (const_reference.element ⟨some 1, 1⟩).get scenarioHeap = some 6 ∧
      (const_reference.element ⟨some 1, 1⟩ : const_reference Int).outside_of scenarioA) ∧
    ∃ P h1 Q h2 M1 h3,
      operator_times_scalar scenarioHeap scenarioA (.element ⟨some 1, 1⟩) = some (P, h1) ∧
      operator_scalar_times h1 (.element ⟨some 1, 1⟩) scenarioA = some (Q, h2) ∧
      scenarioA.operator_times_assign_scalar h2 (.element ⟨some 1, 1⟩) = some (M1, h3) ∧
      P.rows = scenarioA.rows ∧ P.cols = scenarioA.cols ∧
      Q.rows = scenarioA.rows ∧ Q.cols = scenarioA.cols ∧
      (∀ i, i < scenarioA.size → ∃ x, scenarioHeap.read (scenarioA.begin.add (i : Int)) = some x ∧
        h1.read (P.begin.add (i : Int)) = some (x * 6) ∧
        h2.read (Q.begin.add (i : Int)) = some (x * 6) ∧
        h3.read (M1.begin.add (i : Int)) = some (x * 6)) ∧
      (∃ res, operator_eq h2 Q P = some res ∧
        (res = true ↔ ∀ x, x ∈ [(1 : Int), 2, 3, 4] → (x * 6 == x * 6) = true)) ∧
      M1 = scenarioA ∧
      (∃ res, operator_eq h3 M1 P = some res ∧
        (res = true ↔ ∀ x, x ∈ [(1 : Int), 2, 3, 4] → (x * 6 == x * 6) = true)) :=
  ⟨by decide,
   operator_times_scalar_entries scenarioHeap scenarioA [1, 2, 3, 4] (.element ⟨some 1, 1⟩) 6
    (by decide) (by decide) (by decide)⟩

/-- Claim C11. After `A.swap(B)` the matrix `A` has exactly the rows, columns, data pointer and
element sequence that `B` had before the call, and `B` has exactly those `A` had; the free
store is not touched; swapping twice restores both matrices. -/
theorem swap_exchanges {T : Type} (h : Heap T) (A B : matrix) :
    (A.swap B).1 = B ∧ (A.swap B).2 = A ∧
    (A.swap B).1.rows = B.rows ∧ (A.swap B).1.cols = B.cols ∧
    (A.swap B).1.buffer h = B.buffer h ∧
    (∀ i : Nat, h.read ((A.swap B).1.begin.add (i : Int)) = h.read (B.begin.add (i : Int))) ∧
    (A.swap B).2.rows = A.rows ∧ (A.swap B).2.cols = A.cols ∧
    (A.swap B).2.buffer h = A.buffer h ∧
    (∀ i : Nat, h.read ((A.swap B).2.begin.add (i : Int)) = h.read (A.begin.add (i : Int))) ∧
    (A.swap B).1.swap (A.swap B).2 = (A, B) := by
  simp [swap_eq]

/-- Counterexample for claim C12: over the element type `floating`, whose `NaN` compares unequal
to itself, the copy assignment `A = B` of the well-formed 1-by-1 matrices `A = [[0]]` and
`B = [[NaN]]`, two distinct objects, leaves `A` with the shape and the element of `B`, and
`A == B` is false. -/
theorem operator_assign_nan_unequal :
    ((matrix.mk 1 1 ⟨some 0, 0⟩).valid (Heap.mk [[floating.num 0], [floating.nan]])
        [floating.num 0] ∧
      (matrix.mk 1 1 ⟨some 1, 0⟩).valid (Heap.mk [[floating.num 0], [floating.nan]])
        [floating.nan]) ∧
    matrix.operator_assign (Heap.mk [[floating.num 0], [floating.nan]]) 0 1
        ⟨1, 1, ⟨some 0, 0⟩⟩ ⟨1, 1, ⟨some 1, 0⟩⟩
      = some (⟨1, 1, ⟨some 2, 0⟩⟩,
          Heap.mk [[floating.num 0], [floating.nan], [floating.nan]]) ∧
    operator_eq (Heap.mk [[floating.num 0], [floating.nan], [floating.nan]])
        ⟨1, 1, ⟨some 2, 0⟩⟩ ⟨1, 1, ⟨some 1, 0⟩⟩ = some false := by
  decide

/-- Claim C12, amended. For well-formed `A` and `B`, the copy assignment `A = B` between two
distinct objects is defined and leaves `A` with the rows, columns and elements of `B`, and `B`
unchanged; `A == B` then returns a value, which is `true` exactly when every element of `B`
compares equal to itself; the self-assignment `A = A` changes neither `A` nor the free
store. -/
theorem operator_assign_copies {T : Type} [Inhabited T] [BEq T] (h : Heap T)
    (A B : matrix) (a b : List T) (hA : A.valid h a) (hB : B.valid h b) :
    (∀ pa pb : Nat, pb ≠ pa →
      ∃ A1 h1, A.operator_assign h pa pb B = some (A1, h1) ∧
        A1.rows = B.rows ∧ A1.cols = B.cols ∧ A1.valid h1 b ∧
        (∃ res, operator_eq h1 A1 B = some res ∧
          (res = true ↔ ∀ x, x ∈ b → (x == x) = true)) ∧
        B.valid h1 b ∧
        ∀ i j, h1.read (B.operator_call i j) = h.read (B.operator_call i j)) ∧
    (∀ pa : Nat, A.operator_assign h pa pa A = some (A, h) ∧ A.valid h a) := by
  constructor
  · intro pa pb hne
    obtain ⟨C, h1, e1, r1, c1, v1, _, f1, _⟩ := ctor_copy_valid h B b hB
    refine ⟨C, h1, ?_, r1, c1, v1, operator_eq_same h1 C B b v1 (f1 B b hB) r1 c1,
      f1 B b hB, ?_⟩
    · simp [matrix.operator_assign, hne, e1, swap_eq]
    · intro i j
      rw [read_operator_call (f1 B b hB), read_operator_call hB]
  · intro pa
    exact ⟨by simp [matrix.operator_assign], hA⟩

/-- Witness for claim C12, amended: the assignments `A = B` and `A = A` of the scenario. -/
theorem operator_assign_copies_witness :
    (scenarioA.valid scenarioHeap [1, 2, 3, 4] ∧ scenarioB.valid scenarioHeap [5, 6, 7, 8]) ∧
    ((∀ pa pb : Nat, pb ≠ pa →
      ∃ A1 h1, scenarioA.operator_assign scenarioHeap pa pb scenarioB = some (A1, h1) ∧
        A1.rows = scenarioB.rows ∧ A1.cols = scenarioB.cols ∧ A1.valid h1 [5, 6, 7, 8] ∧
        (∃ res, operator_eq h1 A1 scenarioB = some res ∧
          (res = true ↔ ∀ x, x ∈ [(5 : Int), 6, 7, 8] → (x == x) = true)) ∧
        scenarioB.valid h1 [5, 6, 7, 8] ∧
        ∀ i j, h1.read (scenarioB.operator_call i j)
          = scenarioHeap.read (scenarioB.operator_call i j)) ∧
    (∀ pa : Nat, scenarioA.operator_assign scenarioHeap pa pa scenarioA
        = some (scenarioA, scenarioHeap) ∧ scenarioA.valid scenarioHeap [1, 2, 3, 4])) :=
  ⟨by decide,
   operator_assign_copies scenarioHeap scenarioA scenarioB [1, 2, 3, 4] [5, 6, 7, 8]
    (by decide) (by decide)⟩

/-- Counterexample for claim C14: two column iterators at the same position and column whose
declared strides differ (2 and 3) compare equal. -/
theorem col_iterator_eq_ignores_stride :
    (basic_col_iterator.mk ⟨some 0, 0⟩ 0 2)._current
      = (basic_col_iterator.mk ⟨some 0, 0⟩ 0 3)._current ∧
    (basic_col_iterator.mk ⟨some 0, 0⟩ 0 2).deref
      = (basic_col_iterator.mk ⟨some 0, 0⟩ 0 3).deref ∧
    (basic_col_iterator.mk ⟨some 0, 0⟩ 0 2)._cols
      ≠ (basic_col_iterator.mk ⟨some 0, 0⟩ 0 3)._cols ∧
    (basic_col_iterator.mk ⟨some 0, 0⟩ 0 2).operator_eq
      (basic_col_iterator.mk ⟨some 0, 0⟩ 0 3) = true := by
  decide

/-- Claim C14, amended. Column-iterator equality compares the underlying position and the
logical column and nothing else: two column iterators that differ in column index compare
unequal (also when they point at the same buffer address), and `a == b` is true exactly when
`_current` and `_col` agree, whatever the declared strides. -/
theorem col_iterator_eq_column (a b : basic_col_iterator) (hcol : a._col ≠ b._col) :
    a.operator_eq b = false ∧ a.operator_ne b = true ∧
    ∀ x y : basic_col_iterator,
      (x.operator_eq y = true ↔ x._current = y._current ∧ x._col = y._col) := by
  refine ⟨by simp [basic_col_iterator.operator_eq, hcol],
    by simp [basic_col_iterator.operator_ne, basic_col_iterator.operator_eq, hcol], ?_⟩
  intro x y
  simp [basic_col_iterator.operator_eq]

/-- Witness for claim C14, amended: the iterators of columns 1 and 0 that point at the same
element of the array. -/
theorem col_iterator_eq_column_witness :
    ((basic_col_iterator.mk ⟨some 0, 0⟩ 1 2)._col ≠ (basic_col_iterator.mk ⟨some 0, 1⟩ 0 2)._col ∧
      (basic_col_iterator.mk ⟨some 0, 0⟩ 1 2).deref
        = (basic_col_iterator.mk ⟨some 0, 1⟩ 0 2).deref) ∧
    ((basic_col_iterator.mk ⟨some 0, 0⟩ 1 2).operator_eq
        (basic_col_iterator.mk ⟨some 0, 1⟩ 0 2) = false ∧
      (basic_col_iterator.mk ⟨some 0, 0⟩ 1 2).operator_ne
        (basic_col_iterator.mk ⟨some 0, 1⟩ 0 2) = true ∧
      ∀ x y : basic_col_iterator,
        (x.operator_eq y = true ↔ x._current = y._current ∧ x._col = y._col)) :=
  ⟨by decide,
   col_iterator_eq_column (basic_col_iterator.mk ⟨some 0, 0⟩ 1 2)
    (basic_col_iterator.mk ⟨some 0, 1⟩ 0 2) (by decide)⟩

/-- Claim C15 fails on the code. For the well-formed and compatible operands `A = wideColumn`,
of shape `(2^32, 1)`, and `B = wideRow`, of shape `(1, 2^32)`, the call `A *= B` evaluates
`*this * other`, whose result is built by `matrix(2^32, 2^32)` with `rows * cols == 0` in
`size_t`: the product writes through a null pointer and `A *= B` has no result, where the claim
asks for `A` to become the product. -/
theorem operator_times_assign_overflow :
    wideColumn.valid wideHeap (List.replicate (2 ^ 32) 1) ∧
    wideRow.valid wideHeap (List.replicate (2 ^ 32) 1) ∧
    wideColumn.cols = wideRow.rows ∧
    size_t_mul wideColumn.rows wideRow.cols = 0 ∧
    wideColumn.operator_times_assign wideHeap wideRow = none :=
  ⟨wide_valid.1, wide_valid.2, by decide, by decide,
    by rw [operator_times_assign_eq]; exact wide_times_none.2⟩

/-- Counterexample for claim C16: over the element type `floating`, whose `NaN` compares unequal
to itself, for the well-formed 1-by-1 matrices `A = [[NaN]]` and `B = [[0]]` the sum `A + B` is
`[[NaN]]`, `A += B` leaves `A = [[NaN]]` with `B` unchanged, and afterwards `A == A + B` is
false. -/
theorem operator_plus_assign_nan_unequal :
    ((matrix.mk 1 1 ⟨some 0, 0⟩).valid (Heap.mk [[floating.nan], [floating.num 0]])
        [floating.nan] ∧
      (matrix.mk 1 1 ⟨some 1, 0⟩).valid (Heap.mk [[floating.nan], [floating.num 0]])
        [floating.num 0]) ∧
    operator_plus (Heap.mk [[floating.nan], [floating.num 0]]) ⟨1, 1, ⟨some 0, 0⟩⟩
        ⟨1, 1, ⟨some 1, 0⟩⟩
      = some (⟨1, 1, ⟨some 2, 0⟩⟩,
          Heap.mk [[floating.nan], [floating.num 0], [floating.nan]]) ∧
    matrix.operator_plus_assign (Heap.mk [[floating.nan], [floating.num 0], [floating.nan]])
        ⟨1, 1, ⟨some 0, 0⟩⟩ ⟨1, 1, ⟨some 1, 0⟩⟩
      = some (⟨1, 1, ⟨some 0, 0⟩⟩,
          Heap.mk [[floating.nan], [floating.num 0], [floating.nan]]) ∧
    operator_eq (Heap.mk [[floating.nan], [floating.num 0], [floating.nan]])
        ⟨1, 1, ⟨some 0, 0⟩⟩ ⟨1, 1, ⟨some 2, 0⟩⟩ = some false := by
  decide

/-- Claim C16, amended. For well-formed `A` and `B` with `B.size() >= A.size()`, `A + B` and
`A - B` are defined, have the rows and columns of the left operand `A`, and their element at
every linear index `i < A.size()` is `A[i] + B[i]`, respectively `A[i] - B[i]`; when `A` and `B`
have the same shape this is element `(r, c) = A(r,c) + B(r,c)`, respectively minus; and `A += B`
and `A -= B` leave `A` with the elements of `A + B`, respectively `A - B`, with `B` unchanged
when `B` is another matrix than `A` (two matrices own different arrays); the comparison of `A`
with `A + B`, respectively `A - B`, then returns a value, which is `true` exactly when every one
of these elements compares equal to itself. -/
theorem operator_plus_minus_entries {T : Type} [Inhabited T] [Add T] [Sub T] [BEq T]
    (h : Heap T) (A B : matrix) (a b : List T) (hA : A.valid h a)
    (hB : B.valid h b) (hsz : A.size ≤ B.size) :
    ∃ S h1 D h2,
      operator_plus h A B = some (S, h1) ∧ operator_minus h1 A B = some (D, h2) ∧
      S.rows = A.rows ∧ S.cols = A.cols ∧ D.rows = A.rows ∧ D.cols = A.cols ∧
      (∀ i, i < A.size → ∃ x y, h.read (A.begin.add (i : Int)) = some x ∧
        h.read (B.begin.add (i : Int)) = some y ∧
        h1.read (S.begin.add (i : Int)) = some (x + y) ∧
        h2.read (D.begin.add (i : Int)) = some (x - y)) ∧
      (A.rows = B.rows → A.cols = B.cols → ∀ r, r < A.rows → ∀ c, c < A.cols →
        ∃ x y, h.read (A.operator_call r c) = some x ∧ h.read (B.operator_call r c) = some y ∧
          h1.read (S.operator_call r c) = some (x + y) ∧
          h2.read (D.operator_call r c) = some (x - y)) ∧
      (A.separate B ∨ B = A →
        (∃ h3, A.operator_plus_assign h2 B = some (A, h3) ∧
          A.valid h3 (List.zipWith (fun x y => x + y) a b) ∧
          S.valid h3 (List.zipWith (fun x y => x + y) a b) ∧
          (∃ res, operator_eq h3 A S = some res ∧
            (res = true ↔
              ∀ x, x ∈ List.zipWith (fun x y => x + y) a b → (x == x) = true)) ∧
          (A.separate B → B.valid h3 b)) ∧
        (∃ h4, A.operator_minus_assign h2 B = some (A, h4) ∧
          A.valid h4 (List.zipWith (fun x y => x - y) a b) ∧
          D.valid h4 (List.zipWith (fun x y => x - y) a b) ∧
          (∃ res, operator_eq h4 A D = some res ∧
            (res = true ↔
              ∀ x, x ∈ List.zipWith (fun x y => x - y) a b → (x == x) = true)) ∧
          (A.separate B → B.valid h4 b))) := by
  have hlen : a.length ≤ b.length := by
    rw [hA.2.2.1, hB.2.2.1]; exact hsz
  obtain ⟨S, h1, e1, r1, c1, v1, f1, s1⟩ :=
    copy_transform2_valid (fun x y => x + y) h A B a b hA hB hlen
  obtain ⟨D, h2, e2, r2, c2, v2, f2, s2⟩ :=
    copy_transform2_valid (fun x y => x - y) h1 A B a b (f1 A a hA) (f1 B b hB) hlen
  have hA2 := f2 A a (f1 A a hA)
  have hB2 := f2 B b (f1 B b hB)
  have hS2 := f2 S _ v1
  refine ⟨S, h1, D, h2, e1, e2, r1, c1, r2, c2, ?_, ?_, ?_⟩
  · intro i hi
    have hia : i < a.length := by rw [hA.2.2.1]; exact hi
    obtain ⟨x, y, hx, hy, hxy⟩ := zipWith_getElem?_of_lt (fun x y => x + y) a b i hia hlen
    obtain ⟨x', y', hx', hy', hxy'⟩ := zipWith_getElem?_of_lt (fun x y => x - y) a b i hia hlen
    have ex : x' = x := by rw [hx] at hx'; exact (Option.some.inj hx').symm
    have ey : y' = y := by rw [hy] at hy'; exact (Option.some.inj hy').symm
    subst ex ey
    exact ⟨x', y', by rw [read_begin_add hA, hx], by rw [read_begin_add hB, hy],
      by rw [read_begin_add v1, hxy], by rw [read_begin_add v2, hxy']⟩
  · intro hr hc r hr1 c hc1
    simp only [matrix.rows, matrix.cols] at hr hc hr1 hc1
    have hia : A._cols * r + c < a.length := by
      rw [hA.2.2.1, Nat.mul_comm]; exact idx_lt hr1 hc1
    obtain ⟨x, y, hx, hy, hxy⟩ :=
      zipWith_getElem?_of_lt (fun x y => x + y) a b _ hia hlen
    obtain ⟨x', y', hx', hy', hxy'⟩ :=
      zipWith_getElem?_of_lt (fun x y => x - y) a b _ hia hlen
    have ex : x' = x := by rw [hx] at hx'; exact (Option.some.inj hx').symm
    have ey : y' = y := by rw [hy] at hy'; exact (Option.some.inj hy').symm
    subst ex ey
    exact ⟨x', y', by rw [read_operator_call hA, hx], by rw [read_operator_call hB, ← hc, hy],
      by rw [read_operator_call v1, c1, hxy], by rw [read_operator_call v2, c2, hxy']⟩
  · rintro (hsep | hBA)
    · constructor
      · obtain ⟨h3, e3, vA3, vB3, f3⟩ :=
          transform2_assign_valid (fun x y => x + y) h2 A B a b hA2 hB2 hsep hlen
        have vS3 := f3 S _ hS2 (s1 A a hA)
        exact ⟨h3, by simp [matrix.operator_plus_assign, e3], vA3, vS3,
          operator_eq_same h3 A S _ vA3 vS3 r1.symm c1.symm, fun _ => vB3⟩
      · obtain ⟨h4, e4, vA4, vB4, f4⟩ :=
          transform2_assign_valid (fun x y => x - y) h2 A B a b hA2 hB2 hsep hlen
        have vD4 := f4 D _ v2 (s2 A a (f1 A a hA))
        exact ⟨h4, by simp [matrix.operator_minus_assign, e4], vA4, vD4,
          operator_eq_same h4 A D _ vA4 vD4 r2.symm c2.symm, fun _ => vB4⟩
    · subst hBA
      have hba : b = a := by
        have h1 := hA.2.1
        rw [hB.2.1] at h1
        exact Option.some.inj h1
      subst hba
      constructor
      · obtain ⟨h3, e3, vA3, f3⟩ := transform2_self_valid (fun x y => x + y) h2 B b hA2
        have vS3 := f3 S _ hS2 (s1 B b hA)
        exact ⟨h3, by simp [matrix.operator_plus_assign, e3], vA3, vS3,
          operator_eq_same h3 B S _ vA3 vS3 r1.symm c1.symm, fun hs => f3 B b hB2 hs⟩
      · obtain ⟨h4, e4, vA4, f4⟩ := transform2_self_valid (fun x y => x - y) h2 B b hA2
        have vD4 := f4 D _ v2 (s2 B b (f1 B b hA))
        exact ⟨h4, by simp [matrix.operator_minus_assign, e4], vA4, vD4,
          operator_eq_same h4 B D _ vA4 vD4 r2.symm c2.symm, fun hs => f4 B b hB2 hs⟩

/-- Witness for claim C16, amended: the scenario, where `A + B = [[6,8],[10,12]]`. -/
theorem operator_plus_minus_entries_witness :
    (scenarioA.valid scenarioHeap [1, 2, 3, 4] ∧ scenarioB.valid scenarioHeap [5, 6, 7, 8] ∧
      scenarioA.size ≤ scenarioB.size) ∧
    (∃ S h1 D h2,
      operator_plus scenarioHeap scenarioA scenarioB = some (S, h1) ∧ operator_minus h1 scenarioA scenarioB = some (D, h2) ∧
      S.rows = scenarioA.rows ∧ S.cols = scenarioA.cols ∧ D.rows = scenarioA.rows ∧ D.cols = scenarioA.cols ∧
      (∀ i, i < scenarioA.size → ∃ x y, scenarioHeap.read (scenarioA.begin.add (i : Int)) = some x ∧
        scenarioHeap.read (scenarioB.begin.add (i : Int)) = some y ∧
        h1.read (S.begin.add (i : Int)) = some (x + y) ∧
        h2.read (D.begin.add (i : Int)) = some (x - y)) ∧
      (scenarioA.rows = scenarioB.rows → scenarioA.cols = scenarioB.cols → ∀ r, r < scenarioA.rows → ∀ c, c < scenarioA.cols →
        ∃ x y, scenarioHeap.read (scenarioA.operator_call r c) = some x ∧ scenarioHeap.read (scenarioB.operator_call r c) = some y ∧
          h1.read (S.operator_call r c) = some (x + y) ∧
          h2.read (D.operator_call r c) = some (x - y)) ∧
      (scenarioA.separate scenarioB ∨ scenarioB = scenarioA →
        (∃ h3, scenarioA.operator_plus_assign h2 scenarioB = some (scenarioA, h3) ∧
          scenarioA.valid h3 (List.zipWith (fun x y => x + y) [(1 : Int), 2, 3, 4] [5, 6, 7, 8]) ∧
          S.valid h3 (List.zipWith (fun x y => x + y) [(1 : Int), 2, 3, 4] [5, 6, 7, 8]) ∧
          (∃ res, operator_eq h3 scenarioA S = some res ∧
            (res = true ↔
              ∀ x, x ∈ List.zipWith (fun x y => x + y) [(1 : Int), 2, 3, 4] [5, 6, 7, 8] → (x == x) = true)) ∧
          (scenarioA.separate scenarioB → scenarioB.valid h3 [5, 6, 7, 8])) ∧
        (∃ h4, scenarioA.operator_minus_assign h2 scenarioB = some (scenarioA, h4) ∧
          scenarioA.valid h4 (List.zipWith (fun x y => x - y) [(1 : Int), 2, 3, 4] [5, 6, 7, 8]) ∧
          D.valid h4 (List.zipWith (fun x y => x - y) [(1 : Int), 2, 3, 4] [5, 6, 7, 8]) ∧
          (∃ res, operator_eq h4 scenarioA D = some res ∧
            (res = true ↔
              ∀ x, x ∈ List.zipWith (fun x y => x - y) [(1 : Int), 2, 3, 4] [5, 6, 7, 8] → (x == x) = true)) ∧
          (scenarioA.separate scenarioB → scenarioB.valid h4 [5, 6, 7, 8])))) ∧
    (operator_plus scenarioHeap scenarioA scenarioB).map (fun s => s.2.blocks)
      = some [[1, 2, 3, 4], [5, 6, 7, 8], [6, 8, 10, 12]] :=
  ⟨by decide,
   operator_plus_minus_entries scenarioHeap scenarioA scenarioB [1, 2, 3, 4] [5, 6, 7, 8]
    (by decide) (by decide) (by decide),
   by decide⟩

/-- Claim C17 fails on the code. The dimensioned constructor called as `matrix(2^62 + 1, 4)`
computes `rows * cols` in `size_t`, where it is `4`: the matrix reports `rows() == 2^62 + 1` and
`cols() == 4` and owns an array of `4` elements, not of `(2^62 + 1) * 4`, so that it is not
normalized, whatever its element sequence is taken to be.  And the product of the normalized
operands `wideColumn`, of shape `(2^32, 1)`, and `wideRow`, of shape `(1, 2^32)`, whose result is
built by this constructor, has no result at all. -/
theorem normalization_invariant_overflow :
    size_t_mul (2 ^ 62 + 1) 4 = 4 ∧
    matrix.ctor (Heap.mk ([] : List (List Int))) (2 ^ 62 + 1) 4
      = (⟨2 ^ 62 + 1, 4, ⟨some 0, 0⟩⟩, Heap.mk [[0, 0, 0, 0]]) ∧
    (matrix.ctor (Heap.mk ([] : List (List Int))) (2 ^ 62 + 1) 4).1.rows = 2 ^ 62 + 1 ∧
    (matrix.ctor (Heap.mk ([] : List (List Int))) (2 ^ 62 + 1) 4).1.cols = 4 ∧
    (matrix.ctor (Heap.mk ([] : List (List Int))) (2 ^ 62 + 1) 4).1.buffer
        (matrix.ctor (Heap.mk ([] : List (List Int))) (2 ^ 62 + 1) 4).2
      = some [0, 0, 0, 0] ∧
    ([0, 0, 0, 0] : List Int).length ≠ (2 ^ 62 + 1) * 4 ∧
    (∀ buf, ¬ (matrix.ctor (Heap.mk ([] : List (List Int))) (2 ^ 62 + 1) 4).1.normalized
        (matrix.ctor (Heap.mk ([] : List (List Int))) (2 ^ 62 + 1) 4).2 buf) ∧
    wideColumn.normalized wideHeap (List.replicate (2 ^ 32) 1) ∧
    wideRow.normalized wideHeap (List.replicate (2 ^ 32) 1) ∧
    wideColumn.cols = wideRow.rows ∧
    operator_times wideHeap wideColumn wideRow = none := by
  have hb : (matrix.ctor (Heap.mk ([] : List (List Int))) (2 ^ 62 + 1) 4).1.buffer
      (matrix.ctor (Heap.mk ([] : List (List Int))) (2 ^ 62 + 1) 4).2
        = some [0, 0, 0, 0] := by decide
  refine ⟨by decide, by decide, by decide, by decide, hb, by decide, ?_,
    ⟨wide_valid.1, by decide⟩, ⟨wide_valid.2, by decide⟩, by decide, wide_times_none.2⟩
  intro buf hn
  have h1 := hn.1.2.1
  rw [hb] at h1
  have h2 := hn.1.2.2.1
  rw [← Option.some.inj h1] at h2
  revert h2
  decide

/-- Claim C18 fails on the code. For `M = [[1,2],[3,4]]` the call `M *= M(0, 1)`, whose factor
is a reference to an element of `M` (of value `2`), leaves `M = [[2,4],[12,16]]`: once `M(0,1)`
has been overwritten with `4`, the later elements are multiplied by `4`.  The claim asks for
`[[2,4],[6,8]]`, which is what `M * M(0, 1)` returns. -/
theorem operator_times_assign_scalar_aliased :
    scenarioA.valid scenarioHeap [1, 2, 3, 4] ∧
    scenarioHeap.read (scenarioA.operator_call 0 1) = some 2 ∧
    scenarioA.operator_times_assign_scalar scenarioHeap
        (.element (scenarioA.operator_call 0 1))
      = some (scenarioA, ⟨[[2, 4, 12, 16], [5, 6, 7, 8]]⟩) ∧
    (operator_times_scalar scenarioHeap scenarioA (.element (scenarioA.operator_call 0 1))).map
        (fun s => s.2.blocks)
      = some [[1, 2, 3, 4], [5, 6, 7, 8], [2, 4, 6, 8]] := by
  decide

/-- Claim C19 fails on the code. The operands `wideColumn`, of shape `(2^32, 1)`, and `wideRow`,
of shape `(1, 2^32)`, are normalized and compatible.  The result of their product is built by
`matrix(2^32, 2^32)`, whose `rows * cols` is `0` in `size_t`, so that the output cursor `it`
starts at the null pointer.  For the first cell the calls `row_begin(0)`, `row_end(0)` and
`col_begin(0)` meet their assertions and the inner product reads its two elements and returns
`1`, and then `*it = 1` writes through the null pointer, outside of every array: the run is
not defined. -/
theorem operator_times_in_bounds_overflow :
    wideColumn.normalized wideHeap (List.replicate (2 ^ 32) 1) ∧
    wideRow.normalized wideHeap (List.replicate (2 ^ 32) 1) ∧
    wideColumn.cols = wideRow.rows ∧
    (matrix.ctor wideHeap wideColumn.rows wideRow.cols).1.begin = nullptr ∧
    (matrix.ctor wideHeap wideColumn.rows wideRow.cols).2 = wideHeap ∧
    wideColumn.row_begin 0 = some ⟨some 0, 0⟩ ∧
    wideColumn.row_end 0 = some ⟨some 0, 1⟩ ∧
    wideRow.col_begin 0 = some ⟨⟨some 1, 0⟩, 0, 2 ^ 32⟩ ∧
    std_inner_product wideHeap ⟨some 0, 0⟩ ⟨some 0, 1⟩ ⟨⟨some 1, 0⟩, 0, 2 ^ 32⟩ (0 : Int)
      = some 1 ∧
    wideHeap.write nullptr 1 = none ∧
    operator_times_body wideColumn wideRow 0 0 (wideHeap, nullptr) = none ∧
    operator_times wideHeap wideColumn wideRow = none ∧
    operator_times_traced wideHeap wideColumn wideRow = none :=
  ⟨⟨wide_valid.1, by decide⟩, ⟨wide_valid.2, by decide⟩, by decide,
    by rw [wide_times_none.1]; rfl, by rw [wide_times_none.1], by decide, by decide, by decide,
    std_inner_product_one wideHeap ⟨some 0, 0⟩ ⟨⟨some 1, 0⟩, 0, 2 ^ 32⟩ 1 1 0 wide_read.1
      wide_read.2,
    rfl, operator_times_body_null wideColumn wideRow 0 0 wideHeap, wide_times_none.2,
    by rw [operator_times_traced_eq, wide_times_none.2]; rfl⟩

/-- Claim C20 fails on the code. With a 64-bit `size_t`, `matrix(2^32, 2^32)` has
`rows * cols == 0` modulo `2^64` and collapses to the empty matrix although neither argument
is zero; and `matrix(2^32 + 1, 2^32)` reports `rows() == 2^32 + 1` and `cols() == 2^32` but owns
an array of `2^32` elements only, not of `(2^32 + 1) * 2^32`, so that its element `(1, 0)` lies
outside the array. -/
theorem ctor_size_t_wraps :
    (2 : Nat) ^ 32 ≠ 0 ∧
    (matrix.ctor (Heap.mk ([] : List (List Int))) (2 ^ 32) (2 ^ 32)).1
      = ⟨0, 0, nullptr⟩ ∧
    (matrix.ctor (Heap.mk ([] : List (List Int))) (2 ^ 32) (2 ^ 32)).1.rows = 0 ∧
    (matrix.ctor (Heap.mk ([] : List (List Int))) (2 ^ 32) (2 ^ 32)).1.cols = 0 ∧
    (matrix.ctor (Heap.mk ([] : List (List Int))) (2 ^ 32) (2 ^ 32)).1.empty = true ∧
    (matrix.ctor (Heap.mk ([] : List (List Int))) (2 ^ 32 + 1) (2 ^ 32)).1.rows
      = 2 ^ 32 + 1 ∧
    (matrix.ctor (Heap.mk ([] : List (List Int))) (2 ^ 32 + 1) (2 ^ 32)).1.cols
      = 2 ^ 32 ∧
    ∃ buf,
      (matrix.ctor (Heap.mk ([] : List (List Int))) (2 ^ 32 + 1) (2 ^ 32)).1.buffer
        (matrix.ctor (Heap.mk ([] : List (List Int))) (2 ^ 32 + 1) (2 ^ 32)).2
        = some buf ∧
      buf.length = 2 ^ 32 ∧ buf.length ≠ (2 ^ 32 + 1) * 2 ^ 32 ∧
      (matrix.ctor (Heap.mk ([] : List (List Int))) (2 ^ 32 + 1) (2 ^ 32)).2.read
        ((matrix.ctor (Heap.mk ([] : List (List Int))) (2 ^ 32 + 1)
          (2 ^ 32)).1.operator_call 1 0) = none := by
  have e : size_t_mul (2 ^ 32 + 1) (2 ^ 32) = 2 ^ 32 := by decide
  have hne : ¬ ((2 : Nat) ^ 32 = 0) := by decide
  refine ⟨hne, by decide, by decide, by decide, by decide, ?_, ?_, ?_⟩
  · simp only [matrix.ctor, e, hne, if_false, matrix.rows]
  · simp only [matrix.ctor, e, hne, if_false, matrix.cols]
  · refine ⟨List.replicate (2 ^ 32) default, ?_, List.length_replicate _ _, ?_, ?_⟩
    · simp only [matrix.ctor, e, hne, if_false, Heap.alloc, matrix.buffer,
        List.length_nil, List.nil_append, if_true]
      rfl
    · rw [List.length_replicate]; decide
    · have hp : (matrix.ctor (Heap.mk ([] : List (List Int))) (2 ^ 32 + 1)
          (2 ^ 32)).1.operator_call 1 0 = ⟨some 0, ((2 ^ 32 : Nat) : Int)⟩ := by
        simp only [matrix.ctor, e, hne, if_false, Heap.alloc, matrix.operator_call,
          Ptr.add, List.length_nil]
        rfl
      have hb : (matrix.ctor (Heap.mk ([] : List (List Int))) (2 ^ 32 + 1)
          (2 ^ 32)).2.blocks[0]? = some (List.replicate (2 ^ 32) default) := by
        simp only [matrix.ctor, e, hne, if_false, Heap.alloc, List.nil_append]
        rfl
      rw [hp, read_nat _ 0 (2 ^ 32) _ hb]
      exact List.getElem?_eq_none (by rw [List.length_replicate])

end MatrixH
